import Mathlib

/-!
# Verification of the augmented AVL interval tree
(`src/Augmented_AVL_trees_as_memoization_table/remove_common_subsequences_dp_reinventing_the_wheel.py`)

The Python class `interval_tree_genomics` is a mutable, pointer-based
structure: every node holds `left_child` / `right_child` / `parent`
references to other node objects.  We embed it shallowly with an explicit
heap: a node is a record of its fields, object references are indices into
a list of records (`Heap`), and every method becomes a function from heaps
to heaps.  Object identity (`node_id`, and Python `==` on objects) is index
equality.  All recursion in the source is unbounded, so every recursive
function takes fuel; running out of fuel is reported as `Err.outOfFuel`,
kept distinct from the two exceptions the source can actually raise
(`AttributeError` from dereferencing `None`, and the
`ValueError("AAAAAA ILLEGAL BALANCE FACTOR")` of line 152).
-/

namespace ITG

/-- One `interval_tree_genomics` object: the fields assigned by the
constructor body (source lines 24-33).  `sequence`, `ref_seq_id` and
`targ_seq_id` are opaque payload; the tree never inspects them. -/
structure NodeRec where
  left_child : Option Nat
  right_child : Option Nat
  parent : Option Nat
  sequence : Option Nat
  balance_factor : Int
  interval_start : Int
  interval_end : Int
  ref_seq_id : Option Nat
  targ_seq_id : Option Nat
  max_position : Int
  deriving Repr, DecidableEq, Inhabited

/-- The object heap: index = object identity = `node_id`. -/
abbrev Heap := List NodeRec

/-- Read the record of object `i`. -/
def rd (h : Heap) (i : Nat) : NodeRec := h.getD i default

/-- Write the record of object `i`. -/
def wr (h : Heap) (i : Nat) (r : NodeRec) : Heap := h.set i r

/-- Run-time outcomes of the methods: the two exceptions the source can
raise, plus fuel exhaustion of the embedding. -/
inductive Err where
  | attributeError
  | valueError
  | outOfFuel
  deriving Repr, DecidableEq

abbrev Res (α : Type) := Except Err α

instance {ε α : Type} [DecidableEq ε] [DecidableEq α] : DecidableEq (Except ε α) := by
  intro a b
  cases a <;> cases b
  case error.error x y =>
    exact if h : x = y then .isTrue (by rw [h]) else .isFalse (by intro hc; cases hc; exact h rfl)
  case ok.ok x y =>
    exact if h : x = y then .isTrue (by rw [h]) else .isFalse (by intro hc; cases hc; exact h rfl)
  case error.ok x y => exact .isFalse (by intro hc; cases hc)
  case ok.error x y => exact .isFalse (by intro hc; cases hc)

/-- `get_root` (source lines 74-78): follow `parent` links upward until a
node with no parent is reached. -/
def get_root : Nat → Heap → Nat → Res Nat
  | 0, _, _ => .error .outOfFuel
  | fuel + 1, h, i =>
    match (rd h i).parent with
    | none => .ok i
    | some p => get_root fuel h p

/-- `update_root` (source lines 80-84): find the root, then clear its
`parent` if set (dead code: `get_root` only stops at `parent = None`). -/
def update_root (fuel : Nat) (h : Heap) (i : Nat) : Res (Heap × Nat) := do
  let r ← get_root fuel h i
  match (rd h r).parent with
  | some _ => .ok (wr h r { rd h r with parent := none }, r)
  | none => .ok (h, r)

/-- Lines 89-91 of `_single_left_rotation`, with `nr = self.right_child`:
`self.right_child = new_root.left_child`, then re-parent that moved
subtree to `self` if it is present. -/
def slrMoveSubtree (h : Heap) (x nr : Nat) : Heap :=
  let nrLeft := (rd h nr).left_child
  let h1 := wr h x { rd h x with right_child := nrLeft }
  match nrLeft with
  | some c => wr h1 c { rd h1 c with parent := some x }
  | none => h1

/-- Lines 92-100 of `_single_left_rotation` (textually identical to lines
115-123 of `_single_right_rotation`): `new_root.parent = self.parent`,
then — unless `self` was the root — redirect the former parent's child
link to `new_root` (the identity test `self == self.parent.left_child`
is false when that child is `None`). -/
def parentRelink (h : Heap) (x nr : Nat) : Heap :=
  let selfParent := (rd h x).parent
  let h3 := wr h nr { rd h nr with parent := selfParent }
  match selfParent with
  | none => h3
  | some p =>
    if (rd h3 p).left_child = some x then
      wr h3 p { rd h3 p with left_child := some nr }
    else
      wr h3 p { rd h3 p with right_child := some nr }

/-- Lines 101-105 of `_single_left_rotation`: `new_root.left_child =
self`, `self.parent = new_root`, and both balance factors reset to 0. -/
def slrFinish (h : Heap) (x nr : Nat) : Heap :=
  let h5 := wr h nr { rd h nr with left_child := some x }
  let h6 := wr h5 x { rd h5 x with parent := some nr }
  let h7 := wr h6 x { rd h6 x with balance_factor := 0 }
  wr h7 nr { rd h7 nr with balance_factor := 0 }

/-- `_single_left_rotation` (source lines 86-107).  `x` is `self`.  When
`self.right_child` is `None`, line 89 dereferences `None` and raises
`AttributeError`.  Otherwise the pointer surgery of lines 89-105 runs in
source order, and line 107 returns `new_root.update_root()`. -/
def singleLeftRotation (fuel : Nat) (h : Heap) (x : Nat) : Res (Heap × Nat) :=
  match (rd h x).right_child with
  | none => .error .attributeError
  | some nr =>
    update_root fuel (slrFinish (parentRelink (slrMoveSubtree h x nr) x nr) x nr) nr

/-- Lines 112-114 of `_single_right_rotation`, the mirror image of
`slrMoveSubtree`. -/
def srrMoveSubtree (h : Heap) (x nr : Nat) : Heap :=
  let nrRight := (rd h nr).right_child
  let h1 := wr h x { rd h x with left_child := nrRight }
  match nrRight with
  | some c => wr h1 c { rd h1 c with parent := some x }
  | none => h1

/-- Lines 124-128 of `_single_right_rotation`, the mirror image of
`slrFinish`. -/
def srrFinish (h : Heap) (x nr : Nat) : Heap :=
  let h5 := wr h nr { rd h nr with right_child := some x }
  let h6 := wr h5 x { rd h5 x with parent := some nr }
  let h7 := wr h6 x { rd h6 x with balance_factor := 0 }
  wr h7 nr { rd h7 nr with balance_factor := 0 }

/-- `_single_right_rotation` (source lines 109-130), the mirror image of
`singleLeftRotation`. -/
def singleRightRotation (fuel : Nat) (h : Heap) (x : Nat) : Res (Heap × Nat) :=
  match (rd h x).left_child with
  | none => .error .attributeError
  | some nr =>
    update_root fuel (srrFinish (parentRelink (srrMoveSubtree h x nr) x nr) x nr) nr

/-- `_double_right_left_rotation` (source lines 132-134): rotate the right
child right, then this node left.  The method returns `None`; the rotation
return values are discarded. -/
def doubleRightLeftRotation (fuel : Nat) (h : Heap) (x : Nat) : Res Heap :=
  match (rd h x).right_child with
  | none => .error .attributeError
  | some rc => do
    let (h1, _) ← singleRightRotation fuel h rc
    let (h2, _) ← singleLeftRotation fuel h1 x
    .ok h2

/-- `_double_left_right_rotation` (source lines 136-138). -/
def doubleLeftRightRotation (fuel : Nat) (h : Heap) (x : Nat) : Res Heap :=
  match (rd h x).left_child with
  | none => .error .attributeError
  | some lc => do
    let (h1, _) ← singleLeftRotation fuel h lc
    let (h2, _) ← singleRightRotation fuel h1 x
    .ok h2

/-- The rotation dispatch of `_update_balance_factors_and_rebalance`
(source lines 154-171), evaluated after the adjusted balance factor `bf`
of `x` has been stored.  Returns `some h'` when one of the four rotation
branches fired (the method then returns), `none` when all the `elif`
guards were false (the method falls through to lines 174-176).  Python
short-circuit: the child's `balance_factor` is only dereferenced when the
first conjunct `bf == ±2` holds; a missing child then raises
`AttributeError`. -/
def rebalanceDispatch (fuel : Nat) (h : Heap) (x : Nat) (bf : Int) : Res (Option Heap) :=
  if bf = 2 then
    match (rd h x).right_child with
    | none => .error .attributeError
    | some rc =>
      if (rd h rc).balance_factor = 1 then do
        let (h1, _) ← singleLeftRotation fuel h x
        .ok (some h1)
      else if (rd h rc).balance_factor = -1 then do
        let h1 ← doubleRightLeftRotation fuel h x
        .ok (some h1)
      else .ok none
  else if bf = -2 then
    match (rd h x).left_child with
    | none => .error .attributeError
    | some lc =>
      if (rd h lc).balance_factor = -1 then do
        let (h1, _) ← singleRightRotation fuel h x
        .ok (some h1)
      else if (rd h lc).balance_factor = 1 then do
        let h1 ← doubleLeftRightRotation fuel h x
        .ok (some h1)
      else .ok none
  else .ok none

/-- Lines 142-145 of `_update_balance_factors_and_rebalance`: adjust
`x`'s stored balance factor by the side that grew; returns the written
heap and the new value. -/
def bfAdjust (h : Heap) (x : Nat) (insertionAtRightSubtree : Bool) : Heap × Int :=
  let bf := if insertionAtRightSubtree then (rd h x).balance_factor + 1
            else (rd h x).balance_factor - 1
  (wr h x { rd h x with balance_factor := bf }, bf)

/-- `_update_balance_factors_and_rebalance` (source lines 141-176).
Adjust `x`'s balance factor by the side that grew (lines 142-145); stop
at 0 (line 147); raise `ValueError` beyond magnitude 2 (lines 151-152);
otherwise try the four rotation cases (lines 154-171) and, if none fired,
continue at the parent (lines 174-176) — where
`self.parent.right_child.node_id` raises `AttributeError` whenever the
parent has no right child. -/
def updateBalanceFactorsAndRebalance : Nat → Heap → Nat → Bool → Res Heap
  | 0, _, _, _ => .error .outOfFuel
  | fuel + 1, h, x, insertionAtRightSubtree =>
    let hb := bfAdjust h x insertionAtRightSubtree
    if hb.2 = 0 then .ok hb.1
    else if 2 < hb.2.natAbs then .error .valueError
    else
      match rebalanceDispatch fuel hb.1 x hb.2 with
      | .error e => .error e
      | .ok (some h1) => .ok h1
      | .ok none =>
        match (rd hb.1 x).parent with
        | none => .ok hb.1
        | some p =>
          match (rd hb.1 p).right_child with
          | none => .error .attributeError
          | some prc =>
            updateBalanceFactorsAndRebalance fuel hb.1 p (prc = x)

/-- The `max_position` update at the tail of `insert` (source lines
64-71), executed at `self` on the way out of every level of the
recursive descent: do nothing when both children are missing (lines
64-65), otherwise fold the present children's current `max_position`
into `self`'s own. -/
def maxUpdate (h1 : Heap) (self : Nat) : Heap :=
  let s := rd h1 self
  match s.left_child, s.right_child with
  | none, none => h1
  | some l, none =>
    wr h1 self { s with max_position := max s.max_position (rd h1 l).max_position }
  | none, some r =>
    wr h1 self { s with max_position := max s.max_position (rd h1 r).max_position }
  | some l, some r =>
    wr h1 self
      { s with max_position := max (max (rd h1 l).max_position (rd h1 r).max_position)
                                   s.max_position }

/-- Lines 52-53 / 61-62 of `insert`: set the new node's `parent` to
`self`, then link it in as the left (`right = false`) or right
(`right = true`) child. -/
def attachChild (h : Heap) (self node : Nat) (right : Bool) : Heap :=
  let ha := wr h node { rd h node with parent := some self }
  if right then wr ha self { rd ha self with right_child := some node }
  else wr ha self { rd ha self with left_child := some node }

/-- `insert` (source lines 35-71).  `self` descends by comparing
`interval_start` (ties go left); at an empty slot the new node is linked
in (lines 52-53 / 61-62) and the rebalance driver runs (lines 54 / 63);
then, on the way back out of the recursion, lines 64-71 update
`max_position` of `self` from its current children.  The method returns
`None` on every path, modelled by the `Option Nat` component (always
`none`). -/
def insert : Nat → Heap → Nat → Nat → Res (Heap × Option Nat)
  | 0, _, _, _ => .error .outOfFuel
  | fuel + 1, h, self, node =>
    match (if (rd h self).interval_start ≥ (rd h node).interval_start then
        -- lines 47-54
        match (rd h self).left_child with
        | some l => (insert fuel h l node).map Prod.fst
        | none =>
          updateBalanceFactorsAndRebalance fuel (attachChild h self node false) self false
      else
        -- lines 56-63 (the `elif` guard `<` is the exact complement)
        match (rd h self).right_child with
        | some r => (insert fuel h r node).map Prod.fst
        | none =>
          updateBalanceFactorsAndRebalance fuel (attachChild h self node true) self true
      : Res Heap) with
    | .error e => .error e
    -- lines 64-71
    | .ok h1 => .ok (maxUpdate h1 self, none)

/-- `delete` (source lines 178-180): the body is `pass`; the call returns
`None`, raises nothing, and leaves every object untouched. -/
def delete (h : Heap) (_self _node : Nat) : Res (Heap × Option Nat) := .ok (h, none)

/-! ## The constructor and its class-level counter -/

/-- Exceptions relevant to node creation: `AttributeError` (what line 22
actually raises) and the `InvalidIntervalError` the specification
describes (which appears nowhere in the source). -/
inductive CreateErr where
  | attributeError
  | invalidIntervalError
  deriving Repr, DecidableEq

/-- The class-attribute table of `interval_tree_genomics`: line 11
defines `id_counter = 0`.  No other class attribute is ever defined — in
particular `_id_counter` is not. -/
def classAttrs : List (String × Int) := [("id_counter", 0)]

/-- Python class-attribute lookup. -/
def getClassAttr (attrs : List (String × Int)) (n : String) : Option Int :=
  (attrs.find? fun p => p.fst == n).map Prod.snd

/-- Python class-attribute assignment. -/
def setClassAttr (attrs : List (String × Int)) (n : String) (v : Int) :
    List (String × Int) :=
  if (attrs.find? fun p => p.fst == n).isSome then
    attrs.map fun p => if p.fst == n then (n, v) else p
  else attrs ++ [(n, v)]

/-- `__init__` (source lines 21-33).  Line 22 reads the class attribute
`_id_counter`; since only `id_counter` exists, the lookup raises
`AttributeError` before any field is assigned.  The remaining branch
models lines 22-33 as they would execute if the lookup succeeded:
increment the counter (line 23) and fill the fields (lines 24-33), with
`max_position` initialised to `end` (line 33).  No interval validation of
any kind appears in the body. -/
def init (attrs : List (String × Int)) (istart iend : Int)
    (left right parent : Option Nat) (sequence ref_seq_id targ_seq_id : Option Nat) :
    Except CreateErr (List (String × Int) × Int × NodeRec) :=
  match getClassAttr attrs "_id_counter" with
  | none => .error .attributeError
  | some c =>
    let attrs' := setClassAttr attrs "_id_counter" (c + 1)
    .ok (attrs', c,
      { left_child := left, right_child := right, parent := parent,
        sequence := sequence, balance_factor := 0, interval_start := istart,
        interval_end := iend, ref_seq_id := ref_seq_id,
        targ_seq_id := targ_seq_id, max_position := iend })

/-- The field state a fresh unlinked node would carry (the constructor
body, lines 24-33, with the default `None` arguments); used to seed heaps
for the insertion operations. -/
def mkNode (istart iend : Int) : NodeRec :=
  { left_child := none, right_child := none, parent := none, sequence := none,
    balance_factor := 0, interval_start := istart, interval_end := iend,
    ref_seq_id := none, targ_seq_id := none, max_position := iend }

/-! ## Running insertion sequences

The usage pattern of the source (`__main__`, lines 277-287): the first
node becomes the tree, every later node is constructed and then inserted.
An insertion sequence inserts each new node starting from the current
root (recovered with `get_root`, since `insert` returns `None`); an
uncaught exception ends the run. -/

/-- Insert the given intervals one at a time, starting each insertion at
the current root. -/
def runInsertsAux (fuel : Nat) : Heap → Nat → List (Int × Int) → Res (Heap × Nat)
  | h, r, [] => .ok (h, r)
  | h, r, (s, e) :: rest => do
    let node := h.length
    let h1 := h ++ [mkNode s e]
    let (h2, _) ← insert fuel h1 r node
    let r' ← get_root fuel h2 r
    runInsertsAux fuel h2 r' rest

/-- Build the tree of an insertion sequence: the first interval is the
initial root (object 0), the rest are inserted in order.  Returns the
final heap and the final root id. -/
def runInserts (fuel : Nat) (first : Int × Int) (rest : List (Int × Int)) :
    Res (Heap × Nat) :=
  runInsertsAux fuel [mkNode first.1 first.2] 0 rest

/-- The final heap of a run, if every insertion completed. -/
def finalHeap (fuel : Nat) (first : Int × Int) (rest : List (Int × Int)) : Option Heap :=
  match runInserts fuel first rest with
  | .ok (h, _) => some h
  | .error _ => none

/-- The final root id of a run, if every insertion completed. -/
def finalRoot (fuel : Nat) (first : Int × Int) (rest : List (Int × Int)) : Option Nat :=
  match runInserts fuel first rest with
  | .ok (_, r) => some r
  | .error _ => none

/-- The error a run raised, if any. -/
def runError (fuel : Nat) (first : Int × Int) (rest : List (Int × Int)) : Option Err :=
  match runInserts fuel first rest with
  | .ok _ => none
  | .error e => some e

/-! ## Independent oracles (brute-force subtree walks) -/

/-- In-order list of the object ids of the subtree below `oi`
(`none` = fuel ran out). -/
def subtreeIds : Nat → Heap → Option Nat → Option (List Nat)
  | _, _, none => some []
  | 0, _, some _ => none
  | fuel + 1, h, some i => do
    let l ← subtreeIds fuel h (rd h i).left_child
    let r ← subtreeIds fuel h (rd h i).right_child
    some (l ++ i :: r)

/-- Height of the subtree below `oi` (`none` = fuel ran out). -/
def heightOf : Nat → Heap → Option Nat → Option Nat
  | _, _, none => some 0
  | 0, _, some _ => none
  | fuel + 1, h, some i => do
    let hl ← heightOf fuel h (rd h i).left_child
    let hr ← heightOf fuel h (rd h i).right_child
    some (1 + max hl hr)

/-- The balance factor as the specification defines it:
`height(right subtree) - height(left subtree)`. -/
def heightBalance (fuel : Nat) (h : Heap) (i : Nat) : Option Int := do
  let hl ← heightOf fuel h (rd h i).left_child
  let hr ← heightOf fuel h (rd h i).right_child
  some ((hr : Int) - (hl : Int))

/-- Brute-force maximum of `interval_end` over the subtree rooted at
object `i` (`none` = fuel ran out). -/
def oracleMaxEnd (fuel : Nat) (h : Heap) (i : Nat) : Option Int := do
  let ids ← subtreeIds fuel h (some i)
  some (ids.foldr (fun j acc => max (rd h j).interval_end acc) (rd h i).interval_end)

/-- The in-order `interval_start` values of the subtree below `oi`. -/
def inorderStarts (fuel : Nat) (h : Heap) (oi : Option Nat) : Option (List Int) :=
  (subtreeIds fuel h oi).map fun ids => ids.map fun j => (rd h j).interval_start

/-! ## Decoded trees

To reason about the pointer structure we decode the heap, from a root
object, into a pure binary tree of object ids (`decode`), and state the
structural invariants over the decoded tree. -/

inductive PTree where
  | lf : PTree
  | nd (i : Nat) (l r : PTree) : PTree
  deriving Repr, DecidableEq

/-- In-order list of the ids of a decoded tree. -/
def PTree.inorder : PTree → List Nat
  | .lf => []
  | .nd i l r => l.inorder ++ i :: r.inorder

/-- Decode the linked structure below `oi` into a pure tree
(`none` = fuel ran out). -/
def decode : Nat → Heap → Option Nat → Option PTree
  | _, _, none => some .lf
  | 0, _, some _ => none
  | fuel + 1, h, some i => do
    let l ← decode fuel h (rd h i).left_child
    let r ← decode fuel h (rd h i).right_child
    some (.nd i l r)

/-- Replace the subtree rooted at id `x` (unique when ids are distinct). -/
def replaceAt (x : Nat) (s : PTree) : PTree → PTree
  | .lf => .lf
  | .nd i l r => if i = x then s else .nd i (replaceAt x s l) (replaceAt x s r)

/-- Attach a fresh leaf `node` in the (empty) `side` slot of the node
with id `p`. -/
def attachAt (p : Nat) (side : Bool) (node : Nat) : PTree → PTree
  | .lf => .lf
  | .nd i l r =>
    if i = p then
      if side then .nd i l (.nd node .lf .lf) else .nd i (.nd node .lf .lf) r
    else .nd i (attachAt p side node l) (attachAt p side node r)

/-- The shape change of a single left rotation on the decoded tree. -/
def rotL : PTree → PTree
  | .nd i l (.nd i2 m r) => .nd i2 (.nd i l m) r
  | t => t

/-- The shape change of a single right rotation on the decoded tree. -/
def rotR : PTree → PTree
  | .nd i (.nd i2 l m) r => .nd i2 l (.nd i m r)
  | t => t

/-- Apply `g` to the subtree rooted at id `x` (unique when ids are
distinct). -/
def mapAt (x : Nat) (g : PTree → PTree) : PTree → PTree
  | .lf => .lf
  | .nd i l r => if i = x then g (.nd i l r) else .nd i (mapAt x g l) (mapAt x g r)

/-- Stored parent links match the tree structure: each node's `parent`
field holds the id of its structural parent (`pa` for the root of this
subtree). -/
def parentsOk (h : Heap) : PTree → Option Nat → Bool
  | .lf, _ => true
  | .nd i l r, pa =>
    ((rd h i).parent == pa) && parentsOk h l (some i) && parentsOk h r (some i)

/-- The weak binary-search ordering on `interval_start`: at every node,
everything in the left subtree is `≤` and everything in the right
subtree is `≥`. -/
def ordB (h : Heap) : PTree → Bool
  | .lf => true
  | .nd i l r =>
    (l.inorder.all fun j => (rd h j).interval_start ≤ (rd h i).interval_start) &&
    (r.inorder.all fun j => (rd h i).interval_start ≤ (rd h j).interval_start) &&
    ordB h l && ordB h r

/-- The stored balance factors: every node's `balance_factor` lies in
`{-1, 0, 1}`, a value of `1` comes with a present right child, and a
value of `-1` with a present left child. -/
def bfOk (h : Heap) : PTree → Bool
  | .lf => true
  | .nd i l r =>
    ((rd h i).balance_factor.natAbs ≤ 1) &&
    ((rd h i).balance_factor == 1 → (rd h i).right_child ≠ none) &&
    ((rd h i).balance_factor == -1 → (rd h i).left_child ≠ none) &&
    bfOk h l && bfOk h r

/-- The stored-balance-factor checks of `bfOk` at every node except `e`
(the node the rebalance driver is currently adjusting, whose factor may
temporarily reach magnitude 2). -/
def bfOkE (e : Nat) (h : Heap) : PTree → Bool
  | .lf => true
  | .nd i l r =>
    (i == e ||
      (((rd h i).balance_factor.natAbs ≤ 1) &&
       ((rd h i).balance_factor == 1 → (rd h i).right_child ≠ none) &&
       ((rd h i).balance_factor == -1 → (rd h i).left_child ≠ none))) &&
    bfOkE e h l && bfOkE e h r

/-- The full between-insertions invariant of a tree state `(h, r)`:
`t` is the decoded structure, its ids are exactly the allocated objects
(each appearing once), parent links are coherent with the root's parent
absent, the weak ordering holds, and the stored balance factors are in
range. -/
def Inv (h : Heap) (r : Nat) (t : PTree) : Prop :=
  decode (h.length + 1) h (some r) = some t ∧
  t.inorder.Perm (List.range h.length) ∧
  parentsOk h t none = true ∧
  ordB h t = true ∧
  bfOk h t = true

/-- The interval bounds and the payload of a node — the fields that
`insert` must never modify (claim C10): everything except the three link
fields, `balance_factor` and `max_position`. -/
def persistentFields (r : NodeRec) : Int × Int × Option Nat × Option Nat × Option Nat :=
  (r.interval_start, r.interval_end, r.sequence, r.ref_seq_id, r.targ_seq_id)

/-- Heap `h'` keeps every object's interval bounds and payload from `h`. -/
def SamePayload (h h' : Heap) : Prop :=
  ∀ i, persistentFields (rd h' i) = persistentFields (rd h i)

/-- Modelled on the specification's description of the ordered-insertion
placement step (spec §4.1): descend from `i` comparing `interval_start`
against the new key `k`; at each visited node, if the node's
`interval_start ≥ k` continue into the left subtree (ties go left),
otherwise into the right subtree; stop at the first missing child slot.
Returns the list of visited nodes in descent order, the node to attach
under (the last visited node) and the side (`true` = right). -/
def specDescent : Nat → Heap → Nat → Int → Option (List Nat × Nat × Bool)
  | 0, _, _, _ => none
  | fuel + 1, h, i, k =>
    if (rd h i).interval_start ≥ k then
      match (rd h i).left_child with
      | some l => (specDescent fuel h l k).map fun q => (i :: q.1, q.2)
      | none => some ([i], i, false)
    else
      match (rd h i).right_child with
      | some r => (specDescent fuel h r k).map fun q => (i :: q.1, q.2)
      | none => some ([i], i, true)

/-- The `max_position` updates (lines 64-71) that run on the way out of
the recursive descent: one `maxUpdate` per visited node, deepest (the
attach parent) first. -/
def maxUpdates (h : Heap) : List Nat → Heap
  | [] => h
  | i :: rest => maxUpdate (maxUpdates h rest) i

end ITG

namespace ITG

/-! ## Basic heap lemmas -/

theorem wr_length (h : Heap) (i : Nat) (r : NodeRec) : (wr h i r).length = h.length := by
  simp [wr]

theorem wr_oob (h : Heap) {i : Nat} (hi : h.length ≤ i) (r : NodeRec) : wr h i r = h :=
  List.set_eq_of_length_le hi

theorem rd_wr_self (h : Heap) {i : Nat} (hi : i < h.length) (r : NodeRec) :
    rd (wr h i r) i = r := by
  simp [rd, wr, List.getElem?_set_self hi]

theorem rd_wr_ne (h : Heap) {i j : Nat} (hij : i ≠ j) (r : NodeRec) :
    rd (wr h i r) j = rd h j := by
  simp [rd, wr, List.getElem?_set_ne hij]

theorem bind_ok {α β : Type} {x : Res α} {f : α → Res β} {b : β}
    (h : x >>= f = .ok b) : ∃ a, x = .ok a ∧ f a = .ok b := by
  cases x with
  | error e => exact absurd h (by simp [Bind.bind, Except.bind])
  | ok a => exact ⟨a, rfl, by simpa [Bind.bind, Except.bind] using h⟩

theorem map_ok {α β : Type} {f : α → β} {x : Res α} {b : β}
    (h : x.map f = .ok b) : ∃ a, x = .ok a ∧ f a = b := by
  cases x with
  | error e => exact absurd h (by simp [Except.map])
  | ok a => exact ⟨a, rfl, by simpa [Except.map] using h⟩

/-! ## Decoded-tree lemmas -/

theorem obind_some {α β : Type} {x : Option α} {f : α → Option β} {b : β}
    (h : x >>= f = some b) : ∃ a, x = some a ∧ f a = some b := by
  cases x with
  | none => exact absurd h (by simp)
  | some a => exact ⟨a, rfl, by simpa using h⟩

theorem decode_none (f : Nat) (h : Heap) : decode f h none = some .lf := by
  cases f <;> rfl

theorem decode_some {f : Nat} {h : Heap} {i : Nat} {t : PTree}
    (hdec : decode (f + 1) h (some i) = some t) :
    ∃ l r, decode f h (rd h i).left_child = some l ∧
      decode f h (rd h i).right_child = some r ∧ t = .nd i l r := by
  rw [decode] at hdec
  obtain ⟨l, hl, hrest⟩ := obind_some hdec
  obtain ⟨r, hr, hfin⟩ := obind_some hrest
  exact ⟨l, r, hl, hr, by injection hfin with h2; exact h2.symm⟩

theorem decode_nd {f : Nat} {h : Heap} {i : Nat} {l r : PTree}
    (hl : decode f h (rd h i).left_child = some l)
    (hr : decode f h (rd h i).right_child = some r) :
    decode (f + 1) h (some i) = some (.nd i l r) := by
  rw [decode, hl, hr]
  rfl

theorem decode_mono : ∀ {f : Nat} {f' : Nat} {h : Heap} {oi : Option Nat} {t : PTree},
    f ≤ f' → decode f h oi = some t → decode f' h oi = some t := by
  intro f
  induction f with
  | zero =>
    intro f' h oi t _ hdec
    cases oi with
    | none => rw [decode_none] at hdec; rw [decode_none, hdec]
    | some i => exact absurd hdec (by simp [decode])
  | succ fz ih =>
    intro f' h oi t hle hdec
    cases oi with
    | none => rw [decode_none] at hdec; rw [decode_none, hdec]
    | some i =>
      obtain ⟨fz', rfl⟩ : ∃ k, f' = k + 1 := ⟨f' - 1, by omega⟩
      obtain ⟨l, r, hl, hr, rfl⟩ := decode_some hdec
      exact decode_nd (ih (by omega) hl) (ih (by omega) hr)

theorem decode_linkCongr : ∀ {f : Nat} {h h' : Heap} {oi : Option Nat} {t : PTree},
    decode f h oi = some t →
    (∀ j ∈ t.inorder, (rd h' j).left_child = (rd h j).left_child ∧
      (rd h' j).right_child = (rd h j).right_child) →
    decode f h' oi = some t := by
  intro f
  induction f with
  | zero =>
    intro h h' oi t hdec hagree
    cases oi with
    | none => rw [decode_none] at hdec; rw [decode_none, hdec]
    | some i => exact absurd hdec (by simp [decode])
  | succ fz ih =>
    intro h h' oi t hdec hagree
    cases oi with
    | none => rw [decode_none] at hdec; rw [decode_none, hdec]
    | some i =>
      obtain ⟨l, r, hl, hr, rfl⟩ := decode_some hdec
      have hi : i ∈ (PTree.nd i l r).inorder := by simp [PTree.inorder]
      have hil : ∀ j ∈ l.inorder, (rd h' j).left_child = (rd h j).left_child ∧
          (rd h' j).right_child = (rd h j).right_child := by
        intro j hj; exact hagree j (by simp [PTree.inorder, hj])
      have hir : ∀ j ∈ r.inorder, (rd h' j).left_child = (rd h j).left_child ∧
          (rd h' j).right_child = (rd h j).right_child := by
        intro j hj; exact hagree j (by simp [PTree.inorder, hj])
      have h2 := decode_nd (h := h') (i := i)
        ((hagree i hi).1 ▸ ih hl hil) ((hagree i hi).2 ▸ ih hr hir)
      exact h2

theorem parentsOk_congr : ∀ {t : PTree} {h h' : Heap} {pa : Option Nat},
    (∀ j ∈ t.inorder, (rd h' j).parent = (rd h j).parent) →
    parentsOk h t pa = true → parentsOk h' t pa = true := by
  intro t
  induction t with
  | lf => intro h h' pa _ _; rfl
  | nd i l r ihl ihr =>
    intro h h' pa hagree hok
    simp only [parentsOk, Bool.and_eq_true, beq_iff_eq] at hok ⊢
    obtain ⟨⟨h1, h2⟩, h3⟩ := hok
    exact ⟨⟨by rw [hagree i (by simp [PTree.inorder])]; exact h1,
      ihl (fun j hj => hagree j (by simp [PTree.inorder, hj])) h2⟩,
      ihr (fun j hj => hagree j (by simp [PTree.inorder, hj])) h3⟩

theorem ordB_congr : ∀ {t : PTree} {h h' : Heap},
    (∀ j ∈ t.inorder, (rd h' j).interval_start = (rd h j).interval_start) →
    ordB h t = true → ordB h' t = true := by
  intro t
  induction t with
  | lf => intro h h' _ _; rfl
  | nd i l r ihl ihr =>
    intro h h' hagree hord
    simp only [ordB, Bool.and_eq_true, List.all_eq_true, decide_eq_true_eq] at hord ⊢
    obtain ⟨⟨⟨hL, hR⟩, hol⟩, hor⟩ := hord
    have hi := hagree i (by simp [PTree.inorder])
    refine ⟨⟨⟨fun j hj => ?_, fun j hj => ?_⟩, ?_⟩, ?_⟩
    · rw [hagree j (by simp [PTree.inorder, hj]), hi]; exact hL j hj
    · rw [hagree j (by simp [PTree.inorder, hj]), hi]; exact hR j hj
    · exact ihl (fun j hj => hagree j (by simp [PTree.inorder, hj])) hol
    · exact ihr (fun j hj => hagree j (by simp [PTree.inorder, hj])) hor

theorem bfOk_congr : ∀ {t : PTree} {h h' : Heap},
    (∀ j ∈ t.inorder, (rd h' j).balance_factor = (rd h j).balance_factor ∧
      (rd h' j).left_child = (rd h j).left_child ∧
      (rd h' j).right_child = (rd h j).right_child) →
    bfOk h t = true → bfOk h' t = true := by
  intro t
  induction t with
  | lf => intro h h' _ _; rfl
  | nd i l r ihl ihr =>
    intro h h' hagree hok
    simp only [bfOk, Bool.and_eq_true] at hok ⊢
    obtain ⟨⟨⟨⟨h1, h2⟩, h3⟩, h4⟩, h5⟩ := hok
    have hi := hagree i (by simp [PTree.inorder])
    refine ⟨⟨⟨⟨by rw [hi.1]; exact h1, by rw [hi.1, hi.2.2]; exact h2⟩,
      by rw [hi.1, hi.2.1]; exact h3⟩,
      ihl (fun j hj => hagree j (by simp [PTree.inorder, hj])) h4⟩,
      ihr (fun j hj => hagree j (by simp [PTree.inorder, hj])) h5⟩

/-! ## Pointwise effect of the attachment writes -/

theorem attach_rd_node {h : Heap} {p node : Nat} (side : Bool)
    (hpn : p ≠ node) (hn : node < h.length) :
    rd (attachChild h p node side) node = { rd h node with parent := some p } := by
  unfold attachChild
  cases side <;> simp only [Bool.false_eq_true, if_true, if_false] <;>
    rw [rd_wr_ne _ hpn, rd_wr_self _ hn]

theorem attach_rd_p {h : Heap} {p node : Nat} {side : Bool}
    (hpn : p ≠ node) (hp : p < h.length) :
    rd (attachChild h p node side) p =
      (if side then { rd h p with right_child := some node }
       else { rd h p with left_child := some node }) := by
  unfold attachChild
  have hlen : (wr h node { rd h node with parent := some p }).length = h.length :=
    wr_length ..
  cases side <;> simp only [Bool.false_eq_true, if_true, if_false] <;>
    rw [rd_wr_self _ (by rw [hlen]; exact hp), rd_wr_ne _ (fun he => hpn he.symm)]

theorem attach_rd_other {h : Heap} {p node j : Nat} (side : Bool)
    (hjp : j ≠ p) (hjn : j ≠ node) :
    rd (attachChild h p node side) j = rd h j := by
  unfold attachChild
  cases side <;> simp only [Bool.false_eq_true, if_true, if_false] <;>
    rw [rd_wr_ne _ (fun he => hjp he.symm), rd_wr_ne _ (fun he => hjn he.symm)]

theorem attach_length (h : Heap) (p node : Nat) (side : Bool) :
    (attachChild h p node side).length = h.length := by
  unfold attachChild
  cases side <;> simp only [Bool.false_eq_true, if_true, if_false] <;>
    rw [wr_length, wr_length]

theorem specDescent_left {fuel : Nat} {h : Heap} {i : Nat} {k : Int} {l : Nat}
    (hge : (rd h i).interval_start ≥ k) (hlc : (rd h i).left_child = some l) :
    specDescent (fuel + 1) h i k
      = (specDescent fuel h l k).map fun q => (i :: q.1, q.2) := by
  rw [specDescent, if_pos hge, hlc]

theorem specDescent_leftNone {fuel : Nat} {h : Heap} {i : Nat} {k : Int}
    (hge : (rd h i).interval_start ≥ k) (hlc : (rd h i).left_child = none) :
    specDescent (fuel + 1) h i k = some ([i], i, false) := by
  rw [specDescent, if_pos hge, hlc]

theorem specDescent_right {fuel : Nat} {h : Heap} {i : Nat} {k : Int} {r : Nat}
    (hge : ¬ (rd h i).interval_start ≥ k) (hrc : (rd h i).right_child = some r) :
    specDescent (fuel + 1) h i k
      = (specDescent fuel h r k).map fun q => (i :: q.1, q.2) := by
  rw [specDescent, if_neg hge, hrc]

theorem specDescent_rightNone {fuel : Nat} {h : Heap} {i : Nat} {k : Int}
    (hge : ¬ (rd h i).interval_start ≥ k) (hrc : (rd h i).right_child = none) :
    specDescent (fuel + 1) h i k = some ([i], i, true) := by
  rw [specDescent, if_neg hge, hrc]

/-! ## The attachment step preserves the invariant -/

theorem attachAt_noop {p : Nat} {side : Bool} {node : Nat} :
    ∀ {t : PTree}, p ∉ t.inorder → attachAt p side node t = t
  | .lf, _ => rfl
  | .nd i l r, hp => by
    have hip : ¬ i = p := fun he => hp (by simp [PTree.inorder, he])
    have hl : p ∉ l.inorder := fun hm => hp (by simp [PTree.inorder, hm])
    have hr : p ∉ r.inorder := fun hm => hp (by simp [PTree.inorder, hm])
    simp [attachAt, hip, attachAt_noop hl, attachAt_noop hr]

theorem nodup_nd {i : Nat} {l r : PTree} (h : (PTree.nd i l r).inorder.Nodup) :
    l.inorder.Nodup ∧ r.inorder.Nodup ∧ i ∉ l.inorder ∧ i ∉ r.inorder ∧
    ∀ y ∈ l.inorder, y ∉ r.inorder := by
  simp only [PTree.inorder] at h
  rw [List.nodup_append] at h
  obtain ⟨hl, hcons, hdisj⟩ := h
  rw [List.nodup_cons] at hcons
  obtain ⟨hir, hr⟩ := hcons
  exact ⟨hl, hr, fun hm => hdisj hm (by simp), hir,
    fun y hy hyr => hdisj hy (by simp [hyr])⟩

theorem attach_start {h : Heap} {p node : Nat} {side : Bool}
    (hpn : p ≠ node) (hn : node < h.length) (y : Nat) :
    (rd (attachChild h p node side) y).interval_start = (rd h y).interval_start ∧
    (rd (attachChild h p node side) y).balance_factor = (rd h y).balance_factor := by
  by_cases hyn : y = node
  · subst hyn; rw [attach_rd_node side hpn hn]; exact ⟨rfl, rfl⟩
  · by_cases hyp : y = p
    · subst hyp
      by_cases hp2 : y < h.length
      · rw [attach_rd_p hpn hp2]; cases side <;> simp
      · unfold attachChild
        have hlen : (wr h node { rd h node with parent := some y }).length = h.length :=
          wr_length ..
        cases side <;> simp only [Bool.false_eq_true, if_true, if_false] <;>
          rw [wr_oob _ (by rw [hlen]; exact Nat.le_of_not_lt hp2),
            rd_wr_ne _ (fun he => hyn he.symm)] <;> exact ⟨rfl, rfl⟩
    · rw [attach_rd_other side hyp hyn]; exact ⟨rfl, rfl⟩

theorem decode_none_inv {f : Nat} {h : Heap} {t : PTree}
    (hd : decode f h none = some t) : t = .lf := by
  rw [decode_none] at hd
  injection hd with h2
  exact h2.symm

theorem parentsOk_lf {h : Heap} {pa : Option Nat} : parentsOk h .lf pa = true := rfl

theorem ordB_lf {h : Heap} : ordB h .lf = true := rfl

theorem bfOk_lf {h : Heap} : bfOk h .lf = true := rfl

theorem parentsOk_nd {h : Heap} {i : Nat} {l r : PTree} {pa : Option Nat} :
    parentsOk h (.nd i l r) pa = true ↔
    (rd h i).parent = pa ∧ parentsOk h l (some i) = true ∧
    parentsOk h r (some i) = true := by
  simp [parentsOk, Bool.and_eq_true, and_assoc]

theorem ordB_nd {h : Heap} {i : Nat} {l r : PTree} :
    ordB h (.nd i l r) = true ↔
    (∀ j ∈ l.inorder, (rd h j).interval_start ≤ (rd h i).interval_start) ∧
    (∀ j ∈ r.inorder, (rd h i).interval_start ≤ (rd h j).interval_start) ∧
    ordB h l = true ∧ ordB h r = true := by
  simp [ordB, Bool.and_eq_true, List.all_eq_true, and_assoc]

theorem bfOk_nd {h : Heap} {i : Nat} {l r : PTree} :
    bfOk h (.nd i l r) = true ↔
    ((rd h i).balance_factor.natAbs ≤ 1 ∧
     ((rd h i).balance_factor = 1 → (rd h i).right_child ≠ none) ∧
     ((rd h i).balance_factor = -1 → (rd h i).left_child ≠ none)) ∧
    bfOk h l = true ∧ bfOk h r = true := by
  simp only [bfOk, Bool.and_eq_true, and_assoc, decide_eq_true_eq, beq_iff_eq, ne_eq]

theorem attach_inv : ∀ (F : Nat) {h : Heap} {j : Nat} {k : Int} {path : List Nat}
    {p : Nat} {side : Bool} {node : Nat} {f : Nat} {t0 : PTree},
    specDescent F h j k = some (path, p, side) →
    decode f h (some j) = some t0 →
    t0.inorder.Nodup →
    node ∉ t0.inorder →
    node < h.length →
    (∀ i ∈ t0.inorder, i < h.length) →
    (rd h node).left_child = none →
    (rd h node).right_child = none →
    (rd h node).interval_start = k →
    (rd h node).balance_factor = 0 →
    p ∈ t0.inorder ∧
    decode (f + 1) (attachChild h p node side) (some j)
      = some (attachAt p side node t0) ∧
    (attachAt p side node t0).inorder.Perm (node :: t0.inorder) ∧
    (∀ pa, parentsOk h t0 pa = true →
      parentsOk (attachChild h p node side) (attachAt p side node t0) pa = true) ∧
    (ordB h t0 = true → ordB (attachChild h p node side) (attachAt p side node t0) = true) ∧
    (bfOk h t0 = true → bfOk (attachChild h p node side) (attachAt p side node t0) = true) := by
  intro F
  induction F with
  | zero => intro h j k path p side node f t0 hdesc; exact absurd hdesc (by simp [specDescent])
  | succ F ih =>
    intro h j k path p side node f t0 hdesc hdec hnd hfresh hn hbound hnl hnr hnk hnbf
    match f, t0, hdec with
    | f₁ + 1, t0, hdec =>
    obtain ⟨l, r, hl, hr, rfl⟩ := decode_some hdec
    obtain ⟨hndl, hndr, hjl, hjr, hdisj⟩ := nodup_nd hnd
    have hfj : node ≠ j := fun he => hfresh (by simp [PTree.inorder, he])
    have hfl : node ∉ l.inorder := fun hm => hfresh (by simp [PTree.inorder, hm])
    have hfr : node ∉ r.inorder := fun hm => hfresh (by simp [PTree.inorder, hm])
    have hboundl : ∀ i ∈ l.inorder, i < h.length :=
      fun i hi => hbound i (by simp [PTree.inorder, hi])
    have hboundr : ∀ i ∈ r.inorder, i < h.length :=
      fun i hi => hbound i (by simp [PTree.inorder, hi])
    have hjlen : j < h.length := hbound j (by simp [PTree.inorder])
    by_cases hge : (rd h j).interval_start ≥ k
    · cases hlc : (rd h j).left_child with
      | some l0 =>
        rw [specDescent_left hge hlc] at hdesc
        obtain ⟨q, hq, hqe⟩ := Option.map_eq_some'.mp hdesc
        obtain ⟨path', p', side'⟩ := q
        simp only [Prod.mk.injEq] at hqe
        obtain ⟨hqe1, hqp, hqs⟩ := hqe
        subst hqe1
        rw [hqp, hqs] at hq
        rw [hlc] at hl
        obtain ⟨hpmem, hdec', hperm, hpo, hord, hbf⟩ :=
          ih hq hl hndl hfl hn hboundl hnl hnr hnk hnbf
        have hpj : p ≠ j := fun he => hjl (by subst he; exact hpmem)
        have hpr : p ∉ r.inorder := hdisj p hpmem
        have hpn : p ≠ node := fun he => hfl (by subst he; exact hpmem)
        have hrdj : rd (attachChild h p node side) j = rd h j :=
          attach_rd_other side (fun he => hpj he.symm) (fun he => hfj he.symm)
        have hjp' : ¬ (j = p) := fun he => hpj he.symm
        have hTeq : attachAt p side node (PTree.nd j l r)
            = .nd j (attachAt p side node l) r := by
          simp [attachAt, hjp', attachAt_noop hpr]
        have hragree : ∀ y ∈ r.inorder, rd (attachChild h p node side) y = rd h y :=
          fun y hy => attach_rd_other side (fun he => by subst he; exact hpr hy)
            (fun he => by subst he; exact hfr hy)
        have hrcong : decode (f₁ + 1) (attachChild h p node side)
            (rd (attachChild h p node side) j).right_child = some r := by
          rw [hrdj]
          exact decode_mono (by omega)
            (decode_linkCongr hr fun y hy => by rw [hragree y hy]; exact ⟨rfl, rfl⟩)
        refine ⟨by simp [PTree.inorder, hpmem], ?_, ?_, ?_, ?_, ?_⟩
        · rw [hTeq]
          refine decode_nd ?_ hrcong
          rw [hrdj, hlc]
          exact hdec'
        · rw [hTeq]
          simp only [PTree.inorder]
          have h1 : ((attachAt p side node l).inorder ++ j :: r.inorder).Perm
              ((node :: l.inorder) ++ j :: r.inorder) := hperm.append_right _
          simpa using h1
        · intro pa hpar
          rw [hTeq]
          rw [parentsOk_nd] at hpar ⊢
          obtain ⟨hpj0, hpl, hpr0⟩ := hpar
          exact ⟨by rw [hrdj]; exact hpj0, hpo _ hpl,
            parentsOk_congr (fun y hy => by rw [hragree y hy]) hpr0⟩
        · intro hord0
          rw [hTeq]
          rw [ordB_nd] at hord0 ⊢
          obtain ⟨hbl, hbr, hol, hor⟩ := hord0
          refine ⟨fun y hy => ?_, fun y hy => ?_, hord hol, ?_⟩
          · have hy' := List.mem_cons.mp (hperm.mem_iff.mp hy)
            rw [(attach_start hpn hn y).1, (attach_start hpn hn j).1]
            rcases hy' with hy1 | hy2
            · subst hy1; rw [hnk]; exact hge
            · exact hbl y hy2
          · rw [(attach_start hpn hn y).1, (attach_start hpn hn j).1]
            exact hbr y hy
          · exact ordB_congr (fun y hy => (attach_start hpn hn y).1) hor
        · intro hbf0
          rw [hTeq]
          rw [bfOk_nd] at hbf0 ⊢
          obtain ⟨⟨hb1, hb2, hb3⟩, hbL, hbR⟩ := hbf0
          refine ⟨⟨by rw [hrdj]; exact hb1, by rw [hrdj]; exact hb2,
            by rw [hrdj]; exact hb3⟩, hbf hbL, ?_⟩
          exact bfOk_congr (fun y hy => by rw [hragree y hy]; exact ⟨rfl, rfl, rfl⟩) hbR
      | none =>
        rw [specDescent_leftNone hge hlc] at hdesc
        injection hdesc with hdesc1
        simp only [Prod.mk.injEq] at hdesc1
        obtain ⟨hpa, hpp, hside⟩ := hdesc1
        subst hpa
        subst hpp
        subst hside
        rw [hlc] at hl
        have hleq : l = .lf := decode_none_inv hl
        subst hleq
        have hpn : j ≠ node := fun he => hfj he.symm
        have hTeq : attachAt j false node (PTree.nd j .lf r)
            = .nd j (.nd node .lf .lf) r := by simp [attachAt]
        have hrdj : rd (attachChild h j node false) j
            = { rd h j with left_child := some node } := by
          rw [attach_rd_p hpn hjlen]
          rfl
        have hrdn : rd (attachChild h j node false) node
            = { rd h node with parent := some j } :=
          attach_rd_node false hpn hn
        have hragree : ∀ y ∈ r.inorder, rd (attachChild h j node false) y = rd h y :=
          fun y hy => attach_rd_other false (fun he => by subst he; exact hjr hy)
            (fun he => by subst he; exact hfr hy)
        have hrcong : decode (f₁ + 1) (attachChild h j node false)
            (some node) = some (PTree.nd node .lf .lf) := by
          refine decode_nd ?_ ?_ <;> rw [hrdn]
          · show decode f₁ _ (rd h node).left_child = some .lf
            rw [hnl, decode_none]
          · show decode f₁ _ (rd h node).right_child = some .lf
            rw [hnr, decode_none]
        have hrcong2 : decode (f₁ + 1) (attachChild h j node false)
            (rd (attachChild h j node false) j).right_child = some r := by
          rw [hrdj]
          show decode (f₁ + 1) _ (rd h j).right_child = some r
          exact decode_mono (by omega)
            (decode_linkCongr hr fun y hy => by rw [hragree y hy]; exact ⟨rfl, rfl⟩)
        refine ⟨by simp [PTree.inorder], ?_, ?_, ?_, ?_, ?_⟩
        · rw [hTeq]
          refine decode_nd ?_ hrcong2
          rw [hrdj]
          show decode (f₁ + 1) _ (some node) = _
          exact hrcong
        · rw [hTeq]
          simp [PTree.inorder]
        · intro pa hpar
          rw [hTeq]
          rw [parentsOk_nd] at hpar ⊢
          obtain ⟨hpj0, _, hpr0⟩ := hpar
          refine ⟨by rw [hrdj]; exact hpj0, ?_, ?_⟩
          · rw [parentsOk_nd]
            exact ⟨by rw [hrdn], parentsOk_lf, parentsOk_lf⟩
          · exact parentsOk_congr (fun y hy => by rw [hragree y hy]) hpr0
        · intro hord0
          rw [hTeq]
          rw [ordB_nd] at hord0 ⊢
          obtain ⟨_, hbr, _, hor⟩ := hord0
          refine ⟨fun y hy => ?_, fun y hy => ?_, ?_, ?_⟩
          · simp only [PTree.inorder, List.nil_append, List.mem_cons,
              List.not_mem_nil, or_false] at hy
            subst hy
            rw [(attach_start hpn hn y).1, (attach_start hpn hn j).1, hnk]
            exact hge
          · rw [(attach_start hpn hn y).1, (attach_start hpn hn j).1]
            exact hbr y hy
          · rw [ordB_nd]
            exact ⟨by simp [PTree.inorder], by simp [PTree.inorder], ordB_lf, ordB_lf⟩
          · exact ordB_congr (fun y hy => (attach_start hpn hn y).1) hor
        · intro hbf0
          rw [hTeq]
          rw [bfOk_nd] at hbf0 ⊢
          obtain ⟨⟨hb1, hb2, hb3⟩, _, hbR⟩ := hbf0
          refine ⟨⟨by rw [hrdj]; exact hb1, by rw [hrdj]; exact hb2,
            by rw [hrdj]; simp⟩, ?_, ?_⟩
          · rw [bfOk_nd]
            refine ⟨⟨?_, ?_, ?_⟩, bfOk_lf, bfOk_lf⟩ <;> rw [hrdn]
            · show (rd h node).balance_factor.natAbs ≤ 1
              rw [hnbf]; decide
            · show (rd h node).balance_factor = 1 → _
              rw [hnbf]; intro hc; cases hc
            · show (rd h node).balance_factor = -1 → _
              rw [hnbf]; intro hc; cases hc
          · exact bfOk_congr (fun y hy => by rw [hragree y hy]; exact ⟨rfl, rfl, rfl⟩) hbR
    · cases hrc : (rd h j).right_child with
      | some r0 =>
        rw [specDescent_right hge hrc] at hdesc
        obtain ⟨q, hq, hqe⟩ := Option.map_eq_some'.mp hdesc
        obtain ⟨path', p', side'⟩ := q
        simp only [Prod.mk.injEq] at hqe
        obtain ⟨hqe1, hqp, hqs⟩ := hqe
        subst hqe1
        rw [hqp, hqs] at hq
        rw [hrc] at hr
        obtain ⟨hpmem, hdec', hperm, hpo, hord, hbf⟩ :=
          ih hq hr hndr hfr hn hboundr hnl hnr hnk hnbf
        have hpj : p ≠ j := fun he => hjr (by subst he; exact hpmem)
        have hpl : p ∉ l.inorder := fun hm => (hdisj p hm) hpmem
        have hpn : p ≠ node := fun he => hfr (by subst he; exact hpmem)
        have hrdj : rd (attachChild h p node side) j = rd h j :=
          attach_rd_other side (fun he => hpj he.symm) (fun he => hfj he.symm)
        have hjp' : ¬ (j = p) := fun he => hpj he.symm
        have hTeq : attachAt p side node (PTree.nd j l r)
            = .nd j l (attachAt p side node r) := by
          simp [attachAt, hjp', attachAt_noop hpl]
        have hlagree : ∀ y ∈ l.inorder, rd (attachChild h p node side) y = rd h y :=
          fun y hy => attach_rd_other side (fun he => by subst he; exact hpl hy)
            (fun he => by subst he; exact hfl hy)
        have hlcong : decode (f₁ + 1) (attachChild h p node side)
            (rd (attachChild h p node side) j).left_child = some l := by
          rw [hrdj]
          exact decode_mono (by omega)
            (decode_linkCongr hl fun y hy => by rw [hlagree y hy]; exact ⟨rfl, rfl⟩)
        refine ⟨by simp [PTree.inorder, hpmem], ?_, ?_, ?_, ?_, ?_⟩
        · rw [hTeq]
          refine decode_nd hlcong ?_
          rw [hrdj, hrc]
          exact hdec'
        · rw [hTeq]
          simp only [PTree.inorder]
          have h1 : (l.inorder ++ j :: (attachAt p side node r).inorder).Perm
              (l.inorder ++ j :: node :: r.inorder) :=
            (hperm.cons j).append_left l.inorder
          refine h1.trans ?_
          have h2 : l.inorder ++ j :: node :: r.inorder
              = (l.inorder ++ [j]) ++ node :: r.inorder := by simp
          have h3 : (l.inorder ++ [j]) ++ node :: r.inorder
              |>.Perm (node :: ((l.inorder ++ [j]) ++ r.inorder)) :=
            List.perm_middle
          rw [h2]
          refine h3.trans ?_
          simp
        · intro pa hpar
          rw [hTeq]
          rw [parentsOk_nd] at hpar ⊢
          obtain ⟨hpj0, hpl0, hpr0⟩ := hpar
          exact ⟨by rw [hrdj]; exact hpj0,
            parentsOk_congr (fun y hy => by rw [hlagree y hy]) hpl0,
            hpo _ hpr0⟩
        · intro hord0
          rw [hTeq]
          rw [ordB_nd] at hord0 ⊢
          obtain ⟨hbl, hbr, hol, hor⟩ := hord0
          refine ⟨fun y hy => ?_, fun y hy => ?_, ?_, hord hor⟩
          · rw [(attach_start hpn hn y).1, (attach_start hpn hn j).1]
            exact hbl y hy
          · have hy' := List.mem_cons.mp (hperm.mem_iff.mp hy)
            rw [(attach_start hpn hn y).1, (attach_start hpn hn j).1]
            rcases hy' with hy1 | hy2
            · subst hy1; rw [hnk]; omega
            · exact hbr y hy2
          · exact ordB_congr (fun y hy => (attach_start hpn hn y).1) hol
        · intro hbf0
          rw [hTeq]
          rw [bfOk_nd] at hbf0 ⊢
          obtain ⟨⟨hb1, hb2, hb3⟩, hbL, hbR⟩ := hbf0
          refine ⟨⟨by rw [hrdj]; exact hb1, by rw [hrdj]; exact hb2,
            by rw [hrdj]; exact hb3⟩, ?_, hbf hbR⟩
          exact bfOk_congr (fun y hy => by rw [hlagree y hy]; exact ⟨rfl, rfl, rfl⟩) hbL
      | none =>
        rw [specDescent_rightNone hge hrc] at hdesc
        injection hdesc with hdesc1
        simp only [Prod.mk.injEq] at hdesc1
        obtain ⟨hpa, hpp, hside⟩ := hdesc1
        subst hpa
        subst hpp
        subst hside
        rw [hrc] at hr
        have hreq : r = .lf := decode_none_inv hr
        subst hreq
        have hpn : j ≠ node := fun he => hfj he.symm
        have hTeq : attachAt j true node (PTree.nd j l .lf)
            = .nd j l (.nd node .lf .lf) := by simp [attachAt]
        have hrdj : rd (attachChild h j node true) j
            = { rd h j with right_child := some node } := by
          rw [attach_rd_p hpn hjlen]
          rfl
        have hrdn : rd (attachChild h j node true) node
            = { rd h node with parent := some j } :=
          attach_rd_node true hpn hn
        have hlagree : ∀ y ∈ l.inorder, rd (attachChild h j node true) y = rd h y :=
          fun y hy => attach_rd_other true (fun he => by subst he; exact hjl hy)
            (fun he => by subst he; exact hfl hy)
        have hncong : decode (f₁ + 1) (attachChild h j node true)
            (some node) = some (PTree.nd node .lf .lf) := by
          refine decode_nd ?_ ?_ <;> rw [hrdn]
          · show decode f₁ _ (rd h node).left_child = some .lf
            rw [hnl, decode_none]
          · show decode f₁ _ (rd h node).right_child = some .lf
            rw [hnr, decode_none]
        have hlcong2 : decode (f₁ + 1) (attachChild h j node true)
            (rd (attachChild h j node true) j).left_child = some l := by
          rw [hrdj]
          show decode (f₁ + 1) _ (rd h j).left_child = some l
          exact decode_mono (by omega)
            (decode_linkCongr hl fun y hy => by rw [hlagree y hy]; exact ⟨rfl, rfl⟩)
        refine ⟨by simp [PTree.inorder], ?_, ?_, ?_, ?_, ?_⟩
        · rw [hTeq]
          refine decode_nd hlcong2 ?_
          rw [hrdj]
          show decode (f₁ + 1) _ (some node) = _
          exact hncong
        · rw [hTeq]
          simp only [PTree.inorder]
          have h2 : l.inorder ++ j :: [node]
              = (l.inorder ++ [j]) ++ [node] := by simp
          have h3 : ((l.inorder ++ [j]) ++ [node]).Perm
              (node :: ((l.inorder ++ [j]) ++ [])) := List.perm_middle
          simp only [List.nil_append, List.append_nil] at h3 ⊢
          rw [h2]
          refine h3.trans ?_
          simp
        · intro pa hpar
          rw [hTeq]
          rw [parentsOk_nd] at hpar ⊢
          obtain ⟨hpj0, hpl0, _⟩ := hpar
          refine ⟨by rw [hrdj]; exact hpj0, ?_, ?_⟩
          · exact parentsOk_congr (fun y hy => by rw [hlagree y hy]) hpl0
          · rw [parentsOk_nd]
            exact ⟨by rw [hrdn], parentsOk_lf, parentsOk_lf⟩
        · intro hord0
          rw [hTeq]
          rw [ordB_nd] at hord0 ⊢
          obtain ⟨hbl, _, hol, _⟩ := hord0
          refine ⟨fun y hy => ?_, fun y hy => ?_, ?_, ?_⟩
          · rw [(attach_start hpn hn y).1, (attach_start hpn hn j).1]
            exact hbl y hy
          · simp only [PTree.inorder, List.nil_append, List.mem_cons,
              List.not_mem_nil, or_false] at hy
            subst hy
            rw [(attach_start hpn hn y).1, (attach_start hpn hn j).1, hnk]
            omega
          · exact ordB_congr (fun y hy => (attach_start hpn hn y).1) hol
          · rw [ordB_nd]
            exact ⟨by simp [PTree.inorder], by simp [PTree.inorder], ordB_lf, ordB_lf⟩
        · intro hbf0
          rw [hTeq]
          rw [bfOk_nd] at hbf0 ⊢
          obtain ⟨⟨hb1, hb2, hb3⟩, hbL, _⟩ := hbf0
          refine ⟨⟨by rw [hrdj]; exact hb1, by rw [hrdj]; simp,
            by rw [hrdj]; exact hb3⟩, ?_, ?_⟩
          · exact bfOk_congr (fun y hy => by rw [hlagree y hy]; exact ⟨rfl, rfl, rfl⟩) hbL
          · rw [bfOk_nd]
            refine ⟨⟨?_, ?_, ?_⟩, bfOk_lf, bfOk_lf⟩ <;> rw [hrdn]
            · show (rd h node).balance_factor.natAbs ≤ 1
              rw [hnbf]; decide
            · show (rd h node).balance_factor = 1 → _
              rw [hnbf]; intro hc; cases hc
            · show (rd h node).balance_factor = -1 → _
              rw [hnbf]; intro hc; cases hc

/-! ## Pointwise effect of the rotation writes -/

theorem move_length (h : Heap) (x nr : Nat) :
    (slrMoveSubtree h x nr).length = h.length := by
  unfold slrMoveSubtree
  cases (rd h nr).left_child <;> simp only [] <;> rw [wr_length] <;> rw [wr_length]

theorem move_rd_x {h : Heap} {x nr : Nat} (hx : x < h.length)
    (hc : ∀ cc, (rd h nr).left_child = some cc → cc ≠ x) :
    rd (slrMoveSubtree h x nr) x
      = { rd h x with right_child := (rd h nr).left_child } := by
  unfold slrMoveSubtree
  cases hcc : (rd h nr).left_child with
  | none => simp only []; exact rd_wr_self _ hx _
  | some cc =>
    simp only []
    rw [rd_wr_ne _ (hc cc hcc), rd_wr_self _ hx]

theorem move_rd_c {h : Heap} {x nr cc : Nat}
    (hcc : (rd h nr).left_child = some cc) (hccx : cc ≠ x) (hclen : cc < h.length) :
    rd (slrMoveSubtree h x nr) cc = { rd h cc with parent := some x } := by
  unfold slrMoveSubtree
  rw [hcc]
  simp only []
  rw [rd_wr_self _ (by rw [wr_length]; exact hclen),
    rd_wr_ne _ (fun he => hccx he.symm)]

theorem move_rd_other {h : Heap} {x nr : Nat} (j : Nat) (hjx : j ≠ x)
    (hjc : ∀ cc, (rd h nr).left_child = some cc → j ≠ cc) :
    rd (slrMoveSubtree h x nr) j = rd h j := by
  unfold slrMoveSubtree
  cases hcc : (rd h nr).left_child with
  | none => simp only []; exact rd_wr_ne _ (fun he => hjx he.symm) _
  | some cc =>
    simp only []
    rw [rd_wr_ne _ (fun he => (hjc cc hcc) he.symm),
      rd_wr_ne _ (fun he => hjx he.symm)]

theorem relink_length (h : Heap) (x nr : Nat) :
    (parentRelink h x nr).length = h.length := by
  unfold parentRelink
  cases (rd h x).parent
  · simp only []; rw [wr_length]
  · simp only []
    split <;> rw [wr_length, wr_length]

theorem relink_rd_nr {h : Heap} {x nr : Nat} (hnr : nr < h.length)
    (hpn : ∀ pp, (rd h x).parent = some pp → pp ≠ nr) :
    rd (parentRelink h x nr) nr = { rd h nr with parent := (rd h x).parent } := by
  unfold parentRelink
  cases hp : (rd h x).parent with
  | none => simp only []; exact rd_wr_self _ hnr _
  | some pp =>
    simp only []
    split <;> rw [rd_wr_ne _ (hpn pp hp), rd_wr_self _ hnr]

theorem relink_rd_p {h : Heap} {x nr pp : Nat}
    (hp : (rd h x).parent = some pp) (hpnr : pp ≠ nr) (hplen : pp < h.length) :
    rd (parentRelink h x nr) pp =
      (if (rd h pp).left_child = some x then { rd h pp with left_child := some nr }
       else { rd h pp with right_child := some nr }) := by
  unfold parentRelink
  rw [hp]
  simp only []
  rw [rd_wr_ne _ (fun he => hpnr he.symm)]
  split <;> rw [rd_wr_self _ (by rw [wr_length]; exact hplen)]

theorem relink_rd_other {h : Heap} {x nr : Nat} (j : Nat) (hjnr : j ≠ nr)
    (hjp : ∀ pp, (rd h x).parent = some pp → j ≠ pp) :
    rd (parentRelink h x nr) j = rd h j := by
  unfold parentRelink
  cases hp : (rd h x).parent with
  | none => simp only []; exact rd_wr_ne _ (fun he => hjnr he.symm) _
  | some pp =>
    simp only []
    split <;> rw [rd_wr_ne _ (fun he => (hjp pp hp) he.symm),
      rd_wr_ne _ (fun he => hjnr he.symm)]

theorem slrFin_length (h : Heap) (x nr : Nat) :
    (slrFinish h x nr).length = h.length := by
  unfold slrFinish
  rw [wr_length, wr_length, wr_length, wr_length]

theorem slrFin_rd_x {h : Heap} {x nr : Nat} (hxnr : x ≠ nr) (hx : x < h.length) :
    rd (slrFinish h x nr) x
      = { rd h x with parent := some nr, balance_factor := 0 } := by
  unfold slrFinish
  rw [rd_wr_ne _ (fun he => hxnr he.symm),
    rd_wr_self _ (by rw [wr_length, wr_length]; exact hx),
    rd_wr_self _ (by rw [wr_length]; exact hx),
    rd_wr_ne _ (fun he => hxnr he.symm)]

theorem slrFin_rd_nr {h : Heap} {x nr : Nat} (hxnr : x ≠ nr) (hnr : nr < h.length) :
    rd (slrFinish h x nr) nr
      = { rd h nr with left_child := some x, balance_factor := 0 } := by
  unfold slrFinish
  rw [rd_wr_self _ (by rw [wr_length, wr_length, wr_length]; exact hnr),
    rd_wr_ne _ hxnr, rd_wr_ne _ hxnr, rd_wr_self _ hnr]

theorem slrFin_rd_other {h : Heap} {x nr : Nat} (j : Nat) (hjx : j ≠ x) (hjnr : j ≠ nr) :
    rd (slrFinish h x nr) j = rd h j := by
  unfold slrFinish
  rw [rd_wr_ne _ (fun he => hjnr he.symm), rd_wr_ne _ (fun he => hjx he.symm),
    rd_wr_ne _ (fun he => hjx he.symm), rd_wr_ne _ (fun he => hjnr he.symm)]

theorem srrFin_length (h : Heap) (x nr : Nat) :
    (srrFinish h x nr).length = h.length := by
  unfold srrFinish
  rw [wr_length, wr_length, wr_length, wr_length]

theorem srrFin_rd_x {h : Heap} {x nr : Nat} (hxnr : x ≠ nr) (hx : x < h.length) :
    rd (srrFinish h x nr) x
      = { rd h x with parent := some nr, balance_factor := 0 } := by
  unfold srrFinish
  rw [rd_wr_ne _ (fun he => hxnr he.symm),
    rd_wr_self _ (by rw [wr_length, wr_length]; exact hx),
    rd_wr_self _ (by rw [wr_length]; exact hx),
    rd_wr_ne _ (fun he => hxnr he.symm)]

theorem srrFin_rd_nr {h : Heap} {x nr : Nat} (hxnr : x ≠ nr) (hnr : nr < h.length) :
    rd (srrFinish h x nr) nr
      = { rd h nr with right_child := some x, balance_factor := 0 } := by
  unfold srrFinish
  rw [rd_wr_self _ (by rw [wr_length, wr_length, wr_length]; exact hnr),
    rd_wr_ne _ hxnr, rd_wr_ne _ hxnr, rd_wr_self _ hnr]

theorem srrFin_rd_other {h : Heap} {x nr : Nat} (j : Nat) (hjx : j ≠ x) (hjnr : j ≠ nr) :
    rd (srrFinish h x nr) j = rd h j := by
  unfold srrFinish
  rw [rd_wr_ne _ (fun he => hjnr he.symm), rd_wr_ne _ (fun he => hjx he.symm),
    rd_wr_ne _ (fun he => hjx he.symm), rd_wr_ne _ (fun he => hjnr he.symm)]

theorem srrMove_length (h : Heap) (x nr : Nat) :
    (srrMoveSubtree h x nr).length = h.length := by
  unfold srrMoveSubtree
  cases (rd h nr).right_child <;> simp only [] <;> rw [wr_length] <;> rw [wr_length]

theorem srrMove_rd_x {h : Heap} {x nr : Nat} (hx : x < h.length)
    (hc : ∀ cc, (rd h nr).right_child = some cc → cc ≠ x) :
    rd (srrMoveSubtree h x nr) x
      = { rd h x with left_child := (rd h nr).right_child } := by
  unfold srrMoveSubtree
  cases hcc : (rd h nr).right_child with
  | none => simp only []; exact rd_wr_self _ hx _
  | some cc =>
    simp only []
    rw [rd_wr_ne _ (hc cc hcc), rd_wr_self _ hx]

theorem srrMove_rd_c {h : Heap} {x nr cc : Nat}
    (hcc : (rd h nr).right_child = some cc) (hccx : cc ≠ x) (hclen : cc < h.length) :
    rd (srrMoveSubtree h x nr) cc = { rd h cc with parent := some x } := by
  unfold srrMoveSubtree
  rw [hcc]
  simp only []
  rw [rd_wr_self _ (by rw [wr_length]; exact hclen),
    rd_wr_ne _ (fun he => hccx he.symm)]

theorem srrMove_rd_other {h : Heap} {x nr : Nat} (j : Nat) (hjx : j ≠ x)
    (hjc : ∀ cc, (rd h nr).right_child = some cc → j ≠ cc) :
    rd (srrMoveSubtree h x nr) j = rd h j := by
  unfold srrMoveSubtree
  cases hcc : (rd h nr).right_child with
  | none => simp only []; exact rd_wr_ne _ (fun he => hjx he.symm) _
  | some cc =>
    simp only []
    rw [rd_wr_ne _ (fun he => (hjc cc hcc) he.symm),
      rd_wr_ne _ (fun he => hjx he.symm)]

/-! ## Composed pointwise effect of the full single-left write sequence -/

theorem move_parent_x {h : Heap} {x nr : Nat} (hx : x < h.length)
    (hc : ∀ cc, (rd h nr).left_child = some cc → cc ≠ x) :
    (rd (slrMoveSubtree h x nr) x).parent = (rd h x).parent := by
  rw [move_rd_x hx hc]

theorem srrMove_parent_x {h : Heap} {x nr : Nat} (hx : x < h.length)
    (hc : ∀ cc, (rd h nr).right_child = some cc → cc ≠ x) :
    (rd (srrMoveSubtree h x nr) x).parent = (rd h x).parent := by
  rw [srrMove_rd_x hx hc]

theorem slrW_length (h : Heap) (x nr : Nat) :
    (slrFinish (parentRelink (slrMoveSubtree h x nr) x nr) x nr).length = h.length := by
  rw [slrFin_length, relink_length, move_length]

theorem srrW_length (h : Heap) (x nr : Nat) :
    (srrFinish (parentRelink (srrMoveSubtree h x nr) x nr) x nr).length = h.length := by
  rw [srrFin_length, relink_length, srrMove_length]

theorem slrW_rd_x {h : Heap} {x nr : Nat} (hxnr : x ≠ nr) (hx : x < h.length)
    (hcD : ∀ cc, (rd h nr).left_child = some cc → cc ≠ x)
    (hpD : ∀ pp, (rd h x).parent = some pp → pp ≠ x) :
    rd (slrFinish (parentRelink (slrMoveSubtree h x nr) x nr) x nr) x
      = { rd h x with
          right_child := (rd h nr).left_child
          parent := some nr
          balance_factor := 0 } := by
  have h1x : rd (slrMoveSubtree h x nr) x
      = { rd h x with right_child := (rd h nr).left_child } := move_rd_x hx hcD
  have h2x : rd (parentRelink (slrMoveSubtree h x nr) x nr) x
      = rd (slrMoveSubtree h x nr) x :=
    relink_rd_other x hxnr
      (fun pp hp => by rw [h1x] at hp; exact fun he => hpD pp hp he.symm)
  have hlen2 : x < (parentRelink (slrMoveSubtree h x nr) x nr).length := by
    rw [relink_length, move_length]; exact hx
  rw [slrFin_rd_x hxnr hlen2, h2x, h1x]

theorem slrW_rd_nr {h : Heap} {x nr : Nat} (hxnr : x ≠ nr)
    (hx : x < h.length) (hnr : nr < h.length)
    (hcD : ∀ cc, (rd h nr).left_child = some cc → cc ≠ x ∧ cc ≠ nr)
    (hpD : ∀ pp, (rd h x).parent = some pp → pp ≠ nr) :
    rd (slrFinish (parentRelink (slrMoveSubtree h x nr) x nr) x nr) nr
      = { rd h nr with
          left_child := some x
          parent := (rd h x).parent
          balance_factor := 0 } := by
  have h1x : rd (slrMoveSubtree h x nr) x
      = { rd h x with right_child := (rd h nr).left_child } :=
    move_rd_x hx (fun cc hc => (hcD cc hc).1)
  have h1nr : rd (slrMoveSubtree h x nr) nr = rd h nr :=
    move_rd_other nr (fun he => hxnr he.symm) (fun cc hc he => (hcD cc hc).2 he.symm)
  have h2nr : rd (parentRelink (slrMoveSubtree h x nr) x nr) nr
      = { rd (slrMoveSubtree h x nr) nr with
          parent := (rd (slrMoveSubtree h x nr) x).parent } :=
    relink_rd_nr (by rw [move_length]; exact hnr)
      (fun pp hp => by rw [h1x] at hp; exact hpD pp hp)
  have hlen2 : nr < (parentRelink (slrMoveSubtree h x nr) x nr).length := by
    rw [relink_length, move_length]; exact hnr
  rw [slrFin_rd_nr hxnr hlen2, h2nr, h1nr, h1x]

theorem slrW_rd_c {h : Heap} {x nr cc : Nat} (hx : x < h.length)
    (hcc : (rd h nr).left_child = some cc)
    (hcx : cc ≠ x) (hcnr : cc ≠ nr) (hclen : cc < h.length)
    (hpD : ∀ pp, (rd h x).parent = some pp → pp ≠ cc) :
    rd (slrFinish (parentRelink (slrMoveSubtree h x nr) x nr) x nr) cc
      = { rd h cc with parent := some x } := by
  have hcall : ∀ cc2, (rd h nr).left_child = some cc2 → cc2 ≠ x := by
    intro cc2 hc2
    rw [hcc] at hc2
    injection hc2 with he
    subst he
    exact hcx
  have hpar : (rd (slrMoveSubtree h x nr) x).parent = (rd h x).parent :=
    move_parent_x hx hcall
  have h2c : rd (parentRelink (slrMoveSubtree h x nr) x nr) cc
      = rd (slrMoveSubtree h x nr) cc :=
    relink_rd_other cc hcnr
      (fun pp hp => by rw [hpar] at hp; exact fun he => hpD pp hp he.symm)
  rw [slrFin_rd_other cc hcx hcnr, h2c, move_rd_c hcc hcx hclen]

theorem slrW_rd_p {h : Heap} {x nr pp : Nat} (hx : x < h.length)
    (hp : (rd h x).parent = some pp)
    (hpx : pp ≠ x) (hpnr : pp ≠ nr) (hplen : pp < h.length)
    (hcD : ∀ cc, (rd h nr).left_child = some cc → cc ≠ x ∧ pp ≠ cc) :
    rd (slrFinish (parentRelink (slrMoveSubtree h x nr) x nr) x nr) pp
      = (if (rd h pp).left_child = some x then { rd h pp with left_child := some nr }
         else { rd h pp with right_child := some nr }) := by
  have hpar : (rd (slrMoveSubtree h x nr) x).parent = (rd h x).parent :=
    move_parent_x hx (fun cc hc => (hcD cc hc).1)
  have h1parp : (rd (slrMoveSubtree h x nr) x).parent = some pp := by
    rw [hpar]; exact hp
  have h1p : rd (slrMoveSubtree h x nr) pp = rd h pp :=
    move_rd_other pp hpx (fun cc hc => (hcD cc hc).2)
  have h2p : rd (parentRelink (slrMoveSubtree h x nr) x nr) pp
      = (if (rd (slrMoveSubtree h x nr) pp).left_child = some x then
           { rd (slrMoveSubtree h x nr) pp with left_child := some nr }
         else { rd (slrMoveSubtree h x nr) pp with right_child := some nr }) :=
    relink_rd_p h1parp hpnr (by rw [move_length]; exact hplen)
  rw [slrFin_rd_other pp hpx hpnr, h2p, h1p]

theorem slrW_rd_other {h : Heap} {x nr : Nat} (j : Nat) (hx : x < h.length)
    (hjx : j ≠ x) (hjnr : j ≠ nr)
    (hcD : ∀ cc, (rd h nr).left_child = some cc → cc ≠ x ∧ j ≠ cc)
    (hjp : ∀ pp, (rd h x).parent = some pp → j ≠ pp) :
    rd (slrFinish (parentRelink (slrMoveSubtree h x nr) x nr) x nr) j = rd h j := by
  have hpar : (rd (slrMoveSubtree h x nr) x).parent = (rd h x).parent :=
    move_parent_x hx (fun cc hc => (hcD cc hc).1)
  have h2j : rd (parentRelink (slrMoveSubtree h x nr) x nr) j
      = rd (slrMoveSubtree h x nr) j :=
    relink_rd_other j hjnr (fun pp hp => hjp pp (by rw [hpar] at hp; exact hp))
  rw [slrFin_rd_other j hjx hjnr, h2j,
    move_rd_other j hjx (fun cc hc => (hcD cc hc).2)]

theorem srrW_rd_x {h : Heap} {x nr : Nat} (hxnr : x ≠ nr) (hx : x < h.length)
    (hcD : ∀ cc, (rd h nr).right_child = some cc → cc ≠ x)
    (hpD : ∀ pp, (rd h x).parent = some pp → pp ≠ x) :
    rd (srrFinish (parentRelink (srrMoveSubtree h x nr) x nr) x nr) x
      = { rd h x with
          left_child := (rd h nr).right_child
          parent := some nr
          balance_factor := 0 } := by
  have h1x : rd (srrMoveSubtree h x nr) x
      = { rd h x with left_child := (rd h nr).right_child } := srrMove_rd_x hx hcD
  have h2x : rd (parentRelink (srrMoveSubtree h x nr) x nr) x
      = rd (srrMoveSubtree h x nr) x :=
    relink_rd_other x hxnr
      (fun pp hp => by rw [h1x] at hp; exact fun he => hpD pp hp he.symm)
  have hlen2 : x < (parentRelink (srrMoveSubtree h x nr) x nr).length := by
    rw [relink_length, srrMove_length]; exact hx
  rw [srrFin_rd_x hxnr hlen2, h2x, h1x]

theorem srrW_rd_nr {h : Heap} {x nr : Nat} (hxnr : x ≠ nr)
    (hx : x < h.length) (hnr : nr < h.length)
    (hcD : ∀ cc, (rd h nr).right_child = some cc → cc ≠ x ∧ cc ≠ nr)
    (hpD : ∀ pp, (rd h x).parent = some pp → pp ≠ nr) :
    rd (srrFinish (parentRelink (srrMoveSubtree h x nr) x nr) x nr) nr
      = { rd h nr with
          right_child := some x
          parent := (rd h x).parent
          balance_factor := 0 } := by
  have h1x : rd (srrMoveSubtree h x nr) x
      = { rd h x with left_child := (rd h nr).right_child } :=
    srrMove_rd_x hx (fun cc hc => (hcD cc hc).1)
  have h1nr : rd (srrMoveSubtree h x nr) nr = rd h nr :=
    srrMove_rd_other nr (fun he => hxnr he.symm) (fun cc hc he => (hcD cc hc).2 he.symm)
  have h2nr : rd (parentRelink (srrMoveSubtree h x nr) x nr) nr
      = { rd (srrMoveSubtree h x nr) nr with
          parent := (rd (srrMoveSubtree h x nr) x).parent } :=
    relink_rd_nr (by rw [srrMove_length]; exact hnr)
      (fun pp hp => by rw [h1x] at hp; exact hpD pp hp)
  have hlen2 : nr < (parentRelink (srrMoveSubtree h x nr) x nr).length := by
    rw [relink_length, srrMove_length]; exact hnr
  rw [srrFin_rd_nr hxnr hlen2, h2nr, h1nr, h1x]

theorem srrW_rd_c {h : Heap} {x nr cc : Nat} (hx : x < h.length)
    (hcc : (rd h nr).right_child = some cc)
    (hcx : cc ≠ x) (hcnr : cc ≠ nr) (hclen : cc < h.length)
    (hpD : ∀ pp, (rd h x).parent = some pp → pp ≠ cc) :
    rd (srrFinish (parentRelink (srrMoveSubtree h x nr) x nr) x nr) cc
      = { rd h cc with parent := some x } := by
  have hcall : ∀ cc2, (rd h nr).right_child = some cc2 → cc2 ≠ x := by
    intro cc2 hc2
    rw [hcc] at hc2
    injection hc2 with he
    subst he
    exact hcx
  have hpar : (rd (srrMoveSubtree h x nr) x).parent = (rd h x).parent :=
    srrMove_parent_x hx hcall
  have h2c : rd (parentRelink (srrMoveSubtree h x nr) x nr) cc
      = rd (srrMoveSubtree h x nr) cc :=
    relink_rd_other cc hcnr
      (fun pp hp => by rw [hpar] at hp; exact fun he => hpD pp hp he.symm)
  rw [srrFin_rd_other cc hcx hcnr, h2c, srrMove_rd_c hcc hcx hclen]

theorem srrW_rd_p {h : Heap} {x nr pp : Nat} (hx : x < h.length)
    (hp : (rd h x).parent = some pp)
    (hpx : pp ≠ x) (hpnr : pp ≠ nr) (hplen : pp < h.length)
    (hcD : ∀ cc, (rd h nr).right_child = some cc → cc ≠ x ∧ pp ≠ cc) :
    rd (srrFinish (parentRelink (srrMoveSubtree h x nr) x nr) x nr) pp
      = (if (rd h pp).left_child = some x then { rd h pp with left_child := some nr }
         else { rd h pp with right_child := some nr }) := by
  have hpar : (rd (srrMoveSubtree h x nr) x).parent = (rd h x).parent :=
    srrMove_parent_x hx (fun cc hc => (hcD cc hc).1)
  have h1parp : (rd (srrMoveSubtree h x nr) x).parent = some pp := by
    rw [hpar]; exact hp
  have h1p : rd (srrMoveSubtree h x nr) pp = rd h pp :=
    srrMove_rd_other pp hpx (fun cc hc => (hcD cc hc).2)
  have h2p : rd (parentRelink (srrMoveSubtree h x nr) x nr) pp
      = (if (rd (srrMoveSubtree h x nr) pp).left_child = some x then
           { rd (srrMoveSubtree h x nr) pp with left_child := some nr }
         else { rd (srrMoveSubtree h x nr) pp with right_child := some nr }) :=
    relink_rd_p h1parp hpnr (by rw [srrMove_length]; exact hplen)
  rw [srrFin_rd_other pp hpx hpnr, h2p, h1p]

theorem srrW_rd_other {h : Heap} {x nr : Nat} (j : Nat) (hx : x < h.length)
    (hjx : j ≠ x) (hjnr : j ≠ nr)
    (hcD : ∀ cc, (rd h nr).right_child = some cc → cc ≠ x ∧ j ≠ cc)
    (hjp : ∀ pp, (rd h x).parent = some pp → j ≠ pp) :
    rd (srrFinish (parentRelink (srrMoveSubtree h x nr) x nr) x nr) j = rd h j := by
  have hpar : (rd (srrMoveSubtree h x nr) x).parent = (rd h x).parent :=
    srrMove_parent_x hx (fun cc hc => (hcD cc hc).1)
  have h2j : rd (parentRelink (srrMoveSubtree h x nr) x nr) j
      = rd (srrMoveSubtree h x nr) j :=
    relink_rd_other j hjnr (fun pp hp => hjp pp (by rw [hpar] at hp; exact hp))
  rw [srrFin_rd_other j hjx hjnr, h2j,
    srrMove_rd_other j hjx (fun cc hc => (hcD cc hc).2)]

/-! ## Decode and pure-tree utilities for the rotation argument -/

theorem decode_succ_of_some {f : Nat} {h : Heap} {i : Nat} {t : PTree}
    (hdec : decode f h (some i) = some t) : ∃ f1, f = f1 + 1 := by
  cases f with
  | zero => exact absurd hdec (by simp [decode])
  | succ f1 => exact ⟨f1, rfl⟩

theorem decode_lf_none {f : Nat} {h : Heap} {oi : Option Nat}
    (hdec : decode f h oi = some .lf) : oi = none := by
  cases oi with
  | none => rfl
  | some i =>
    obtain ⟨f1, rfl⟩ := decode_succ_of_some hdec
    obtain ⟨l, r, _, _, heq⟩ := decode_some hdec
    exact absurd heq (by simp)

theorem decode_root_eq {f : Nat} {h : Heap} {j i : Nat} {l r : PTree}
    (hdec : decode f h (some j) = some (.nd i l r)) : i = j := by
  obtain ⟨f1, rfl⟩ := decode_succ_of_some hdec
  obtain ⟨l2, r2, _, _, heq⟩ := decode_some hdec
  rw [PTree.nd.injEq] at heq
  exact heq.1

theorem decode_shrink : ∀ {t : PTree} {f g : Nat} {h : Heap} {oi : Option Nat},
    decode f h oi = some t → t.inorder.length < g → decode g h oi = some t := by
  intro t
  induction t with
  | lf =>
    intro f g h oi hdec _
    have hoi := decode_lf_none hdec
    subst hoi
    exact decode_none g h
  | nd i l r ihl ihr =>
    intro f g h oi hdec hlt
    cases oi with
    | none =>
      rw [decode_none] at hdec
      exact absurd hdec (by simp)
    | some j =>
      obtain ⟨f1, rfl⟩ := decode_succ_of_some hdec
      obtain ⟨l2, r2, hl, hr, heq⟩ := decode_some hdec
      injection heq with h1 h2 h3
      subst h1
      subst h2
      subst h3
      have hsz : (PTree.nd i l r).inorder.length = l.inorder.length + r.inorder.length + 1 := by
        simp [PTree.inorder]
        omega
      obtain ⟨g1, rfl⟩ : ∃ g1, g = g1 + 1 := ⟨g - 1, by omega⟩
      have hgl : l.inorder.length < g1 := by omega
      have hgr : r.inorder.length < g1 := by omega
      exact decode_nd (ihl hl hgl) (ihr hr hgr)

theorem rotL_inorder (t : PTree) : (rotL t).inorder = t.inorder := by
  match t with
  | .lf => rfl
  | .nd i l .lf => rfl
  | .nd i l (.nd i2 m r) => simp [rotL, PTree.inorder, List.append_assoc]

theorem rotR_inorder (t : PTree) : (rotR t).inorder = t.inorder := by
  match t with
  | .lf => rfl
  | .nd i .lf r => rfl
  | .nd i (.nd i2 l m) r => simp [rotR, PTree.inorder, List.append_assoc]

theorem mapAt_noop {x : Nat} {g : PTree → PTree} :
    ∀ {t : PTree}, x ∉ t.inorder → mapAt x g t = t
  | .lf, _ => rfl
  | .nd i l r, hx => by
    have hix : ¬ i = x := fun he => hx (by simp [PTree.inorder, he])
    have hl : x ∉ l.inorder := fun hm => hx (by simp [PTree.inorder, hm])
    have hr : x ∉ r.inorder := fun hm => hx (by simp [PTree.inorder, hm])
    simp [mapAt, hix, mapAt_noop hl, mapAt_noop hr]

theorem mapAt_inorder {x : Nat} {g : PTree → PTree}
    (hg : ∀ s, (g s).inorder = s.inorder) :
    ∀ (t : PTree), (mapAt x g t).inorder = t.inorder := by
  intro t
  induction t with
  | lf => rfl
  | nd i l r ihl ihr =>
    by_cases hix : i = x
    · rw [mapAt, if_pos hix, hg]
    · rw [mapAt, if_neg hix]
      simp [PTree.inorder, ihl, ihr]

theorem bfOkE_lf {e : Nat} {h : Heap} : bfOkE e h .lf = true := rfl

theorem bfOkE_nd {e : Nat} {h : Heap} {i : Nat} {l r : PTree} :
    bfOkE e h (.nd i l r) = true ↔
    (i = e ∨ ((rd h i).balance_factor.natAbs ≤ 1 ∧
      ((rd h i).balance_factor = 1 → (rd h i).right_child ≠ none) ∧
      ((rd h i).balance_factor = -1 → (rd h i).left_child ≠ none))) ∧
    bfOkE e h l = true ∧ bfOkE e h r = true := by
  simp only [bfOkE, Bool.and_eq_true, Bool.or_eq_true, and_assoc,
    decide_eq_true_eq, beq_iff_eq, ne_eq]

theorem bfOk_imp_bfOkE {e : Nat} {h : Heap} :
    ∀ {t : PTree}, bfOk h t = true → bfOkE e h t = true
  | .lf, _ => rfl
  | .nd i l r, hok => by
    rw [bfOk_nd] at hok
    exact bfOkE_nd.mpr ⟨Or.inr hok.1, bfOk_imp_bfOkE hok.2.1, bfOk_imp_bfOkE hok.2.2⟩

theorem bfOkE_imp_bfOk {e : Nat} {h : Heap}
    (he : (rd h e).balance_factor.natAbs ≤ 1 ∧
      ((rd h e).balance_factor = 1 → (rd h e).right_child ≠ none) ∧
      ((rd h e).balance_factor = -1 → (rd h e).left_child ≠ none)) :
    ∀ {t : PTree}, bfOkE e h t = true → bfOk h t = true
  | .lf, _ => rfl
  | .nd i l r, hok => by
    rw [bfOkE_nd] at hok
    refine bfOk_nd.mpr ⟨?_, bfOkE_imp_bfOk he hok.2.1, bfOkE_imp_bfOk he hok.2.2⟩
    cases hok.1 with
    | inl heq => rw [heq]; exact he
    | inr hchk => exact hchk

theorem parent_in : ∀ {t : PTree} {h : Heap} {pa : Option Nat},
    parentsOk h t pa = true → ∀ x ∈ t.inorder,
    ((∃ l r, t = .nd x l r) ∧ (rd h x).parent = pa) ∨
    ∃ q ∈ t.inorder, (rd h x).parent = some q := by
  intro t
  induction t with
  | lf => intro h pa _ x hx; exact absurd hx (by simp [PTree.inorder])
  | nd i l r ihl ihr =>
    intro h pa hok x hx
    rw [parentsOk_nd] at hok
    rw [show (PTree.nd i l r).inorder = l.inorder ++ i :: r.inorder from rfl,
      List.mem_append, List.mem_cons] at hx
    rcases hx with hxl | hxi | hxr
    · rcases ihl hok.2.1 x hxl with ⟨_, hp⟩ | ⟨q, hq, hp⟩
      · exact Or.inr ⟨i, by simp [PTree.inorder], hp⟩
      · exact Or.inr ⟨q, by simp [PTree.inorder, hq], hp⟩
    · subst hxi
      exact Or.inl ⟨⟨l, r, rfl⟩, hok.1⟩
    · rcases ihr hok.2.2 x hxr with ⟨_, hp⟩ | ⟨q, hq, hp⟩
      · exact Or.inr ⟨i, by simp [PTree.inorder], hp⟩
      · exact Or.inr ⟨q, by simp [PTree.inorder, hq], hp⟩

theorem mem_rchild_mem : ∀ {t : PTree} {f : Nat} {h : Heap} {oi : Option Nat} {x nr : Nat},
    decode f h oi = some t → x ∈ t.inorder → (rd h x).right_child = some nr →
    nr ∈ t.inorder := by
  intro t
  induction t with
  | lf => intro f h oi x nr _ hx; exact absurd hx (by simp [PTree.inorder])
  | nd i l r ihl ihr =>
    intro f h oi x nr hdec hx hrc
    cases oi with
    | none => rw [decode_none] at hdec; exact absurd hdec (by simp)
    | some j =>
      obtain ⟨f1, rfl⟩ := decode_succ_of_some hdec
      obtain ⟨l2, r2, hl, hr, heq⟩ := decode_some hdec
      injection heq with h1 h2 h3
      subst h1
      subst h2
      subst h3
      rw [show (PTree.nd i l r).inorder = l.inorder ++ i :: r.inorder from rfl,
        List.mem_append, List.mem_cons] at hx ⊢
      rcases hx with hxl | hxi | hxr
      · exact Or.inl (ihl hl hxl hrc)
      · subst hxi
        rw [hrc] at hr
        match r, hr with
        | .lf, hr => exact absurd (decode_lf_none hr) (by simp)
        | .nd nri rl rr, hr =>
          have : nri = nr := decode_root_eq hr
          subst this
          exact Or.inr (Or.inr (by simp [PTree.inorder]))
      · exact Or.inr (Or.inr (ihr hr hxr hrc))

theorem mem_lchild_mem : ∀ {t : PTree} {f : Nat} {h : Heap} {oi : Option Nat} {x nl : Nat},
    decode f h oi = some t → x ∈ t.inorder → (rd h x).left_child = some nl →
    nl ∈ t.inorder := by
  intro t
  induction t with
  | lf => intro f h oi x nl _ hx; exact absurd hx (by simp [PTree.inorder])
  | nd i l r ihl ihr =>
    intro f h oi x nl hdec hx hlc
    cases oi with
    | none => rw [decode_none] at hdec; exact absurd hdec (by simp)
    | some j =>
      obtain ⟨f1, rfl⟩ := decode_succ_of_some hdec
      obtain ⟨l2, r2, hl, hr, heq⟩ := decode_some hdec
      injection heq with h1 h2 h3
      subst h1
      subst h2
      subst h3
      rw [show (PTree.nd i l r).inorder = l.inorder ++ i :: r.inorder from rfl,
        List.mem_append, List.mem_cons] at hx ⊢
      rcases hx with hxl | hxi | hxr
      · exact Or.inl (ihl hl hxl hlc)
      · subst hxi
        rw [hlc] at hl
        match l, hl with
        | .lf, hl => exact absurd (decode_lf_none hl) (by simp)
        | .nd nli ll lr, hl =>
          have : nli = nl := decode_root_eq hl
          subst this
          exact Or.inl (by simp [PTree.inorder])
      · exact Or.inr (Or.inr (ihr hr hxr hlc))

theorem bfOkE_congr : ∀ {t : PTree} {h h' : Heap} {e : Nat},
    (∀ j ∈ t.inorder, (rd h' j).balance_factor = (rd h j).balance_factor ∧
      (rd h' j).left_child = (rd h j).left_child ∧
      (rd h' j).right_child = (rd h j).right_child) →
    bfOkE e h t = true → bfOkE e h' t = true := by
  intro t
  induction t with
  | lf => intro h h' e _ _; rfl
  | nd i l r ihl ihr =>
    intro h h' e hagree hok
    rw [bfOkE_nd] at hok ⊢
    obtain ⟨h1, h2, h3⟩ := hok
    have hi := hagree i (by simp [PTree.inorder])
    refine ⟨?_, ihl (fun j hj => hagree j (by simp [PTree.inorder, hj])) h2,
      ihr (fun j hj => hagree j (by simp [PTree.inorder, hj])) h3⟩
    cases h1 with
    | inl he => exact Or.inl he
    | inr hchk =>
      exact Or.inr ⟨by rw [hi.1]; exact hchk.1, by rw [hi.1, hi.2.2]; exact hchk.2.1,
        by rw [hi.1, hi.2.1]; exact hchk.2.2⟩

theorem parentsOk_swap {t : PTree} {h h' : Heap} {pa pa' : Option Nat}
    (hok : parentsOk h t pa = true)
    (hup : ∀ i l r, t = PTree.nd i l r →
      (rd h' i).parent = pa' ∧
      ∀ j ∈ l.inorder ++ r.inorder, (rd h' j).parent = (rd h j).parent) :
    parentsOk h' t pa' = true := by
  cases t with
  | lf => rfl
  | nd i l r =>
    rw [parentsOk_nd] at hok
    obtain ⟨h1, h2⟩ := hup i l r rfl
    exact parentsOk_nd.mpr ⟨h1,
      parentsOk_congr (fun j hj => h2 j (by simp [hj])) hok.2.1,
      parentsOk_congr (fun j hj => h2 j (by simp [hj])) hok.2.2⟩

theorem rchild_lchild_ne : ∀ {t : PTree} {f : Nat} {h : Heap} {oi : Option Nat}
    {x nr cc : Nat}, decode f h oi = some t → t.inorder.Nodup → x ∈ t.inorder →
    (rd h x).right_child = some nr → (rd h nr).left_child = some cc → cc ≠ x := by
  intro t
  induction t with
  | lf => intro f h oi x nr cc _ _ hx; exact absurd hx (by simp [PTree.inorder])
  | nd i l r ihl ihr =>
    intro f h oi x nr cc hdec hnd hx hrc hcc
    cases oi with
    | none => rw [decode_none] at hdec; exact absurd hdec (by simp)
    | some j =>
      obtain ⟨f1, rfl⟩ := decode_succ_of_some hdec
      obtain ⟨l2, r2, hl, hr, heq⟩ := decode_some hdec
      rw [PTree.nd.injEq] at heq
      obtain ⟨hij, hll, hrr⟩ := heq
      subst hij
      subst hll
      subst hrr
      obtain ⟨hndl, hndr, hil, hir, hdisj⟩ := nodup_nd hnd
      rw [show (PTree.nd i l r).inorder = l.inorder ++ i :: r.inorder from rfl,
        List.mem_append, List.mem_cons] at hx
      rcases hx with hxl | hxi | hxr
      · exact ihl hl hndl hxl hrc hcc
      · subst hxi
        have hccr : cc ∈ r.inorder := by
          have hnrr : nr ∈ r.inorder := by
            rw [hrc] at hr
            match r, hr, hndr with
            | .lf, hr, _ => exact absurd (decode_lf_none hr) (by simp)
            | .nd nri rl rr, hr, _ =>
              have he := decode_root_eq hr
              subst he
              simp [PTree.inorder]
          exact mem_lchild_mem hr hnrr hcc
        exact fun he => hir (he ▸ hccr)
      · exact ihr hr hndr hxr hrc hcc

theorem lchild_rchild_ne : ∀ {t : PTree} {f : Nat} {h : Heap} {oi : Option Nat}
    {x nl cc : Nat}, decode f h oi = some t → t.inorder.Nodup → x ∈ t.inorder →
    (rd h x).left_child = some nl → (rd h nl).right_child = some cc → cc ≠ x := by
  intro t
  induction t with
  | lf => intro f h oi x nl cc _ _ hx; exact absurd hx (by simp [PTree.inorder])
  | nd i l r ihl ihr =>
    intro f h oi x nl cc hdec hnd hx hlc hcc
    cases oi with
    | none => rw [decode_none] at hdec; exact absurd hdec (by simp)
    | some j =>
      obtain ⟨f1, rfl⟩ := decode_succ_of_some hdec
      obtain ⟨l2, r2, hl, hr, heq⟩ := decode_some hdec
      rw [PTree.nd.injEq] at heq
      obtain ⟨hij, hll, hrr⟩ := heq
      subst hij
      subst hll
      subst hrr
      obtain ⟨hndl, hndr, hil, hir, hdisj⟩ := nodup_nd hnd
      rw [show (PTree.nd i l r).inorder = l.inorder ++ i :: r.inorder from rfl,
        List.mem_append, List.mem_cons] at hx
      rcases hx with hxl | hxi | hxr
      · exact ihl hl hndl hxl hlc hcc
      · subst hxi
        have hccl : cc ∈ l.inorder := by
          have hnll : nl ∈ l.inorder := by
            rw [hlc] at hl
            match l, hl, hndl with
            | .lf, hl, _ => exact absurd (decode_lf_none hl) (by simp)
            | .nd nli ll lr, hl, _ =>
              have he := decode_root_eq hl
              subst he
              simp [PTree.inorder]
          exact mem_rchild_mem hl hnll hcc
        exact fun he => hil (he ▸ hccl)
      · exact ihr hr hndr hxr hlc hcc

/-! ## Frame lemmas: no operation of the tree touches interval bounds or
payload (claim C10) -/

theorem persistent_rd_wr (h : Heap) (i j : Nat) (r : NodeRec)
    (hr : persistentFields r = persistentFields (rd h i)) :
    persistentFields (rd (wr h i r) j) = persistentFields (rd h j) := by
  by_cases hij : i = j
  · subst hij
    by_cases hlt : i < h.length
    · rw [rd_wr_self _ hlt, hr]
    · rw [wr_oob _ (Nat.le_of_not_lt hlt)]
  · rw [rd_wr_ne _ hij]

theorem samePayload_refl (h : Heap) : SamePayload h h := fun _ => rfl

theorem samePayload_trans {h1 h2 h3 : Heap} (a : SamePayload h1 h2)
    (b : SamePayload h2 h3) : SamePayload h1 h3 :=
  fun i => (b i).trans (a i)

theorem samePayload_wr {h h' : Heap} (hs : SamePayload h h') {i : Nat} {r : NodeRec}
    (hr : persistentFields r = persistentFields (rd h' i)) :
    SamePayload h (wr h' i r) :=
  fun j => (persistent_rd_wr h' i j r hr).trans (hs j)

theorem samePayload_update_root {fuel : Nat} {h : Heap} {i : Nat} {out : Heap × Nat}
    (hres : update_root fuel h i = .ok out) : SamePayload h out.1 := by
  unfold update_root at hres
  obtain ⟨r, _, hrest⟩ := bind_ok hres
  cases hp : (rd h r).parent with
  | none => rw [hp] at hrest; cases hrest; exact samePayload_refl h
  | some p =>
    rw [hp] at hrest
    cases hrest
    exact samePayload_wr (samePayload_refl h) (by simp [persistentFields])

theorem samePayload_slrMoveSubtree (h : Heap) (x nr : Nat) :
    SamePayload h (slrMoveSubtree h x nr) := by
  unfold slrMoveSubtree
  cases hnl : (rd h nr).left_child <;> simp only [hnl]
  · exact samePayload_wr (samePayload_refl h) rfl
  · refine samePayload_wr (samePayload_wr (samePayload_refl h) ?_) ?_ <;> rfl

theorem samePayload_srrMoveSubtree (h : Heap) (x nr : Nat) :
    SamePayload h (srrMoveSubtree h x nr) := by
  unfold srrMoveSubtree
  cases hnr : (rd h nr).right_child <;> simp only [hnr]
  · exact samePayload_wr (samePayload_refl h) rfl
  · refine samePayload_wr (samePayload_wr (samePayload_refl h) ?_) ?_ <;> rfl

theorem samePayload_parentRelink (h : Heap) (x nr : Nat) :
    SamePayload h (parentRelink h x nr) := by
  unfold parentRelink
  cases hsp : (rd h x).parent <;> simp only [hsp]
  · exact samePayload_wr (samePayload_refl h) rfl
  · split <;> (refine samePayload_wr (samePayload_wr (samePayload_refl h) ?_) ?_ <;> rfl)

theorem samePayload_slrFinish (h : Heap) (x nr : Nat) :
    SamePayload h (slrFinish h x nr) := by
  unfold slrFinish
  refine samePayload_wr (samePayload_wr (samePayload_wr (samePayload_wr
    (samePayload_refl h) ?_) ?_) ?_) ?_ <;> rfl

theorem samePayload_srrFinish (h : Heap) (x nr : Nat) :
    SamePayload h (srrFinish h x nr) := by
  unfold srrFinish
  refine samePayload_wr (samePayload_wr (samePayload_wr (samePayload_wr
    (samePayload_refl h) ?_) ?_) ?_) ?_ <;> rfl

theorem samePayload_singleLeft {fuel : Nat} {h : Heap} {x : Nat} {out : Heap × Nat}
    (hres : singleLeftRotation fuel h x = .ok out) : SamePayload h out.1 := by
  unfold singleLeftRotation at hres
  cases hrc : (rd h x).right_child with
  | none => rw [hrc] at hres; exact absurd hres (by simp)
  | some nr =>
    rw [hrc] at hres
    exact samePayload_trans (samePayload_trans (samePayload_trans
      (samePayload_slrMoveSubtree h x nr) (samePayload_parentRelink _ x nr))
      (samePayload_slrFinish _ x nr)) (samePayload_update_root hres)

theorem samePayload_singleRight {fuel : Nat} {h : Heap} {x : Nat} {out : Heap × Nat}
    (hres : singleRightRotation fuel h x = .ok out) : SamePayload h out.1 := by
  unfold singleRightRotation at hres
  cases hrc : (rd h x).left_child with
  | none => rw [hrc] at hres; exact absurd hres (by simp)
  | some nr =>
    rw [hrc] at hres
    exact samePayload_trans (samePayload_trans (samePayload_trans
      (samePayload_srrMoveSubtree h x nr) (samePayload_parentRelink _ x nr))
      (samePayload_srrFinish _ x nr)) (samePayload_update_root hres)

theorem samePayload_doubleRL {fuel : Nat} {h : Heap} {x : Nat} {out : Heap}
    (hres : doubleRightLeftRotation fuel h x = .ok out) : SamePayload h out := by
  unfold doubleRightLeftRotation at hres
  cases hrc : (rd h x).right_child with
  | none => rw [hrc] at hres; exact absurd hres (by simp)
  | some rc =>
    rw [hrc] at hres
    obtain ⟨p1, hp1, hrest⟩ := bind_ok hres
    obtain ⟨p2, hp2, hfin⟩ := bind_ok hrest
    cases hfin
    exact samePayload_trans (samePayload_singleRight hp1) (samePayload_singleLeft hp2)

theorem samePayload_doubleLR {fuel : Nat} {h : Heap} {x : Nat} {out : Heap}
    (hres : doubleLeftRightRotation fuel h x = .ok out) : SamePayload h out := by
  unfold doubleLeftRightRotation at hres
  cases hrc : (rd h x).left_child with
  | none => rw [hrc] at hres; exact absurd hres (by simp)
  | some lc =>
    rw [hrc] at hres
    obtain ⟨p1, hp1, hrest⟩ := bind_ok hres
    obtain ⟨p2, hp2, hfin⟩ := bind_ok hrest
    cases hfin
    exact samePayload_trans (samePayload_singleLeft hp1) (samePayload_singleRight hp2)

theorem samePayload_dispatch {fuel : Nat} {h : Heap} {x : Nat} {bf : Int} {h1 : Heap}
    (hres : rebalanceDispatch fuel h x bf = .ok (some h1)) : SamePayload h h1 := by
  unfold rebalanceDispatch at hres
  split at hres
  · split at hres
    · exact absurd hres (by simp)
    · split at hres
      · obtain ⟨p1, hp1, hfin⟩ := bind_ok hres
        injection hfin with h2; injection h2 with h3
        exact h3 ▸ samePayload_singleLeft hp1
      · split at hres
        · obtain ⟨a, ha, hfin⟩ := bind_ok hres
          injection hfin with h2; injection h2 with h3
          exact h3 ▸ samePayload_doubleRL ha
        · exact absurd hres (by simp)
  · split at hres
    · split at hres
      · exact absurd hres (by simp)
      · split at hres
        · obtain ⟨p1, hp1, hfin⟩ := bind_ok hres
          injection hfin with h2; injection h2 with h3
          exact h3 ▸ samePayload_singleRight hp1
        · split at hres
          · obtain ⟨a, ha, hfin⟩ := bind_ok hres
            injection hfin with h2; injection h2 with h3
            exact h3 ▸ samePayload_doubleLR ha
          · exact absurd hres (by simp)
    · exact absurd hres (by simp)

theorem samePayload_bfAdjust (h : Heap) (x : Nat) (flag : Bool) :
    SamePayload h (bfAdjust h x flag).1 := by
  unfold bfAdjust
  exact samePayload_wr (samePayload_refl h) rfl

theorem samePayload_ubfr : ∀ (fuel : Nat) {h : Heap} {x : Nat} {flag : Bool} {out : Heap},
    updateBalanceFactorsAndRebalance fuel h x flag = .ok out → SamePayload h out
  | 0, h, _, _, _, hres => absurd hres (by simp [updateBalanceFactorsAndRebalance])
  | fuel + 1, h, x, flag, out, hres => by
    unfold updateBalanceFactorsAndRebalance at hres
    rcases hE : bfAdjust h x flag with ⟨hb1, bf⟩
    have hb1_pay : SamePayload h hb1 := by
      have := samePayload_bfAdjust h x flag
      rwa [hE] at this
    simp only [hE] at hres
    split at hres
    · injection hres with h2
      subst h2
      exact hb1_pay
    · split at hres
      · exact absurd hres (by simp)
      · split at hres
        · exact absurd hres (by simp)
        · rename_i h1 hdisp
          injection hres with h2
          subst h2
          exact samePayload_trans hb1_pay (samePayload_dispatch hdisp)
        · split at hres
          · injection hres with h2
            subst h2
            exact hb1_pay
          · split at hres
            · exact absurd hres (by simp)
            · exact samePayload_trans hb1_pay (samePayload_ubfr fuel hres)

theorem samePayload_attachChild (h : Heap) (self node : Nat) (right : Bool) :
    SamePayload h (attachChild h self node right) := by
  unfold attachChild
  cases right <;> simp only [Bool.false_eq_true, if_true, if_false] <;>
    (refine samePayload_wr (samePayload_wr (samePayload_refl h) ?_) ?_ <;> rfl)

theorem samePayload_maxUpdate (h : Heap) (self : Nat) :
    SamePayload h (maxUpdate h self) := by
  simp only [maxUpdate]
  split
  · exact samePayload_refl h
  all_goals exact samePayload_wr (samePayload_refl h) rfl

theorem samePayload_insert : ∀ (fuel : Nat) {h : Heap} {s n : Nat} {out : Heap × Option Nat},
    insert fuel h s n = .ok out → SamePayload h out.1
  | 0, _, _, _, _, hres => absurd hres (by simp [insert])
  | fuel + 1, h, s, n, out, hres => by
    unfold insert at hres
    split at hres
    · exact absurd hres (by simp)
    · rename_i h1 hstep
      injection hres with h2
      subst h2
      refine samePayload_trans ?_ (samePayload_maxUpdate h1 s)
      split at hstep
      · split at hstep
        · obtain ⟨p, hp, hpe⟩ := map_ok hstep
          subst hpe
          exact samePayload_insert fuel hp
        · exact samePayload_trans (samePayload_attachChild h s n false)
            (samePayload_ubfr fuel hstep)
      · split at hstep
        · obtain ⟨p, hp, hpe⟩ := map_ok hstep
          subst hpe
          exact samePayload_insert fuel hp
        · exact samePayload_trans (samePayload_attachChild h s n true)
            (samePayload_ubfr fuel hstep)

/-! ## The single rotations preserve the invariant (graft walk) -/

theorem samePayload_slrW (h : Heap) (x nr : Nat) :
    SamePayload h (slrFinish (parentRelink (slrMoveSubtree h x nr) x nr) x nr) :=
  samePayload_trans (samePayload_trans (samePayload_slrMoveSubtree h x nr)
    (samePayload_parentRelink _ x nr)) (samePayload_slrFinish _ x nr)

theorem samePayload_srrW (h : Heap) (x nr : Nat) :
    SamePayload h (srrFinish (parentRelink (srrMoveSubtree h x nr) x nr) x nr) :=
  samePayload_trans (samePayload_trans (samePayload_srrMoveSubtree h x nr)
    (samePayload_parentRelink _ x nr)) (samePayload_srrFinish _ x nr)

theorem slrW_start (h : Heap) (x nr j : Nat) :
    (rd (slrFinish (parentRelink (slrMoveSubtree h x nr) x nr) x nr) j).interval_start
      = (rd h j).interval_start :=
  congrArg (fun q => q.1) (samePayload_slrW h x nr j)

theorem srrW_start (h : Heap) (x nr j : Nat) :
    (rd (srrFinish (parentRelink (srrMoveSubtree h x nr) x nr) x nr) j).interval_start
      = (rd h j).interval_start :=
  congrArg (fun q => q.1) (samePayload_srrW h x nr j)

theorem decode_self_mem {f : Nat} {h : Heap} {i : Nat} {t : PTree}
    (hdec : decode f h (some i) = some t) : i ∈ t.inorder := by
  obtain ⟨f1, rfl⟩ := decode_succ_of_some hdec
  obtain ⟨l, r, _, _, heq⟩ := decode_some hdec
  subst heq
  simp [PTree.inorder]

set_option maxHeartbeats 1000000 in
/-- A single left rotation at `x` (whose right child is `nr`), performed by
the raw pointer surgery of source lines 88-105, turns the decoded tree into
`mapAt x rotL` of itself, keeps the in-order sequence, and preserves parent
coherence, the weak ordering and the stored-balance-factor checks away from
`e`; the rotated subtree is reached at `nr` instead of `x` when `x` was its
root. -/
theorem slr_rotate_inv {h : Heap} {x nr e : Nat}
    (hrc : (rd h x).right_child = some nr) :
    ∀ {t : PTree} {f : Nat} {oi : Option Nat} {pa : Option Nat},
    decode f h oi = some t →
    t.inorder.Nodup →
    (∀ j ∈ t.inorder, j < h.length) →
    parentsOk h t pa = true →
    ordB h t = true →
    bfOkE e h t = true →
    x ∈ t.inorder →
    (∀ q, pa = some q → q ∉ t.inorder) →
    decode (f + 1) (slrFinish (parentRelink (slrMoveSubtree h x nr) x nr) x nr)
        (if oi = some x then some nr else oi) = some (mapAt x rotL t) ∧
    parentsOk (slrFinish (parentRelink (slrMoveSubtree h x nr) x nr) x nr) (mapAt x rotL t) pa = true ∧
    ordB (slrFinish (parentRelink (slrMoveSubtree h x nr) x nr) x nr) (mapAt x rotL t) = true ∧
    bfOkE e (slrFinish (parentRelink (slrMoveSubtree h x nr) x nr) x nr) (mapAt x rotL t) = true ∧
    (rd (slrFinish (parentRelink (slrMoveSubtree h x nr) x nr) x nr) x).balance_factor
        = 0 := by
  intro t
  induction t with
  | lf => intro f oi pa _ _ _ _ _ _ hx _; exact absurd hx (by simp [PTree.inorder])
  | nd i l r ihl ihr =>
    intro f oi pa hdec hnd hbound hpok hord hbfe hx hpa
    obtain ⟨j, rfl⟩ : ∃ j, oi = some j := by
      cases oi with
      | none => rw [decode_none] at hdec; exact absurd hdec (by simp)
      | some j => exact ⟨j, rfl⟩
    obtain ⟨f1, rfl⟩ := decode_succ_of_some hdec
    obtain ⟨l2, r2, hl, hr, heq⟩ := decode_some hdec
    rw [PTree.nd.injEq] at heq
    obtain ⟨hij, hll, hrr⟩ := heq
    subst hij
    subst hll
    subst hrr
    obtain ⟨hndl, hndr, hil, hir, hdisj⟩ := nodup_nd hnd
    rw [parentsOk_nd] at hpok
    obtain ⟨hpi, hpl, hpr⟩ := hpok
    rw [ordB_nd] at hord
    obtain ⟨hoL, hoR, hol, hor⟩ := hord
    rw [bfOkE_nd] at hbfe
    obtain ⟨hbi, hbl, hbr⟩ := hbfe
    have hmem : ∀ y, y ∈ (PTree.nd i l r).inorder ↔
        (y ∈ l.inorder ∨ y = i ∨ y ∈ r.inorder) := by
      intro y
      rw [show (PTree.nd i l r).inorder = l.inorder ++ i :: r.inorder from rfl,
        List.mem_append, List.mem_cons]
    rw [hmem] at hx
    have hbL2 : ∀ y ∈ l.inorder, y < h.length :=
      fun y hy => hbound y ((hmem y).mpr (Or.inl hy))
    have hbR2 : ∀ y ∈ r.inorder, y < h.length :=
      fun y hy => hbound y ((hmem y).mpr (Or.inr (Or.inr hy)))
    have hbi2 : i < h.length := hbound i ((hmem i).mpr (Or.inr (Or.inl rfl)))
    rcases hx with hxl | hxi | hxr
    · -- `x` lies in the left subtree
      cases l with
      | lf => exact absurd hxl (by simp [PTree.inorder])
      | nd lrt ll lr =>
        have hilc : (rd h i).left_child = some lrt := by
          cases hlcp : (rd h i).left_child with
          | none => rw [hlcp, decode_none] at hl; exact absurd hl (by simp)
          | some z => rw [hlcp] at hl; rw [decode_root_eq hl]
        have hpa2 : ∀ q, some i = some q → q ∉ (PTree.nd lrt ll lr).inorder := by
          intro q hq
          injection hq with hq2
          subst hq2
          exact hil
        obtain ⟨ihdec, ihpok, ihord, ihbfe, ihbf0⟩ := ihl hl hndl hbL2 hpl hol hbl hxl hpa2
        have hnrl : nr ∈ (PTree.nd lrt ll lr).inorder := mem_rchild_mem hl hxl hrc
        have hix : i ≠ x := fun he => hil (by rw [he]; exact hxl)
        have hinr : i ≠ nr := fun he => hil (by rw [he]; exact hnrl)
        have hbx : x < h.length := hbL2 x hxl
        have hcl : ∀ cc, (rd h nr).left_child = some cc →
            cc ∈ (PTree.nd lrt ll lr).inorder :=
          fun cc hc => mem_lchild_mem hl hnrl hc
        have hcnex : ∀ cc, (rd h nr).left_child = some cc → cc ≠ x :=
          fun cc hc => rchild_lchild_ne hl hndl hxl hrc hc
        have hppl : ∀ pp, (rd h x).parent = some pp →
            pp = i ∨ pp ∈ (PTree.nd lrt ll lr).inorder := by
          intro pp hp
          rcases parent_in hpl x hxl with ⟨_, hpp2⟩ | ⟨q, hql, hpq⟩
          · rw [hp] at hpp2
            injection hpp2 with h2
            exact Or.inl h2
          · rw [hp] at hpq
            injection hpq with h2
            rw [h2]
            exact Or.inr hql
        have hrframe : ∀ j2, j2 ∈ r.inorder → rd (slrFinish (parentRelink (slrMoveSubtree h x nr) x nr) x nr) j2 = rd h j2 := by
          intro j2 hj2
          refine slrW_rd_other j2 hbx (fun he => hdisj x hxl (by rw [← he]; exact hj2))
            (fun he => hdisj nr hnrl (by rw [← he]; exact hj2))
            (fun cc hc => ⟨hcnex cc hc,
              fun he => hdisj cc (hcl cc hc) (by rw [← he]; exact hj2)⟩) ?_
          intro pp hp he
          rcases hppl pp hp with hpi2 | hplm
          · rw [hpi2] at he
            exact hir (by rw [← he]; exact hj2)
          · exact hdisj pp hplm (by rw [← he]; exact hj2)
        have hdR : decode (f1 + 1) (slrFinish (parentRelink (slrMoveSubtree h x nr) x nr) x nr) (rd h i).right_child = some r :=
          decode_mono (Nat.le_succ f1)
            (decode_linkCongr hr (fun j2 hj2 => by rw [hrframe j2 hj2]; exact ⟨rfl, rfl⟩))
        have hpokR : parentsOk (slrFinish (parentRelink (slrMoveSubtree h x nr) x nr) x nr) r (some i) = true :=
          parentsOk_congr (fun j2 hj2 => by rw [hrframe j2 hj2]) hpr
        have hordR : ordB (slrFinish (parentRelink (slrMoveSubtree h x nr) x nr) x nr) r = true :=
          ordB_congr (fun j2 _ => slrW_start h x nr j2) hor
        have hbfR : bfOkE e (slrFinish (parentRelink (slrMoveSubtree h x nr) x nr) x nr) r = true :=
          bfOkE_congr (fun j2 hj2 => by rw [hrframe j2 hj2]; exact ⟨rfl, rfl, rfl⟩) hbr
        have hinor : (mapAt x rotL (PTree.nd lrt ll lr)).inorder
            = (PTree.nd lrt ll lr).inorder := mapAt_inorder rotL_inorder _
        have hmapi : mapAt x rotL (PTree.nd i (PTree.nd lrt ll lr) r)
            = PTree.nd i (mapAt x rotL (PTree.nd lrt ll lr)) r := by
          rw [mapAt, if_neg hix, mapAt_noop (fun hm => hdisj x hxl hm)]
        have hordTop : ordB (slrFinish (parentRelink (slrMoveSubtree h x nr) x nr) x nr)
            (PTree.nd i (mapAt x rotL (PTree.nd lrt ll lr)) r) = true := by
          rw [ordB_nd]
          refine ⟨?_, ?_, ihord, hordR⟩
          · intro j2 hj2
            rw [hinor] at hj2
            rw [slrW_start h x nr j2, slrW_start h x nr i]
            exact hoL j2 hj2
          · intro j2 hj2
            rw [slrW_start h x nr j2, slrW_start h x nr i]
            exact hoR j2 hj2
        by_cases hlx : lrt = x
        · subst lrt
          have hp : (rd h x).parent = some i := (parentsOk_nd.mp hpl).1
          have hHi0 := slrW_rd_p hbx hp hix hinr hbi2
            (fun cc hc => ⟨hcnex cc hc, fun he => hil (by rw [he]; exact hcl cc hc)⟩)
          rw [if_pos hilc] at hHi0
          have hHil : (rd (slrFinish (parentRelink (slrMoveSubtree h x nr) x nr) x nr) i).left_child = some nr := by rw [hHi0]
          have hHir : (rd (slrFinish (parentRelink (slrMoveSubtree h x nr) x nr) x nr) i).right_child = (rd h i).right_child := by rw [hHi0]
          have hHip : (rd (slrFinish (parentRelink (slrMoveSubtree h x nr) x nr) x nr) i).parent = (rd h i).parent := by rw [hHi0]
          rw [hilc, if_pos rfl] at ihdec
          refine ⟨?_, ?_, by rw [hmapi]; exact hordTop, ?_, ihbf0⟩
          · rw [if_neg (fun he => hix (Option.some.inj he)), hmapi]
            exact decode_nd (by rw [hHil]; exact ihdec) (by rw [hHir]; exact hdR)
          · rw [hmapi, parentsOk_nd]
            exact ⟨by rw [hHip]; exact hpi, ihpok, hpokR⟩
          · rw [hmapi, bfOkE_nd]
            refine ⟨?_, ihbfe, hbfR⟩
            rcases hbi with hie | hchk
            · exact Or.inl hie
            · refine Or.inr ⟨by rw [hHi0]; exact hchk.1, ?_, ?_⟩
              · intro h2
                rw [hHir]
                exact hchk.2.1 (by rw [hHi0] at h2; exact h2)
              · intro h2
                rw [hHil]
                exact Option.some_ne_none nr
        · have hppl2 : ∀ pp, (rd h x).parent = some pp →
              pp ∈ (PTree.nd lrt ll lr).inorder := by
            intro pp hp
            rcases parent_in hpl x hxl with ⟨⟨ll2, lr2, heq2⟩, _⟩ | ⟨q, hql, hpq⟩
            · rw [PTree.nd.injEq] at heq2
              exact absurd heq2.1 hlx
            · rw [hp] at hpq
              injection hpq with h2
              rw [h2]
              exact hql
          have hHi0 : rd (slrFinish (parentRelink (slrMoveSubtree h x nr) x nr) x nr) i = rd h i :=
            slrW_rd_other i hbx hix hinr
              (fun cc hc => ⟨hcnex cc hc, fun he => hil (by rw [he]; exact hcl cc hc)⟩)
              (fun pp hp he => hil (by rw [he]; exact hppl2 pp hp))
          rw [hilc, if_neg (fun he => hlx (Option.some.inj he))] at ihdec
          refine ⟨?_, ?_, by rw [hmapi]; exact hordTop, ?_, ihbf0⟩
          · rw [if_neg (fun he => hix (Option.some.inj he)), hmapi]
            exact decode_nd (by rw [hHi0, hilc]; exact ihdec) (by rw [hHi0]; exact hdR)
          · rw [hmapi, parentsOk_nd]
            exact ⟨by rw [hHi0]; exact hpi, ihpok, hpokR⟩
          · rw [hmapi, bfOkE_nd]
            refine ⟨?_, ihbfe, hbfR⟩
            rcases hbi with hie | hchk
            · exact Or.inl hie
            · exact Or.inr ⟨by rw [hHi0]; exact hchk.1, by rw [hHi0]; exact hchk.2.1,
                by rw [hHi0]; exact hchk.2.2⟩
    · -- `x` is this node: the graft itself
      subst i
      rw [hrc] at hr
      obtain ⟨f2, rfl⟩ := decode_succ_of_some hr
      obtain ⟨B, C, hB, hC, hreq⟩ := decode_some hr
      subst hreq
      obtain ⟨hndB, hndC, hnrB, hnrC, hdisjBC⟩ := nodup_nd hndr
      rw [parentsOk_nd] at hpr
      obtain ⟨hpnr, hpB, hpC⟩ := hpr
      rw [ordB_nd] at hor
      obtain ⟨hoBle, hoCge, hoB, hoC⟩ := hor
      rw [bfOkE_nd] at hbr
      obtain ⟨hbnr, hbB, hbC⟩ := hbr
      have hmemr : ∀ y, y ∈ (PTree.nd nr B C).inorder ↔
          (y ∈ B.inorder ∨ y = nr ∨ y ∈ C.inorder) := by
        intro y
        rw [show (PTree.nd nr B C).inorder = B.inorder ++ nr :: C.inorder from rfl,
          List.mem_append, List.mem_cons]
      have hnrmem : nr ∈ (PTree.nd nr B C).inorder := (hmemr nr).mpr (Or.inr (Or.inl rfl))
      have hxnr : x ≠ nr := fun he => hir (by rw [he]; exact hnrmem)
      have hbx : x < h.length := hbi2
      have hbnr : nr < h.length := hbR2 nr hnrmem
      have hccB : ∀ cc, (rd h nr).left_child = some cc → cc ∈ B.inorder := by
        intro cc hcp
        rw [hcp] at hB
        match B, hB with
        | .lf, hB => exact absurd (decode_lf_none hB) (by simp)
        | .nd c2 bl br, hB =>
          rw [← decode_root_eq hB]
          simp [PTree.inorder]
      have hccr : ∀ cc, (rd h nr).left_child = some cc →
          cc ∈ (PTree.nd nr B C).inorder :=
        fun cc hc => (hmemr cc).mpr (Or.inl (hccB cc hc))
      have hcnex : ∀ cc, (rd h nr).left_child = some cc → cc ≠ x :=
        fun cc hc he => hir (by rw [← he]; exact hccr cc hc)
      have hcnnr : ∀ cc, (rd h nr).left_child = some cc → cc ≠ nr :=
        fun cc hc he => hnrB (by rw [← he]; exact hccB cc hc)
      have hppF : ∀ pp, (rd h x).parent = some pp →
          pp ∉ (PTree.nd x l (PTree.nd nr B C)).inorder := by
        intro pp hp
        rw [hpi] at hp
        exact hpa pp hp
      have hxm : x ∈ (PTree.nd x l (PTree.nd nr B C)).inorder :=
        (hmem x).mpr (Or.inr (Or.inl rfl))
      have hnrm : nr ∈ (PTree.nd x l (PTree.nd nr B C)).inorder :=
        (hmem nr).mpr (Or.inr (Or.inr hnrmem))
      have hpnex : ∀ pp, (rd h x).parent = some pp → pp ≠ x :=
        fun pp hp he => hppF pp hp (by rw [he]; exact hxm)
      have hpnenr : ∀ pp, (rd h x).parent = some pp → pp ≠ nr :=
        fun pp hp he => hppF pp hp (by rw [he]; exact hnrm)
      have hHx := slrW_rd_x hxnr hbx hcnex hpnex
      have hHnr := slrW_rd_nr hxnr hbx hbnr
        (fun cc hc => ⟨hcnex cc hc, hcnnr cc hc⟩) hpnenr
      have hHc : ∀ cc, (rd h nr).left_child = some cc →
          rd (slrFinish (parentRelink (slrMoveSubtree h x nr) x nr) x nr) cc = { rd h cc with parent := some x } := by
        intro cc hc
        refine slrW_rd_c hbx hc (hcnex cc hc) (hcnnr cc hc)
          (hbR2 cc (hccr cc hc)) ?_
        intro pp hp he
        exact hppF pp hp
          (by rw [he]; exact (hmem cc).mpr (Or.inr (Or.inr (hccr cc hc))))
      have hHother : ∀ j2, j2 ∈ (PTree.nd x l (PTree.nd nr B C)).inorder →
          j2 ≠ x → j2 ≠ nr →
          (∀ cc, (rd h nr).left_child = some cc → j2 ≠ cc) →
          rd (slrFinish (parentRelink (slrMoveSubtree h x nr) x nr) x nr) j2 = rd h j2 := by
        intro j2 hj2 hj2x hj2nr hj2c
        exact slrW_rd_other j2 hbx hj2x hj2nr (fun cc hc => ⟨hcnex cc hc, hj2c cc hc⟩)
          (fun pp hp he => hppF pp hp (by rw [← he]; exact hj2))
      have hHl : ∀ j2, j2 ∈ l.inorder → rd (slrFinish (parentRelink (slrMoveSubtree h x nr) x nr) x nr) j2 = rd h j2 := by
        intro j2 hj2
        exact hHother j2 ((hmem j2).mpr (Or.inl hj2))
          (fun he => hil (by rw [← he]; exact hj2))
          (fun he => hdisj j2 hj2 (by rw [he]; exact hnrmem))
          (fun cc hc he => hdisj j2 hj2 (by rw [he]; exact hccr cc hc))
      have hAgreeB : ∀ j2, j2 ∈ B.inorder →
          (rd (slrFinish (parentRelink (slrMoveSubtree h x nr) x nr) x nr) j2).balance_factor = (rd h j2).balance_factor ∧
          (rd (slrFinish (parentRelink (slrMoveSubtree h x nr) x nr) x nr) j2).left_child = (rd h j2).left_child ∧
          (rd (slrFinish (parentRelink (slrMoveSubtree h x nr) x nr) x nr) j2).right_child = (rd h j2).right_child := by
        intro j2 hj2
        by_cases hj2cc : (rd h nr).left_child = some j2
        · rw [hHc j2 hj2cc]
          exact ⟨rfl, rfl, rfl⟩
        · rw [hHother j2 ((hmem j2).mpr (Or.inr (Or.inr ((hmemr j2).mpr (Or.inl hj2)))))
            (fun he => hir (by rw [← he]; exact (hmemr j2).mpr (Or.inl hj2)))
            (fun he => hnrB (by rw [← he]; exact hj2))
            (fun cc hc he => hj2cc (by rw [he]; exact hc))]
          exact ⟨rfl, rfl, rfl⟩
      have hHC : ∀ j2, j2 ∈ C.inorder → rd (slrFinish (parentRelink (slrMoveSubtree h x nr) x nr) x nr) j2 = rd h j2 := by
        intro j2 hj2
        refine hHother j2
          ((hmem j2).mpr (Or.inr (Or.inr ((hmemr j2).mpr (Or.inr (Or.inr hj2))))))
          (fun he => hir (by rw [← he]; exact (hmemr j2).mpr (Or.inr (Or.inr hj2))))
          (fun he => hnrC (by rw [← he]; exact hj2)) ?_
        intro cc hc he
        exact hdisjBC cc (hccB cc hc) (by rw [← he]; exact hj2)
      have hdL : decode (f2 + 1) (slrFinish (parentRelink (slrMoveSubtree h x nr) x nr) x nr) (rd h x).left_child = some l :=
        decode_linkCongr hl (fun j2 hj2 => by rw [hHl j2 hj2]; exact ⟨rfl, rfl⟩)
      have hdB : decode f2 (slrFinish (parentRelink (slrMoveSubtree h x nr) x nr) x nr) (rd h nr).left_child = some B :=
        decode_linkCongr hB (fun j2 hj2 => ⟨(hAgreeB j2 hj2).2.1, (hAgreeB j2 hj2).2.2⟩)
      have hdC : decode f2 (slrFinish (parentRelink (slrMoveSubtree h x nr) x nr) x nr) (rd h nr).right_child = some C :=
        decode_linkCongr hC (fun j2 hj2 => by rw [hHC j2 hj2]; exact ⟨rfl, rfl⟩)
      have hHxl : (rd (slrFinish (parentRelink (slrMoveSubtree h x nr) x nr) x nr) x).left_child = (rd h x).left_child := by rw [hHx]
      have hHxr : (rd (slrFinish (parentRelink (slrMoveSubtree h x nr) x nr) x nr) x).right_child = (rd h nr).left_child := by rw [hHx]
      have hHnrl : (rd (slrFinish (parentRelink (slrMoveSubtree h x nr) x nr) x nr) nr).left_child = some x := by rw [hHnr]
      have hHnrr : (rd (slrFinish (parentRelink (slrMoveSubtree h x nr) x nr) x nr) nr).right_child = (rd h nr).right_child := by rw [hHnr]
      have hdx : decode (f2 + 1 + 1) (slrFinish (parentRelink (slrMoveSubtree h x nr) x nr) x nr) (some x) = some (PTree.nd x l B) :=
        decode_nd (by rw [hHxl]; exact hdL)
          (by rw [hHxr]; exact decode_mono (by omega) hdB)
      have hdnr : decode (f2 + 1 + 1 + 1) (slrFinish (parentRelink (slrMoveSubtree h x nr) x nr) x nr) (some nr)
          = some (PTree.nd nr (PTree.nd x l B) C) :=
        decode_nd (by rw [hHnrl]; exact hdx)
          (by rw [hHnrr]; exact decode_mono (by omega) hdC)
      have hmap : mapAt x rotL (PTree.nd x l (PTree.nd nr B C))
          = PTree.nd nr (PTree.nd x l B) C := by
        rw [mapAt, if_pos rfl]
        rfl
      refine ⟨?_, ?_, ?_, ?_, by rw [hHx]⟩
      · rw [if_pos rfl, hmap]
        exact hdnr
      · rw [hmap, parentsOk_nd]
        refine ⟨by rw [hHnr]; exact hpi, ?_, ?_⟩
        · rw [parentsOk_nd]
          refine ⟨by rw [hHx], ?_, ?_⟩
          · exact parentsOk_congr (fun j2 hj2 => by rw [hHl j2 hj2]) hpl
          · refine parentsOk_swap hpB ?_
            intro c2 bl br hBeq
            have hc2p : (rd h nr).left_child = some c2 := by
              rw [hBeq] at hB
              cases hlcp : (rd h nr).left_child with
              | none => rw [hlcp, decode_none] at hB; exact absurd hB (by simp)
              | some z => rw [hlcp] at hB; rw [decode_root_eq hB]
            constructor
            · rw [hHc c2 hc2p]
            · intro j2 hj2
              have hj2B : j2 ∈ B.inorder := by
                rw [hBeq, show (PTree.nd c2 bl br).inorder
                  = bl.inorder ++ c2 :: br.inorder from rfl]
                rcases List.mem_append.mp hj2 with hbl2 | hbr2
                · exact List.mem_append.mpr (Or.inl hbl2)
                · exact List.mem_append.mpr (Or.inr (List.mem_cons.mpr (Or.inr hbr2)))
              obtain ⟨_, _, hc2bl, hc2br, _⟩ := nodup_nd (hBeq ▸ hndB)
              have hj2c2 : j2 ≠ c2 := by
                rcases List.mem_append.mp hj2 with hbl2 | hbr2
                · exact fun he => hc2bl (by rw [← he]; exact hbl2)
                · exact fun he => hc2br (by rw [← he]; exact hbr2)
              rw [hHother j2
                ((hmem j2).mpr (Or.inr (Or.inr ((hmemr j2).mpr (Or.inl hj2B)))))
                (fun he => hir (by rw [← he]; exact (hmemr j2).mpr (Or.inl hj2B)))
                (fun he => hnrB (by rw [← he]; exact hj2B))
                (fun cc hc he => hj2c2 (he.trans
                  (Option.some.inj (by rw [hc] at hc2p; exact hc2p))))]
        · exact parentsOk_congr (fun j2 hj2 => by rw [hHC j2 hj2]) hpC
      · rw [hmap, ordB_nd]
        have hxle : (rd h x).interval_start ≤ (rd h nr).interval_start := hoR nr hnrmem
        refine ⟨?_, ?_, ?_, ?_⟩
        · intro j2 hj2
          rw [slrW_start h x nr j2, slrW_start h x nr nr]
          rw [show (PTree.nd x l B).inorder = l.inorder ++ x :: B.inorder from rfl,
            List.mem_append, List.mem_cons] at hj2
          rcases hj2 with hjl | hjx | hjB
          · exact le_trans (hoL j2 hjl) hxle
          · rw [hjx]; exact hxle
          · exact hoBle j2 hjB
        · intro j2 hj2
          rw [slrW_start h x nr j2, slrW_start h x nr nr]
          exact hoCge j2 hj2
        · rw [ordB_nd]
          refine ⟨?_, ?_, ?_, ?_⟩
          · intro j2 hj2
            rw [slrW_start h x nr j2, slrW_start h x nr x]
            exact hoL j2 hj2
          · intro j2 hj2
            rw [slrW_start h x nr j2, slrW_start h x nr x]
            exact hoR j2 ((hmemr j2).mpr (Or.inl hj2))
          · exact ordB_congr (fun j2 _ => slrW_start h x nr j2) hol
          · exact ordB_congr (fun j2 _ => slrW_start h x nr j2) hoB
        · exact ordB_congr (fun j2 _ => slrW_start h x nr j2) hoC
      · rw [hmap, bfOkE_nd]
        refine ⟨Or.inr ⟨?_, ?_, ?_⟩, ?_, ?_⟩
        · rw [hHnr]; exact (by decide : (0 : Int).natAbs ≤ 1)
        · rw [hHnr]; intro h2; exact absurd (show (0 : Int) = 1 from h2) (by decide)
        · rw [hHnr]; intro h2; exact absurd (show (0 : Int) = -1 from h2) (by decide)
        · rw [bfOkE_nd]
          refine ⟨Or.inr ⟨?_, ?_, ?_⟩, ?_, ?_⟩
          · rw [hHx]; exact (by decide : (0 : Int).natAbs ≤ 1)
          · rw [hHx]; intro h2; exact absurd (show (0 : Int) = 1 from h2) (by decide)
          · rw [hHx]; intro h2; exact absurd (show (0 : Int) = -1 from h2) (by decide)
          · exact bfOkE_congr (fun j2 hj2 => by rw [hHl j2 hj2]; exact ⟨rfl, rfl, rfl⟩) hbl
          · exact bfOkE_congr (fun j2 hj2 => hAgreeB j2 hj2) hbB
        · exact bfOkE_congr (fun j2 hj2 => by rw [hHC j2 hj2]; exact ⟨rfl, rfl, rfl⟩) hbC
    · -- `x` lies in the right subtree
      cases r with
      | lf => exact absurd hxr (by simp [PTree.inorder])
      | nd rrt rl rr =>
        have hirc : (rd h i).right_child = some rrt := by
          cases hrcp : (rd h i).right_child with
          | none => rw [hrcp, decode_none] at hr; exact absurd hr (by simp)
          | some z => rw [hrcp] at hr; rw [decode_root_eq hr]
        have hpa2 : ∀ q, some i = some q → q ∉ (PTree.nd rrt rl rr).inorder := by
          intro q hq
          injection hq with hq2
          subst hq2
          exact hir
        obtain ⟨ihdec, ihpok, ihord, ihbfe, ihbf0⟩ := ihr hr hndr hbR2 hpr hor hbr hxr hpa2
        have hnrr : nr ∈ (PTree.nd rrt rl rr).inorder := mem_rchild_mem hr hxr hrc
        have hix : i ≠ x := fun he => hir (by rw [he]; exact hxr)
        have hinr : i ≠ nr := fun he => hir (by rw [he]; exact hnrr)
        have hbx : x < h.length := hbR2 x hxr
        have hcr : ∀ cc, (rd h nr).left_child = some cc →
            cc ∈ (PTree.nd rrt rl rr).inorder :=
          fun cc hc => mem_lchild_mem hr hnrr hc
        have hcnex : ∀ cc, (rd h nr).left_child = some cc → cc ≠ x :=
          fun cc hc => rchild_lchild_ne hr hndr hxr hrc hc
        have hppr : ∀ pp, (rd h x).parent = some pp →
            pp = i ∨ pp ∈ (PTree.nd rrt rl rr).inorder := by
          intro pp hp
          rcases parent_in hpr x hxr with ⟨_, hpp2⟩ | ⟨q, hql, hpq⟩
          · rw [hp] at hpp2
            injection hpp2 with h2
            exact Or.inl h2
          · rw [hp] at hpq
            injection hpq with h2
            rw [h2]
            exact Or.inr hql
        have hlframe : ∀ j2, j2 ∈ l.inorder → rd (slrFinish (parentRelink (slrMoveSubtree h x nr) x nr) x nr) j2 = rd h j2 := by
          intro j2 hj2
          refine slrW_rd_other j2 hbx (fun he => hdisj j2 hj2 (by rw [he]; exact hxr))
            (fun he => hdisj j2 hj2 (by rw [he]; exact hnrr))
            (fun cc hc => ⟨hcnex cc hc,
              fun he => hdisj j2 hj2 (by rw [he]; exact hcr cc hc)⟩) ?_
          intro pp hp he
          rcases hppr pp hp with hpi2 | hprm
          · rw [hpi2] at he
            exact hil (by rw [← he]; exact hj2)
          · exact hdisj j2 hj2 (by rw [he]; exact hprm)
        have hdL : decode (f1 + 1) (slrFinish (parentRelink (slrMoveSubtree h x nr) x nr) x nr) (rd h i).left_child = some l :=
          decode_mono (Nat.le_succ f1)
            (decode_linkCongr hl (fun j2 hj2 => by rw [hlframe j2 hj2]; exact ⟨rfl, rfl⟩))
        have hpokL : parentsOk (slrFinish (parentRelink (slrMoveSubtree h x nr) x nr) x nr) l (some i) = true :=
          parentsOk_congr (fun j2 hj2 => by rw [hlframe j2 hj2]) hpl
        have hordL : ordB (slrFinish (parentRelink (slrMoveSubtree h x nr) x nr) x nr) l = true :=
          ordB_congr (fun j2 _ => slrW_start h x nr j2) hol
        have hbfL : bfOkE e (slrFinish (parentRelink (slrMoveSubtree h x nr) x nr) x nr) l = true :=
          bfOkE_congr (fun j2 hj2 => by rw [hlframe j2 hj2]; exact ⟨rfl, rfl, rfl⟩) hbl
        have hinor : (mapAt x rotL (PTree.nd rrt rl rr)).inorder
            = (PTree.nd rrt rl rr).inorder := mapAt_inorder rotL_inorder _
        have hmapi : mapAt x rotL (PTree.nd i l (PTree.nd rrt rl rr))
            = PTree.nd i l (mapAt x rotL (PTree.nd rrt rl rr)) := by
          rw [mapAt, if_neg hix, mapAt_noop (fun hm => hdisj x hm hxr)]
        have hordTop : ordB (slrFinish (parentRelink (slrMoveSubtree h x nr) x nr) x nr)
            (PTree.nd i l (mapAt x rotL (PTree.nd rrt rl rr))) = true := by
          rw [ordB_nd]
          refine ⟨?_, ?_, hordL, ihord⟩
          · intro j2 hj2
            rw [slrW_start h x nr j2, slrW_start h x nr i]
            exact hoL j2 hj2
          · intro j2 hj2
            rw [hinor] at hj2
            rw [slrW_start h x nr j2, slrW_start h x nr i]
            exact hoR j2 hj2
        by_cases hrx : rrt = x
        · subst rrt
          have hp : (rd h x).parent = some i := (parentsOk_nd.mp hpr).1
          have hcond : ¬ (rd h i).left_child = some x := by
            intro he
            rw [he] at hl
            exact hdisj x (decode_self_mem hl) hxr
          have hHi0 := slrW_rd_p hbx hp hix hinr hbi2
            (fun cc hc => ⟨hcnex cc hc, fun he => hir (by rw [he]; exact hcr cc hc)⟩)
          rw [if_neg hcond] at hHi0
          have hHil : (rd (slrFinish (parentRelink (slrMoveSubtree h x nr) x nr) x nr) i).left_child = (rd h i).left_child := by rw [hHi0]
          have hHir : (rd (slrFinish (parentRelink (slrMoveSubtree h x nr) x nr) x nr) i).right_child = some nr := by rw [hHi0]
          have hHip : (rd (slrFinish (parentRelink (slrMoveSubtree h x nr) x nr) x nr) i).parent = (rd h i).parent := by rw [hHi0]
          rw [hirc, if_pos rfl] at ihdec
          refine ⟨?_, ?_, by rw [hmapi]; exact hordTop, ?_, ihbf0⟩
          · rw [if_neg (fun he => hix (Option.some.inj he)), hmapi]
            exact decode_nd (by rw [hHil]; exact hdL) (by rw [hHir]; exact ihdec)
          · rw [hmapi, parentsOk_nd]
            exact ⟨by rw [hHip]; exact hpi, hpokL, ihpok⟩
          · rw [hmapi, bfOkE_nd]
            refine ⟨?_, hbfL, ihbfe⟩
            rcases hbi with hie | hchk
            · exact Or.inl hie
            · refine Or.inr ⟨by rw [hHi0]; exact hchk.1, ?_, ?_⟩
              · intro h2
                rw [hHir]
                exact Option.some_ne_none nr
              · intro h2
                rw [hHil]
                exact hchk.2.2 (by rw [hHi0] at h2; exact h2)
        · have hppr2 : ∀ pp, (rd h x).parent = some pp →
              pp ∈ (PTree.nd rrt rl rr).inorder := by
            intro pp hp
            rcases parent_in hpr x hxr with ⟨⟨l3, r3, heq2⟩, _⟩ | ⟨q, hql, hpq⟩
            · rw [PTree.nd.injEq] at heq2
              exact absurd heq2.1 hrx
            · rw [hp] at hpq
              injection hpq with h2
              rw [h2]
              exact hql
          have hHi0 : rd (slrFinish (parentRelink (slrMoveSubtree h x nr) x nr) x nr) i = rd h i :=
            slrW_rd_other i hbx hix hinr
              (fun cc hc => ⟨hcnex cc hc, fun he => hir (by rw [he]; exact hcr cc hc)⟩)
              (fun pp hp he => hir (by rw [he]; exact hppr2 pp hp))
          rw [hirc, if_neg (fun he => hrx (Option.some.inj he))] at ihdec
          refine ⟨?_, ?_, by rw [hmapi]; exact hordTop, ?_, ihbf0⟩
          · rw [if_neg (fun he => hix (Option.some.inj he)), hmapi]
            exact decode_nd (by rw [hHi0]; exact hdL) (by rw [hHi0, hirc]; exact ihdec)
          · rw [hmapi, parentsOk_nd]
            exact ⟨by rw [hHi0]; exact hpi, hpokL, ihpok⟩
          · rw [hmapi, bfOkE_nd]
            refine ⟨?_, hbfL, ihbfe⟩
            rcases hbi with hie | hchk
            · exact Or.inl hie
            · exact Or.inr ⟨by rw [hHi0]; exact hchk.1, by rw [hHi0]; exact hchk.2.1,
                by rw [hHi0]; exact hchk.2.2⟩

set_option maxHeartbeats 1000000 in
/-- The mirror image of `slr_rotate_inv`: a single right rotation at `x`
(whose left child is `nr`, source lines 111-128) turns the decoded tree into
`mapAt x rotR` of itself with the same preservation bundle. -/
theorem srr_rotate_inv {h : Heap} {x nr e : Nat}
    (hlcx : (rd h x).left_child = some nr) :
    ∀ {t : PTree} {f : Nat} {oi : Option Nat} {pa : Option Nat},
    decode f h oi = some t →
    t.inorder.Nodup →
    (∀ j ∈ t.inorder, j < h.length) →
    parentsOk h t pa = true →
    ordB h t = true →
    bfOkE e h t = true →
    x ∈ t.inorder →
    (∀ q, pa = some q → q ∉ t.inorder) →
    decode (f + 1) (srrFinish (parentRelink (srrMoveSubtree h x nr) x nr) x nr)
        (if oi = some x then some nr else oi) = some (mapAt x rotR t) ∧
    parentsOk (srrFinish (parentRelink (srrMoveSubtree h x nr) x nr) x nr) (mapAt x rotR t) pa = true ∧
    ordB (srrFinish (parentRelink (srrMoveSubtree h x nr) x nr) x nr) (mapAt x rotR t) = true ∧
    bfOkE e (srrFinish (parentRelink (srrMoveSubtree h x nr) x nr) x nr) (mapAt x rotR t) = true ∧
    (rd (srrFinish (parentRelink (srrMoveSubtree h x nr) x nr) x nr) x).balance_factor
        = 0 := by
  intro t
  induction t with
  | lf => intro f oi pa _ _ _ _ _ _ hx _; exact absurd hx (by simp [PTree.inorder])
  | nd i l r ihl ihr =>
    intro f oi pa hdec hnd hbound hpok hord hbfe hx hpa
    obtain ⟨j, rfl⟩ : ∃ j, oi = some j := by
      cases oi with
      | none => rw [decode_none] at hdec; exact absurd hdec (by simp)
      | some j => exact ⟨j, rfl⟩
    obtain ⟨f1, rfl⟩ := decode_succ_of_some hdec
    obtain ⟨l2, r2, hl, hr, heq⟩ := decode_some hdec
    rw [PTree.nd.injEq] at heq
    obtain ⟨hij, hll, hrr⟩ := heq
    subst hij
    subst hll
    subst hrr
    obtain ⟨hndl, hndr, hil, hir, hdisj⟩ := nodup_nd hnd
    rw [parentsOk_nd] at hpok
    obtain ⟨hpi, hpl, hpr⟩ := hpok
    rw [ordB_nd] at hord
    obtain ⟨hoL, hoR, hol, hor⟩ := hord
    rw [bfOkE_nd] at hbfe
    obtain ⟨hbi, hbl, hbr⟩ := hbfe
    have hmem : ∀ y, y ∈ (PTree.nd i l r).inorder ↔
        (y ∈ l.inorder ∨ y = i ∨ y ∈ r.inorder) := by
      intro y
      rw [show (PTree.nd i l r).inorder = l.inorder ++ i :: r.inorder from rfl,
        List.mem_append, List.mem_cons]
    rw [hmem] at hx
    have hbL2 : ∀ y ∈ l.inorder, y < h.length :=
      fun y hy => hbound y ((hmem y).mpr (Or.inl hy))
    have hbR2 : ∀ y ∈ r.inorder, y < h.length :=
      fun y hy => hbound y ((hmem y).mpr (Or.inr (Or.inr hy)))
    have hbi2 : i < h.length := hbound i ((hmem i).mpr (Or.inr (Or.inl rfl)))
    rcases hx with hxl | hxi | hxr
    · -- `x` lies in the left subtree
      cases l with
      | lf => exact absurd hxl (by simp [PTree.inorder])
      | nd lrt ll lr =>
        have hilc : (rd h i).left_child = some lrt := by
          cases hlcp : (rd h i).left_child with
          | none => rw [hlcp, decode_none] at hl; exact absurd hl (by simp)
          | some z => rw [hlcp] at hl; rw [decode_root_eq hl]
        have hpa2 : ∀ q, some i = some q → q ∉ (PTree.nd lrt ll lr).inorder := by
          intro q hq
          injection hq with hq2
          subst hq2
          exact hil
        obtain ⟨ihdec, ihpok, ihord, ihbfe, ihbf0⟩ := ihl hl hndl hbL2 hpl hol hbl hxl hpa2
        have hnrl : nr ∈ (PTree.nd lrt ll lr).inorder := mem_lchild_mem hl hxl hlcx
        have hix : i ≠ x := fun he => hil (by rw [he]; exact hxl)
        have hinr : i ≠ nr := fun he => hil (by rw [he]; exact hnrl)
        have hbx : x < h.length := hbL2 x hxl
        have hcl : ∀ cc, (rd h nr).right_child = some cc →
            cc ∈ (PTree.nd lrt ll lr).inorder :=
          fun cc hc => mem_rchild_mem hl hnrl hc
        have hcnex : ∀ cc, (rd h nr).right_child = some cc → cc ≠ x :=
          fun cc hc => lchild_rchild_ne hl hndl hxl hlcx hc
        have hppl : ∀ pp, (rd h x).parent = some pp →
            pp = i ∨ pp ∈ (PTree.nd lrt ll lr).inorder := by
          intro pp hp
          rcases parent_in hpl x hxl with ⟨_, hpp2⟩ | ⟨q, hql, hpq⟩
          · rw [hp] at hpp2
            injection hpp2 with h2
            exact Or.inl h2
          · rw [hp] at hpq
            injection hpq with h2
            rw [h2]
            exact Or.inr hql
        have hrframe : ∀ j2, j2 ∈ r.inorder → rd (srrFinish (parentRelink (srrMoveSubtree h x nr) x nr) x nr) j2 = rd h j2 := by
          intro j2 hj2
          refine srrW_rd_other j2 hbx (fun he => hdisj x hxl (by rw [← he]; exact hj2))
            (fun he => hdisj nr hnrl (by rw [← he]; exact hj2))
            (fun cc hc => ⟨hcnex cc hc,
              fun he => hdisj cc (hcl cc hc) (by rw [← he]; exact hj2)⟩) ?_
          intro pp hp he
          rcases hppl pp hp with hpi2 | hplm
          · rw [hpi2] at he
            exact hir (by rw [← he]; exact hj2)
          · exact hdisj pp hplm (by rw [← he]; exact hj2)
        have hdR : decode (f1 + 1) (srrFinish (parentRelink (srrMoveSubtree h x nr) x nr) x nr) (rd h i).right_child = some r :=
          decode_mono (Nat.le_succ f1)
            (decode_linkCongr hr (fun j2 hj2 => by rw [hrframe j2 hj2]; exact ⟨rfl, rfl⟩))
        have hpokR : parentsOk (srrFinish (parentRelink (srrMoveSubtree h x nr) x nr) x nr) r (some i) = true :=
          parentsOk_congr (fun j2 hj2 => by rw [hrframe j2 hj2]) hpr
        have hordR : ordB (srrFinish (parentRelink (srrMoveSubtree h x nr) x nr) x nr) r = true :=
          ordB_congr (fun j2 _ => srrW_start h x nr j2) hor
        have hbfR : bfOkE e (srrFinish (parentRelink (srrMoveSubtree h x nr) x nr) x nr) r = true :=
          bfOkE_congr (fun j2 hj2 => by rw [hrframe j2 hj2]; exact ⟨rfl, rfl, rfl⟩) hbr
        have hinor : (mapAt x rotR (PTree.nd lrt ll lr)).inorder
            = (PTree.nd lrt ll lr).inorder := mapAt_inorder rotR_inorder _
        have hmapi : mapAt x rotR (PTree.nd i (PTree.nd lrt ll lr) r)
            = PTree.nd i (mapAt x rotR (PTree.nd lrt ll lr)) r := by
          rw [mapAt, if_neg hix, mapAt_noop (fun hm => hdisj x hxl hm)]
        have hordTop : ordB (srrFinish (parentRelink (srrMoveSubtree h x nr) x nr) x nr)
            (PTree.nd i (mapAt x rotR (PTree.nd lrt ll lr)) r) = true := by
          rw [ordB_nd]
          refine ⟨?_, ?_, ihord, hordR⟩
          · intro j2 hj2
            rw [hinor] at hj2
            rw [srrW_start h x nr j2, srrW_start h x nr i]
            exact hoL j2 hj2
          · intro j2 hj2
            rw [srrW_start h x nr j2, srrW_start h x nr i]
            exact hoR j2 hj2
        by_cases hlx : lrt = x
        · subst lrt
          have hp : (rd h x).parent = some i := (parentsOk_nd.mp hpl).1
          have hHi0 := srrW_rd_p hbx hp hix hinr hbi2
            (fun cc hc => ⟨hcnex cc hc, fun he => hil (by rw [he]; exact hcl cc hc)⟩)
          rw [if_pos hilc] at hHi0
          have hHil : (rd (srrFinish (parentRelink (srrMoveSubtree h x nr) x nr) x nr) i).left_child = some nr := by rw [hHi0]
          have hHir : (rd (srrFinish (parentRelink (srrMoveSubtree h x nr) x nr) x nr) i).right_child = (rd h i).right_child := by rw [hHi0]
          have hHip : (rd (srrFinish (parentRelink (srrMoveSubtree h x nr) x nr) x nr) i).parent = (rd h i).parent := by rw [hHi0]
          rw [hilc, if_pos rfl] at ihdec
          refine ⟨?_, ?_, by rw [hmapi]; exact hordTop, ?_, ihbf0⟩
          · rw [if_neg (fun he => hix (Option.some.inj he)), hmapi]
            exact decode_nd (by rw [hHil]; exact ihdec) (by rw [hHir]; exact hdR)
          · rw [hmapi, parentsOk_nd]
            exact ⟨by rw [hHip]; exact hpi, ihpok, hpokR⟩
          · rw [hmapi, bfOkE_nd]
            refine ⟨?_, ihbfe, hbfR⟩
            rcases hbi with hie | hchk
            · exact Or.inl hie
            · refine Or.inr ⟨by rw [hHi0]; exact hchk.1, ?_, ?_⟩
              · intro h2
                rw [hHir]
                exact hchk.2.1 (by rw [hHi0] at h2; exact h2)
              · intro h2
                rw [hHil]
                exact Option.some_ne_none nr
        · have hppl2 : ∀ pp, (rd h x).parent = some pp →
              pp ∈ (PTree.nd lrt ll lr).inorder := by
            intro pp hp
            rcases parent_in hpl x hxl with ⟨⟨ll2, lr2, heq2⟩, _⟩ | ⟨q, hql, hpq⟩
            · rw [PTree.nd.injEq] at heq2
              exact absurd heq2.1 hlx
            · rw [hp] at hpq
              injection hpq with h2
              rw [h2]
              exact hql
          have hHi0 : rd (srrFinish (parentRelink (srrMoveSubtree h x nr) x nr) x nr) i = rd h i :=
            srrW_rd_other i hbx hix hinr
              (fun cc hc => ⟨hcnex cc hc, fun he => hil (by rw [he]; exact hcl cc hc)⟩)
              (fun pp hp he => hil (by rw [he]; exact hppl2 pp hp))
          rw [hilc, if_neg (fun he => hlx (Option.some.inj he))] at ihdec
          refine ⟨?_, ?_, by rw [hmapi]; exact hordTop, ?_, ihbf0⟩
          · rw [if_neg (fun he => hix (Option.some.inj he)), hmapi]
            exact decode_nd (by rw [hHi0, hilc]; exact ihdec) (by rw [hHi0]; exact hdR)
          · rw [hmapi, parentsOk_nd]
            exact ⟨by rw [hHi0]; exact hpi, ihpok, hpokR⟩
          · rw [hmapi, bfOkE_nd]
            refine ⟨?_, ihbfe, hbfR⟩
            rcases hbi with hie | hchk
            · exact Or.inl hie
            · exact Or.inr ⟨by rw [hHi0]; exact hchk.1, by rw [hHi0]; exact hchk.2.1,
                by rw [hHi0]; exact hchk.2.2⟩
    · -- `x` is this node: the graft itself
      subst i
      rw [hlcx] at hl
      obtain ⟨f2, rfl⟩ := decode_succ_of_some hl
      obtain ⟨B, C, hB, hC, hleq⟩ := decode_some hl
      subst hleq
      obtain ⟨hndB, hndC, hnrB, hnrC, hdisjBC⟩ := nodup_nd hndl
      rw [parentsOk_nd] at hpl
      obtain ⟨hpnr, hpB, hpC⟩ := hpl
      rw [ordB_nd] at hol
      obtain ⟨hoBle, hoCge, hoB, hoC⟩ := hol
      rw [bfOkE_nd] at hbl
      obtain ⟨hbnr, hbB, hbC⟩ := hbl
      have hmemr : ∀ y, y ∈ (PTree.nd nr B C).inorder ↔
          (y ∈ B.inorder ∨ y = nr ∨ y ∈ C.inorder) := by
        intro y
        rw [show (PTree.nd nr B C).inorder = B.inorder ++ nr :: C.inorder from rfl,
          List.mem_append, List.mem_cons]
      have hnrmem : nr ∈ (PTree.nd nr B C).inorder := (hmemr nr).mpr (Or.inr (Or.inl rfl))
      have hxnr : x ≠ nr := fun he => hil (by rw [he]; exact hnrmem)
      have hbx : x < h.length := hbi2
      have hbnr : nr < h.length := hbL2 nr hnrmem
      have hccC : ∀ cc, (rd h nr).right_child = some cc → cc ∈ C.inorder := by
        intro cc hcp
        rw [hcp] at hC
        match C, hC with
        | .lf, hC => exact absurd (decode_lf_none hC) (by simp)
        | .nd c2 bl br, hC =>
          rw [← decode_root_eq hC]
          simp [PTree.inorder]
      have hccr : ∀ cc, (rd h nr).right_child = some cc →
          cc ∈ (PTree.nd nr B C).inorder :=
        fun cc hc => (hmemr cc).mpr (Or.inr (Or.inr (hccC cc hc)))
      have hcnex : ∀ cc, (rd h nr).right_child = some cc → cc ≠ x :=
        fun cc hc he => hil (by rw [← he]; exact hccr cc hc)
      have hcnnr : ∀ cc, (rd h nr).right_child = some cc → cc ≠ nr :=
        fun cc hc he => hnrC (by rw [← he]; exact hccC cc hc)
      have hppF : ∀ pp, (rd h x).parent = some pp →
          pp ∉ (PTree.nd x (PTree.nd nr B C) r).inorder := by
        intro pp hp
        rw [hpi] at hp
        exact hpa pp hp
      have hxm : x ∈ (PTree.nd x (PTree.nd nr B C) r).inorder :=
        (hmem x).mpr (Or.inr (Or.inl rfl))
      have hnrm : nr ∈ (PTree.nd x (PTree.nd nr B C) r).inorder :=
        (hmem nr).mpr (Or.inl hnrmem)
      have hpnex : ∀ pp, (rd h x).parent = some pp → pp ≠ x :=
        fun pp hp he => hppF pp hp (by rw [he]; exact hxm)
      have hpnenr : ∀ pp, (rd h x).parent = some pp → pp ≠ nr :=
        fun pp hp he => hppF pp hp (by rw [he]; exact hnrm)
      have hHx := srrW_rd_x hxnr hbx hcnex hpnex
      have hHnr := srrW_rd_nr hxnr hbx hbnr
        (fun cc hc => ⟨hcnex cc hc, hcnnr cc hc⟩) hpnenr
      have hHc : ∀ cc, (rd h nr).right_child = some cc →
          rd (srrFinish (parentRelink (srrMoveSubtree h x nr) x nr) x nr) cc = { rd h cc with parent := some x } := by
        intro cc hc
        refine srrW_rd_c hbx hc (hcnex cc hc) (hcnnr cc hc)
          (hbL2 cc (hccr cc hc)) ?_
        intro pp hp he
        exact hppF pp hp
          (by rw [he]; exact (hmem cc).mpr (Or.inl (hccr cc hc)))
      have hHother : ∀ j2, j2 ∈ (PTree.nd x (PTree.nd nr B C) r).inorder →
          j2 ≠ x → j2 ≠ nr →
          (∀ cc, (rd h nr).right_child = some cc → j2 ≠ cc) →
          rd (srrFinish (parentRelink (srrMoveSubtree h x nr) x nr) x nr) j2 = rd h j2 := by
        intro j2 hj2 hj2x hj2nr hj2c
        exact srrW_rd_other j2 hbx hj2x hj2nr (fun cc hc => ⟨hcnex cc hc, hj2c cc hc⟩)
          (fun pp hp he => hppF pp hp (by rw [← he]; exact hj2))
      have hHr : ∀ j2, j2 ∈ r.inorder → rd (srrFinish (parentRelink (srrMoveSubtree h x nr) x nr) x nr) j2 = rd h j2 := by
        intro j2 hj2
        exact hHother j2 ((hmem j2).mpr (Or.inr (Or.inr hj2)))
          (fun he => hir (by rw [← he]; exact hj2))
          (fun he => hdisj nr hnrmem (by rw [← he]; exact hj2))
          (fun cc hc he => hdisj cc (hccr cc hc) (by rw [← he]; exact hj2))
      have hAgreeC : ∀ j2, j2 ∈ C.inorder →
          (rd (srrFinish (parentRelink (srrMoveSubtree h x nr) x nr) x nr) j2).balance_factor = (rd h j2).balance_factor ∧
          (rd (srrFinish (parentRelink (srrMoveSubtree h x nr) x nr) x nr) j2).left_child = (rd h j2).left_child ∧
          (rd (srrFinish (parentRelink (srrMoveSubtree h x nr) x nr) x nr) j2).right_child = (rd h j2).right_child := by
        intro j2 hj2
        by_cases hj2cc : (rd h nr).right_child = some j2
        · rw [hHc j2 hj2cc]
          exact ⟨rfl, rfl, rfl⟩
        · rw [hHother j2 ((hmem j2).mpr (Or.inl ((hmemr j2).mpr (Or.inr (Or.inr hj2)))))
            (fun he => hil (by rw [← he]; exact (hmemr j2).mpr (Or.inr (Or.inr hj2))))
            (fun he => hnrC (by rw [← he]; exact hj2))
            (fun cc hc he => hj2cc (by rw [he]; exact hc))]
          exact ⟨rfl, rfl, rfl⟩
      have hHB : ∀ j2, j2 ∈ B.inorder → rd (srrFinish (parentRelink (srrMoveSubtree h x nr) x nr) x nr) j2 = rd h j2 := by
        intro j2 hj2
        refine hHother j2
          ((hmem j2).mpr (Or.inl ((hmemr j2).mpr (Or.inl hj2))))
          (fun he => hil (by rw [← he]; exact (hmemr j2).mpr (Or.inl hj2)))
          (fun he => hnrB (by rw [← he]; exact hj2)) ?_
        intro cc hc he
        exact hdisjBC j2 hj2 (by rw [he]; exact hccC cc hc)
      have hdR : decode (f2 + 1) (srrFinish (parentRelink (srrMoveSubtree h x nr) x nr) x nr) (rd h x).right_child = some r :=
        decode_linkCongr hr (fun j2 hj2 => by rw [hHr j2 hj2]; exact ⟨rfl, rfl⟩)
      have hdB : decode f2 (srrFinish (parentRelink (srrMoveSubtree h x nr) x nr) x nr) (rd h nr).left_child = some B :=
        decode_linkCongr hB (fun j2 hj2 => by rw [hHB j2 hj2]; exact ⟨rfl, rfl⟩)
      have hdC : decode f2 (srrFinish (parentRelink (srrMoveSubtree h x nr) x nr) x nr) (rd h nr).right_child = some C :=
        decode_linkCongr hC (fun j2 hj2 => ⟨(hAgreeC j2 hj2).2.1, (hAgreeC j2 hj2).2.2⟩)
      have hHxl : (rd (srrFinish (parentRelink (srrMoveSubtree h x nr) x nr) x nr) x).left_child = (rd h nr).right_child := by rw [hHx]
      have hHxr : (rd (srrFinish (parentRelink (srrMoveSubtree h x nr) x nr) x nr) x).right_child = (rd h x).right_child := by rw [hHx]
      have hHnrl : (rd (srrFinish (parentRelink (srrMoveSubtree h x nr) x nr) x nr) nr).left_child = (rd h nr).left_child := by rw [hHnr]
      have hHnrr : (rd (srrFinish (parentRelink (srrMoveSubtree h x nr) x nr) x nr) nr).right_child = some x := by rw [hHnr]
      have hdx : decode (f2 + 1 + 1) (srrFinish (parentRelink (srrMoveSubtree h x nr) x nr) x nr) (some x) = some (PTree.nd x C r) :=
        decode_nd (by rw [hHxl]; exact decode_mono (by omega) hdC)
          (by rw [hHxr]; exact decode_mono (by omega) hdR)
      have hdnr : decode (f2 + 1 + 1 + 1) (srrFinish (parentRelink (srrMoveSubtree h x nr) x nr) x nr) (some nr)
          = some (PTree.nd nr B (PTree.nd x C r)) :=
        decode_nd (by rw [hHnrl]; exact decode_mono (by omega) hdB)
          (by rw [hHnrr]; exact hdx)
      have hmap : mapAt x rotR (PTree.nd x (PTree.nd nr B C) r)
          = PTree.nd nr B (PTree.nd x C r) := by
        rw [mapAt, if_pos rfl]
        rfl
      refine ⟨?_, ?_, ?_, ?_, by rw [hHx]⟩
      · rw [if_pos rfl, hmap]
        exact hdnr
      · rw [hmap, parentsOk_nd]
        refine ⟨by rw [hHnr]; exact hpi, ?_, ?_⟩
        · exact parentsOk_congr (fun j2 hj2 => by rw [hHB j2 hj2]) hpB
        · rw [parentsOk_nd]
          refine ⟨by rw [hHx], ?_, ?_⟩
          · refine parentsOk_swap hpC ?_
            intro c2 bl br hCeq
            have hc2p : (rd h nr).right_child = some c2 := by
              rw [hCeq] at hC
              cases hrcp : (rd h nr).right_child with
              | none => rw [hrcp, decode_none] at hC; exact absurd hC (by simp)
              | some z => rw [hrcp] at hC; rw [decode_root_eq hC]
            constructor
            · rw [hHc c2 hc2p]
            · intro j2 hj2
              have hj2C : j2 ∈ C.inorder := by
                rw [hCeq, show (PTree.nd c2 bl br).inorder
                  = bl.inorder ++ c2 :: br.inorder from rfl]
                rcases List.mem_append.mp hj2 with hbl2 | hbr2
                · exact List.mem_append.mpr (Or.inl hbl2)
                · exact List.mem_append.mpr (Or.inr (List.mem_cons.mpr (Or.inr hbr2)))
              obtain ⟨_, _, hc2bl, hc2br, _⟩ := nodup_nd (hCeq ▸ hndC)
              have hj2c2 : j2 ≠ c2 := by
                rcases List.mem_append.mp hj2 with hbl2 | hbr2
                · exact fun he => hc2bl (by rw [← he]; exact hbl2)
                · exact fun he => hc2br (by rw [← he]; exact hbr2)
              rw [hHother j2
                ((hmem j2).mpr (Or.inl ((hmemr j2).mpr (Or.inr (Or.inr hj2C)))))
                (fun he => hil (by rw [← he]; exact (hmemr j2).mpr (Or.inr (Or.inr hj2C))))
                (fun he => hnrC (by rw [← he]; exact hj2C))
                (fun cc hc he => hj2c2 (he.trans
                  (Option.some.inj (by rw [hc] at hc2p; exact hc2p))))]
          · exact parentsOk_congr (fun j2 hj2 => by rw [hHr j2 hj2]) hpr
      · rw [hmap, ordB_nd]
        have hnrlex : (rd h nr).interval_start ≤ (rd h x).interval_start := hoL nr hnrmem
        refine ⟨?_, ?_, ?_, ?_⟩
        · intro j2 hj2
          rw [srrW_start h x nr j2, srrW_start h x nr nr]
          exact hoBle j2 hj2
        · intro j2 hj2
          rw [srrW_start h x nr j2, srrW_start h x nr nr]
          rw [show (PTree.nd x C r).inorder = C.inorder ++ x :: r.inorder from rfl,
            List.mem_append, List.mem_cons] at hj2
          rcases hj2 with hjC | hjx | hjr
          · exact hoCge j2 hjC
          · rw [hjx]; exact hnrlex
          · exact le_trans hnrlex (hoR j2 hjr)
        · exact ordB_congr (fun j2 _ => srrW_start h x nr j2) hoB
        · rw [ordB_nd]
          refine ⟨?_, ?_, ?_, ?_⟩
          · intro j2 hj2
            rw [srrW_start h x nr j2, srrW_start h x nr x]
            exact hoL j2 ((hmemr j2).mpr (Or.inr (Or.inr hj2)))
          · intro j2 hj2
            rw [srrW_start h x nr j2, srrW_start h x nr x]
            exact hoR j2 hj2
          · exact ordB_congr (fun j2 _ => srrW_start h x nr j2) hoC
          · exact ordB_congr (fun j2 _ => srrW_start h x nr j2) hor
      · rw [hmap, bfOkE_nd]
        refine ⟨Or.inr ⟨?_, ?_, ?_⟩, ?_, ?_⟩
        · rw [hHnr]; exact (by decide : (0 : Int).natAbs ≤ 1)
        · rw [hHnr]; intro h2; exact absurd (show (0 : Int) = 1 from h2) (by decide)
        · rw [hHnr]; intro h2; exact absurd (show (0 : Int) = -1 from h2) (by decide)
        · exact bfOkE_congr (fun j2 hj2 => by rw [hHB j2 hj2]; exact ⟨rfl, rfl, rfl⟩) hbB
        · rw [bfOkE_nd]
          refine ⟨Or.inr ⟨?_, ?_, ?_⟩, ?_, ?_⟩
          · rw [hHx]; exact (by decide : (0 : Int).natAbs ≤ 1)
          · rw [hHx]; intro h2; exact absurd (show (0 : Int) = 1 from h2) (by decide)
          · rw [hHx]; intro h2; exact absurd (show (0 : Int) = -1 from h2) (by decide)
          · exact bfOkE_congr (fun j2 hj2 => hAgreeC j2 hj2) hbC
          · exact bfOkE_congr (fun j2 hj2 => by rw [hHr j2 hj2]; exact ⟨rfl, rfl, rfl⟩) hbr
    · -- `x` lies in the right subtree
      cases r with
      | lf => exact absurd hxr (by simp [PTree.inorder])
      | nd rrt rl rr =>
        have hirc : (rd h i).right_child = some rrt := by
          cases hrcp : (rd h i).right_child with
          | none => rw [hrcp, decode_none] at hr; exact absurd hr (by simp)
          | some z => rw [hrcp] at hr; rw [decode_root_eq hr]
        have hpa2 : ∀ q, some i = some q → q ∉ (PTree.nd rrt rl rr).inorder := by
          intro q hq
          injection hq with hq2
          subst hq2
          exact hir
        obtain ⟨ihdec, ihpok, ihord, ihbfe, ihbf0⟩ := ihr hr hndr hbR2 hpr hor hbr hxr hpa2
        have hnrr : nr ∈ (PTree.nd rrt rl rr).inorder := mem_lchild_mem hr hxr hlcx
        have hix : i ≠ x := fun he => hir (by rw [he]; exact hxr)
        have hinr : i ≠ nr := fun he => hir (by rw [he]; exact hnrr)
        have hbx : x < h.length := hbR2 x hxr
        have hcr : ∀ cc, (rd h nr).right_child = some cc →
            cc ∈ (PTree.nd rrt rl rr).inorder :=
          fun cc hc => mem_rchild_mem hr hnrr hc
        have hcnex : ∀ cc, (rd h nr).right_child = some cc → cc ≠ x :=
          fun cc hc => lchild_rchild_ne hr hndr hxr hlcx hc
        have hppr : ∀ pp, (rd h x).parent = some pp →
            pp = i ∨ pp ∈ (PTree.nd rrt rl rr).inorder := by
          intro pp hp
          rcases parent_in hpr x hxr with ⟨_, hpp2⟩ | ⟨q, hql, hpq⟩
          · rw [hp] at hpp2
            injection hpp2 with h2
            exact Or.inl h2
          · rw [hp] at hpq
            injection hpq with h2
            rw [h2]
            exact Or.inr hql
        have hlframe : ∀ j2, j2 ∈ l.inorder → rd (srrFinish (parentRelink (srrMoveSubtree h x nr) x nr) x nr) j2 = rd h j2 := by
          intro j2 hj2
          refine srrW_rd_other j2 hbx (fun he => hdisj j2 hj2 (by rw [he]; exact hxr))
            (fun he => hdisj j2 hj2 (by rw [he]; exact hnrr))
            (fun cc hc => ⟨hcnex cc hc,
              fun he => hdisj j2 hj2 (by rw [he]; exact hcr cc hc)⟩) ?_
          intro pp hp he
          rcases hppr pp hp with hpi2 | hprm
          · rw [hpi2] at he
            exact hil (by rw [← he]; exact hj2)
          · exact hdisj j2 hj2 (by rw [he]; exact hprm)
        have hdL : decode (f1 + 1) (srrFinish (parentRelink (srrMoveSubtree h x nr) x nr) x nr) (rd h i).left_child = some l :=
          decode_mono (Nat.le_succ f1)
            (decode_linkCongr hl (fun j2 hj2 => by rw [hlframe j2 hj2]; exact ⟨rfl, rfl⟩))
        have hpokL : parentsOk (srrFinish (parentRelink (srrMoveSubtree h x nr) x nr) x nr) l (some i) = true :=
          parentsOk_congr (fun j2 hj2 => by rw [hlframe j2 hj2]) hpl
        have hordL : ordB (srrFinish (parentRelink (srrMoveSubtree h x nr) x nr) x nr) l = true :=
          ordB_congr (fun j2 _ => srrW_start h x nr j2) hol
        have hbfL : bfOkE e (srrFinish (parentRelink (srrMoveSubtree h x nr) x nr) x nr) l = true :=
          bfOkE_congr (fun j2 hj2 => by rw [hlframe j2 hj2]; exact ⟨rfl, rfl, rfl⟩) hbl
        have hinor : (mapAt x rotR (PTree.nd rrt rl rr)).inorder
            = (PTree.nd rrt rl rr).inorder := mapAt_inorder rotR_inorder _
        have hmapi : mapAt x rotR (PTree.nd i l (PTree.nd rrt rl rr))
            = PTree.nd i l (mapAt x rotR (PTree.nd rrt rl rr)) := by
          rw [mapAt, if_neg hix, mapAt_noop (fun hm => hdisj x hm hxr)]
        have hordTop : ordB (srrFinish (parentRelink (srrMoveSubtree h x nr) x nr) x nr)
            (PTree.nd i l (mapAt x rotR (PTree.nd rrt rl rr))) = true := by
          rw [ordB_nd]
          refine ⟨?_, ?_, hordL, ihord⟩
          · intro j2 hj2
            rw [srrW_start h x nr j2, srrW_start h x nr i]
            exact hoL j2 hj2
          · intro j2 hj2
            rw [hinor] at hj2
            rw [srrW_start h x nr j2, srrW_start h x nr i]
            exact hoR j2 hj2
        by_cases hrx : rrt = x
        · subst rrt
          have hp : (rd h x).parent = some i := (parentsOk_nd.mp hpr).1
          have hcond : ¬ (rd h i).left_child = some x := by
            intro he
            rw [he] at hl
            exact hdisj x (decode_self_mem hl) hxr
          have hHi0 := srrW_rd_p hbx hp hix hinr hbi2
            (fun cc hc => ⟨hcnex cc hc, fun he => hir (by rw [he]; exact hcr cc hc)⟩)
          rw [if_neg hcond] at hHi0
          have hHil : (rd (srrFinish (parentRelink (srrMoveSubtree h x nr) x nr) x nr) i).left_child = (rd h i).left_child := by rw [hHi0]
          have hHir : (rd (srrFinish (parentRelink (srrMoveSubtree h x nr) x nr) x nr) i).right_child = some nr := by rw [hHi0]
          have hHip : (rd (srrFinish (parentRelink (srrMoveSubtree h x nr) x nr) x nr) i).parent = (rd h i).parent := by rw [hHi0]
          rw [hirc, if_pos rfl] at ihdec
          refine ⟨?_, ?_, by rw [hmapi]; exact hordTop, ?_, ihbf0⟩
          · rw [if_neg (fun he => hix (Option.some.inj he)), hmapi]
            exact decode_nd (by rw [hHil]; exact hdL) (by rw [hHir]; exact ihdec)
          · rw [hmapi, parentsOk_nd]
            exact ⟨by rw [hHip]; exact hpi, hpokL, ihpok⟩
          · rw [hmapi, bfOkE_nd]
            refine ⟨?_, hbfL, ihbfe⟩
            rcases hbi with hie | hchk
            · exact Or.inl hie
            · refine Or.inr ⟨by rw [hHi0]; exact hchk.1, ?_, ?_⟩
              · intro h2
                rw [hHir]
                exact Option.some_ne_none nr
              · intro h2
                rw [hHil]
                exact hchk.2.2 (by rw [hHi0] at h2; exact h2)
        · have hppr2 : ∀ pp, (rd h x).parent = some pp →
              pp ∈ (PTree.nd rrt rl rr).inorder := by
            intro pp hp
            rcases parent_in hpr x hxr with ⟨⟨l3, r3, heq2⟩, _⟩ | ⟨q, hql, hpq⟩
            · rw [PTree.nd.injEq] at heq2
              exact absurd heq2.1 hrx
            · rw [hp] at hpq
              injection hpq with h2
              rw [h2]
              exact hql
          have hHi0 : rd (srrFinish (parentRelink (srrMoveSubtree h x nr) x nr) x nr) i = rd h i :=
            srrW_rd_other i hbx hix hinr
              (fun cc hc => ⟨hcnex cc hc, fun he => hir (by rw [he]; exact hcr cc hc)⟩)
              (fun pp hp he => hir (by rw [he]; exact hppr2 pp hp))
          rw [hirc, if_neg (fun he => hrx (Option.some.inj he))] at ihdec
          refine ⟨?_, ?_, by rw [hmapi]; exact hordTop, ?_, ihbf0⟩
          · rw [if_neg (fun he => hix (Option.some.inj he)), hmapi]
            exact decode_nd (by rw [hHi0]; exact hdL) (by rw [hHi0, hirc]; exact ihdec)
          · rw [hmapi, parentsOk_nd]
            exact ⟨by rw [hHi0]; exact hpi, hpokL, ihpok⟩
          · rw [hmapi, bfOkE_nd]
            refine ⟨?_, hbfL, ihbfe⟩
            rcases hbi with hie | hchk
            · exact Or.inl hie
            · exact Or.inr ⟨by rw [hHi0]; exact hchk.1, by rw [hHi0]; exact hchk.2.1,
                by rw [hHi0]; exact hchk.2.2⟩

/-! ## Root recovery along parent links -/

theorem get_root_mono : ∀ {f f' : Nat} {h : Heap} {j z : Nat},
    get_root f h j = .ok z → f ≤ f' → get_root f' h j = .ok z := by
  intro f
  induction f with
  | zero => intro f' h j z hres; exact absurd hres (by simp [get_root])
  | succ f1 ih =>
    intro f' h j z hres hle
    obtain ⟨f2, rfl⟩ : ∃ f2, f' = f2 + 1 := ⟨f' - 1, by omega⟩
    rw [get_root] at hres ⊢
    cases hp : (rd h j).parent with
    | none => rw [hp] at hres; exact hres
    | some p =>
      rw [hp] at hres
      exact ih hres (by omega)

theorem get_root_exit : ∀ {t : PTree} {h : Heap} {q : Nat},
    parentsOk h t (some q) = true → ∀ {j}, j ∈ t.inorder →
    ∃ d, ∀ fuel, get_root (fuel + d) h j = get_root fuel h q := by
  intro t
  induction t with
  | lf => intro h q _ j hj; exact absurd hj (by simp [PTree.inorder])
  | nd i l r ihl ihr =>
    intro h q hpok j hj
    rw [parentsOk_nd] at hpok
    rw [show (PTree.nd i l r).inorder = l.inorder ++ i :: r.inorder from rfl,
      List.mem_append, List.mem_cons] at hj
    rcases hj with hjl | hji | hjr
    · obtain ⟨d1, hd1⟩ := ihl hpok.2.1 hjl
      refine ⟨d1 + 1, fun fuel => ?_⟩
      have h2 : fuel + (d1 + 1) = (fuel + 1) + d1 := by omega
      rw [h2, hd1 (fuel + 1), get_root, hpok.1]
    · subst hji
      refine ⟨1, fun fuel => ?_⟩
      rw [get_root, hpok.1]
    · obtain ⟨d1, hd1⟩ := ihr hpok.2.2 hjr
      refine ⟨d1 + 1, fun fuel => ?_⟩
      have h2 : fuel + (d1 + 1) = (fuel + 1) + d1 := by omega
      rw [h2, hd1 (fuel + 1), get_root, hpok.1]

theorem get_root_root {h : Heap} {i : Nat} (hp : (rd h i).parent = none) (fuel : Nat) :
    get_root (fuel + 1) h i = .ok i := by
  rw [get_root, hp]

theorem get_root_top {t : PTree} {h : Heap} {i : Nat} {l r : PTree}
    (hpok : parentsOk h t none = true) (ht : t = .nd i l r) :
    ∀ {j}, j ∈ t.inorder → ∃ d, ∀ fuel, get_root (fuel + d) h j = .ok i := by
  subst ht
  intro j hj
  have hpi : (rd h i).parent = none := (parentsOk_nd.mp hpok).1
  rw [show (PTree.nd i l r).inorder = l.inorder ++ i :: r.inorder from rfl,
    List.mem_append, List.mem_cons] at hj
  rcases hj with hjl | hji | hjr
  · obtain ⟨d1, hd1⟩ := get_root_exit (parentsOk_nd.mp hpok).2.1 hjl
    refine ⟨d1 + 1, fun fuel => ?_⟩
    have h2 : fuel + (d1 + 1) = (fuel + 1) + d1 := by omega
    rw [h2, hd1 (fuel + 1), get_root, hpi]
  · subst hji
    exact ⟨1, fun fuel => get_root_root hpi fuel⟩
  · obtain ⟨d1, hd1⟩ := get_root_exit (parentsOk_nd.mp hpok).2.2 hjr
    refine ⟨d1 + 1, fun fuel => ?_⟩
    have h2 : fuel + (d1 + 1) = (fuel + 1) + d1 := by omega
    rw [h2, hd1 (fuel + 1), get_root, hpi]

theorem get_root_det {f f' : Nat} {h : Heap} {j z z' : Nat}
    (h1 : get_root f h j = .ok z) (h2 : get_root f' h j = .ok z') : z = z' := by
  have m1 := get_root_mono h1 (Nat.le_max_left f f')
  have m2 := get_root_mono h2 (Nat.le_max_right f f')
  rw [m1] at m2
  exact Except.ok.inj m2

theorem update_root_inv {fuel : Nat} {h : Heap} {j : Nat} {out : Heap × Nat}
    {t : PTree} {i : Nat} {l r : PTree}
    (hpok : parentsOk h t none = true) (ht : t = .nd i l r) (hj : j ∈ t.inorder)
    (hres : update_root fuel h j = .ok out) : out = (h, i) := by
  unfold update_root at hres
  obtain ⟨z, hz, hrest⟩ := bind_ok hres
  obtain ⟨d, hd⟩ := get_root_top hpok ht hj
  have hzi : z = i := get_root_det hz (hd 0)
  subst hzi
  have hrest2 : (match (rd h z).parent with
      | some _ => (.ok (wr h z { rd h z with parent := none }, z) : Res (Heap × Nat))
      | none => .ok (h, z)) = .ok out := hrest
  rw [(parentsOk_nd.mp (ht ▸ hpok)).1] at hrest2
  have h3 : (Except.ok (h, z) : Res (Heap × Nat)) = .ok out := hrest2
  injection h3 with h4
  rw [← h4]

theorem rchild_ne : ∀ {t : PTree} {f : Nat} {h : Heap} {oi : Option Nat} {s c : Nat},
    decode f h oi = some t → t.inorder.Nodup → s ∈ t.inorder →
    (rd h s).right_child = some c → c ≠ s := by
  intro t
  induction t with
  | lf => intro f h oi s c _ _ hs; exact absurd hs (by simp [PTree.inorder])
  | nd i l r ihl ihr =>
    intro f h oi s c hdec hnd hs hc
    cases oi with
    | none => rw [decode_none] at hdec; exact absurd hdec (by simp)
    | some j =>
      obtain ⟨f1, rfl⟩ := decode_succ_of_some hdec
      obtain ⟨l2, r2, hl, hr, heq⟩ := decode_some hdec
      rw [PTree.nd.injEq] at heq
      obtain ⟨hij, hll, hrr⟩ := heq
      subst hij
      subst hll
      subst hrr
      obtain ⟨hndl, hndr, hil, hir, hdisj⟩ := nodup_nd hnd
      rw [show (PTree.nd i l r).inorder = l.inorder ++ i :: r.inorder from rfl,
        List.mem_append, List.mem_cons] at hs
      rcases hs with hsl | hsi | hsr
      · exact ihl hl hndl hsl hc
      · subst hsi
        rw [hc] at hr
        exact fun he => hir (by rw [← he]; exact decode_self_mem hr)
      · exact ihr hr hndr hsr hc

theorem lchild_ne : ∀ {t : PTree} {f : Nat} {h : Heap} {oi : Option Nat} {s c : Nat},
    decode f h oi = some t → t.inorder.Nodup → s ∈ t.inorder →
    (rd h s).left_child = some c → c ≠ s := by
  intro t
  induction t with
  | lf => intro f h oi s c _ _ hs; exact absurd hs (by simp [PTree.inorder])
  | nd i l r ihl ihr =>
    intro f h oi s c hdec hnd hs hc
    cases oi with
    | none => rw [decode_none] at hdec; exact absurd hdec (by simp)
    | some j =>
      obtain ⟨f1, rfl⟩ := decode_succ_of_some hdec
      obtain ⟨l2, r2, hl, hr, heq⟩ := decode_some hdec
      rw [PTree.nd.injEq] at heq
      obtain ⟨hij, hll, hrr⟩ := heq
      subst hij
      subst hll
      subst hrr
      obtain ⟨hndl, hndr, hil, hir, hdisj⟩ := nodup_nd hnd
      rw [show (PTree.nd i l r).inorder = l.inorder ++ i :: r.inorder from rfl,
        List.mem_append, List.mem_cons] at hs
      rcases hs with hsl | hsi | hsr
      · exact ihl hl hndl hsl hc
      · subst hsi
        rw [hc] at hl
        exact fun he => hil (by rw [← he]; exact decode_self_mem hl)
      · exact ihr hr hndr hsr hc

theorem struct_child : ∀ {t : PTree} {f : Nat} {h : Heap} {oi : Option Nat}
    {pa : Option Nat} {s p : Nat},
    decode f h oi = some t → t.inorder.Nodup → parentsOk h t pa = true →
    s ∈ t.inorder → (rd h s).parent = some p →
    (p ∈ t.inorder ∧ ((rd h p).left_child = some s ∨ (rd h p).right_child = some s)) ∨
    pa = some p := by
  intro t
  induction t with
  | lf => intro f h oi pa s p _ _ _ hs; exact absurd hs (by simp [PTree.inorder])
  | nd i l r ihl ihr =>
    intro f h oi pa s p hdec hnd hpok hs hp
    obtain ⟨j, rfl⟩ : ∃ j, oi = some j := by
      cases oi with
      | none => rw [decode_none] at hdec; exact absurd hdec (by simp)
      | some j => exact ⟨j, rfl⟩
    obtain ⟨f1, rfl⟩ := decode_succ_of_some hdec
    obtain ⟨l2, r2, hl, hr, heq⟩ := decode_some hdec
    rw [PTree.nd.injEq] at heq
    obtain ⟨hij, hll, hrr⟩ := heq
    subst hij
    subst hll
    subst hrr
    obtain ⟨hndl, hndr, hil, hir, hdisj⟩ := nodup_nd hnd
    rw [parentsOk_nd] at hpok
    have hmem : ∀ y, y ∈ (PTree.nd i l r).inorder ↔
        (y ∈ l.inorder ∨ y = i ∨ y ∈ r.inorder) := by
      intro y
      rw [show (PTree.nd i l r).inorder = l.inorder ++ i :: r.inorder from rfl,
        List.mem_append, List.mem_cons]
    rw [hmem] at hs
    rcases hs with hsl | hsi | hsr
    · cases l with
      | lf => exact absurd hsl (by simp [PTree.inorder])
      | nd lrt ll lr =>
        by_cases hls : lrt = s
        · subst lrt
          have hp2 : (rd h s).parent = some i := (parentsOk_nd.mp hpok.2.1).1
          rw [hp] at hp2
          injection hp2 with h2
          refine Or.inl ⟨(hmem p).mpr (Or.inr (Or.inl h2)), Or.inl ?_⟩
          rw [h2]
          cases hlcp : (rd h i).left_child with
          | none => rw [hlcp, decode_none] at hl; exact absurd hl (by simp)
          | some z => rw [hlcp] at hl; rw [decode_root_eq hl]
        · rcases ihl hl hndl hpok.2.1 hsl hp with ⟨hpl2, hcl⟩ | hpaq
          · exact Or.inl ⟨(hmem p).mpr (Or.inl hpl2), hcl⟩
          · injection hpaq with h2
            rcases parent_in hpok.2.1 s hsl with ⟨⟨ll2, lr2, heq2⟩, _⟩ | ⟨q, hql, hpq⟩
            · rw [PTree.nd.injEq] at heq2
              exact absurd heq2.1 hls
            · rw [hp] at hpq
              injection hpq with h3
              exact absurd (by rw [h2, h3]; exact hql) hil
    · subst hsi
      exact Or.inr (by rw [← hpok.1]; exact hp)
    · cases r with
      | lf => exact absurd hsr (by simp [PTree.inorder])
      | nd rrt rl rr =>
        by_cases hrs : rrt = s
        · subst rrt
          have hp2 : (rd h s).parent = some i := (parentsOk_nd.mp hpok.2.2).1
          rw [hp] at hp2
          injection hp2 with h2
          refine Or.inl ⟨(hmem p).mpr (Or.inr (Or.inl h2)), Or.inr ?_⟩
          rw [h2]
          cases hrcp : (rd h i).right_child with
          | none => rw [hrcp, decode_none] at hr; exact absurd hr (by simp)
          | some z => rw [hrcp] at hr; rw [decode_root_eq hr]
        · rcases ihr hr hndr hpok.2.2 hsr hp with ⟨hpr2, hcr⟩ | hpaq
          · exact Or.inl ⟨(hmem p).mpr (Or.inr (Or.inr hpr2)), hcr⟩
          · injection hpaq with h2
            rcases parent_in hpok.2.2 s hsr with ⟨⟨rl2, rr2, heq2⟩, _⟩ | ⟨q, hql, hpq⟩
            · rw [PTree.nd.injEq] at heq2
              exact absurd heq2.1 hrs
            · rw [hp] at hpq
              injection hpq with h3
              exact absurd (by rw [h2, h3]; exact hql) hir
    
theorem bfOk_mem : ∀ {t : PTree} {h : Heap}, bfOk h t = true → ∀ j ∈ t.inorder,
    (rd h j).balance_factor.natAbs ≤ 1 ∧
    ((rd h j).balance_factor = 1 → (rd h j).right_child ≠ none) ∧
    ((rd h j).balance_factor = -1 → (rd h j).left_child ≠ none) := by
  intro t
  induction t with
  | lf => intro h _ j hj; exact absurd hj (by simp [PTree.inorder])
  | nd i l r ihl ihr =>
    intro h hok j hj
    rw [bfOk_nd] at hok
    rw [show (PTree.nd i l r).inorder = l.inorder ++ i :: r.inorder from rfl,
      List.mem_append, List.mem_cons] at hj
    rcases hj with hjl | hji | hjr
    · exact ihl hok.2.1 j hjl
    · subst hji
      exact hok.1
    · exact ihr hok.2.2 j hjr

/-! ## The rotation methods preserve the invariant -/

theorem singleLeft_ok_inv {fuel f : Nat} {h : Heap} {x rt e : Nat}
    {out : Heap × Nat} {t : PTree}
    (hdec : decode f h (some rt) = some t)
    (hnd : t.inorder.Nodup)
    (hbound : ∀ j ∈ t.inorder, j < h.length)
    (hpok : parentsOk h t none = true)
    (hord : ordB h t = true)
    (hbfe : bfOkE e h t = true)
    (hx : x ∈ t.inorder)
    (hres : singleLeftRotation fuel h x = .ok out) :
    out.1.length = h.length ∧
    SamePayload h out.1 ∧
    (mapAt x rotL t).inorder = t.inorder ∧
    decode (f + 1) out.1 (some out.2) = some (mapAt x rotL t) ∧
    parentsOk out.1 (mapAt x rotL t) none = true ∧
    ordB out.1 (mapAt x rotL t) = true ∧
    bfOkE e out.1 (mapAt x rotL t) = true ∧
    (rd out.1 x).balance_factor = 0 := by
  unfold singleLeftRotation at hres
  cases hrc : (rd h x).right_child with
  | none => rw [hrc] at hres; exact absurd hres (by simp)
  | some nr =>
    rw [hrc] at hres
    obtain ⟨hdec', hpok', hord', hbfe', hbf0'⟩ :=
      slr_rotate_inv hrc hdec hnd hbound hpok hord hbfe hx
        (fun q hq => absurd hq (by simp))
    have hinor : (mapAt x rotL t).inorder = t.inorder := mapAt_inorder rotL_inorder t
    have hnrt : nr ∈ t.inorder := mem_rchild_mem hdec hx hrc
    have hnrt2 : nr ∈ (mapAt x rotL t).inorder := by rw [hinor]; exact hnrt
    have hdec2 : decode (f + 1)
        (slrFinish (parentRelink (slrMoveSubtree h x nr) x nr) x nr)
        (some (if rt = x then nr else rt)) = some (mapAt x rotL t) := by
      by_cases hrtx : rt = x
      · rw [if_pos hrtx]
        rw [if_pos (by rw [hrtx])] at hdec'
        exact hdec'
      · rw [if_neg hrtx]
        rw [if_neg (fun he => hrtx (Option.some.inj he))] at hdec'
        exact hdec'
    obtain ⟨tl, tr, htl, htr, hteq⟩ := decode_some hdec2
    have hupd := update_root_inv hpok' hteq hnrt2 hres
    rw [hupd]
    exact ⟨slrW_length h x nr, samePayload_slrW h x nr, hinor, hdec2,
      hpok', hord', hbfe', hbf0'⟩

theorem singleRight_ok_inv {fuel f : Nat} {h : Heap} {x rt e : Nat}
    {out : Heap × Nat} {t : PTree}
    (hdec : decode f h (some rt) = some t)
    (hnd : t.inorder.Nodup)
    (hbound : ∀ j ∈ t.inorder, j < h.length)
    (hpok : parentsOk h t none = true)
    (hord : ordB h t = true)
    (hbfe : bfOkE e h t = true)
    (hx : x ∈ t.inorder)
    (hres : singleRightRotation fuel h x = .ok out) :
    out.1.length = h.length ∧
    SamePayload h out.1 ∧
    (mapAt x rotR t).inorder = t.inorder ∧
    decode (f + 1) out.1 (some out.2) = some (mapAt x rotR t) ∧
    parentsOk out.1 (mapAt x rotR t) none = true ∧
    ordB out.1 (mapAt x rotR t) = true ∧
    bfOkE e out.1 (mapAt x rotR t) = true ∧
    (rd out.1 x).balance_factor = 0 := by
  unfold singleRightRotation at hres
  cases hlc : (rd h x).left_child with
  | none => rw [hlc] at hres; exact absurd hres (by simp)
  | some nr =>
    rw [hlc] at hres
    obtain ⟨hdec', hpok', hord', hbfe', hbf0'⟩ :=
      srr_rotate_inv hlc hdec hnd hbound hpok hord hbfe hx
        (fun q hq => absurd hq (by simp))
    have hinor : (mapAt x rotR t).inorder = t.inorder := mapAt_inorder rotR_inorder t
    have hnrt : nr ∈ t.inorder := mem_lchild_mem hdec hx hlc
    have hnrt2 : nr ∈ (mapAt x rotR t).inorder := by rw [hinor]; exact hnrt
    have hdec2 : decode (f + 1)
        (srrFinish (parentRelink (srrMoveSubtree h x nr) x nr) x nr)
        (some (if rt = x then nr else rt)) = some (mapAt x rotR t) := by
      by_cases hrtx : rt = x
      · rw [if_pos hrtx]
        rw [if_pos (by rw [hrtx])] at hdec'
        exact hdec'
      · rw [if_neg hrtx]
        rw [if_neg (fun he => hrtx (Option.some.inj he))] at hdec'
        exact hdec'
    obtain ⟨tl, tr, htl, htr, hteq⟩ := decode_some hdec2
    have hupd := update_root_inv hpok' hteq hnrt2 hres
    rw [hupd]
    exact ⟨srrW_length h x nr, samePayload_srrW h x nr, hinor, hdec2,
      hpok', hord', hbfe', hbf0'⟩

theorem doubleRL_ok_inv {fuel f : Nat} {h : Heap} {x rt e : Nat}
    {hout : Heap} {t : PTree}
    (hdec : decode f h (some rt) = some t)
    (hnd : t.inorder.Nodup)
    (hbound : ∀ j ∈ t.inorder, j < h.length)
    (hpok : parentsOk h t none = true)
    (hord : ordB h t = true)
    (hbfe : bfOkE e h t = true)
    (hx : x ∈ t.inorder)
    (hres : doubleRightLeftRotation fuel h x = .ok hout) :
    ∃ r2 t2, hout.length = h.length ∧ SamePayload h hout ∧ t2.inorder = t.inorder ∧
      decode (f + 2) hout (some r2) = some t2 ∧
      parentsOk hout t2 none = true ∧ ordB hout t2 = true ∧ bfOkE e hout t2 = true ∧
      (rd hout x).balance_factor = 0 := by
  unfold doubleRightLeftRotation at hres
  cases hrc : (rd h x).right_child with
  | none => rw [hrc] at hres; exact absurd hres (by simp)
  | some rc =>
    rw [hrc] at hres
    obtain ⟨p1, hp1, hrest⟩ := bind_ok hres
    obtain ⟨p2, hp2, hfin⟩ := bind_ok hrest
    cases hfin
    have hrcmem : rc ∈ t.inorder := mem_rchild_mem hdec hx hrc
    obtain ⟨hlen1, hsp1, hinor1, hdec1, hpok1, hord1, hbfe1, hbf1⟩ :=
      singleRight_ok_inv hdec hnd hbound hpok hord hbfe hrcmem hp1
    have hnd1 : (mapAt rc rotR t).inorder.Nodup := by rw [hinor1]; exact hnd
    have hbound1 : ∀ j ∈ (mapAt rc rotR t).inorder, j < p1.1.length := by
      rw [hinor1, hlen1]; exact hbound
    have hx1 : x ∈ (mapAt rc rotR t).inorder := by rw [hinor1]; exact hx
    obtain ⟨hlen2, hsp2, hinor2, hdec2, hpok2, hord2, hbfe2, hbf2⟩ :=
      singleLeft_ok_inv hdec1 hnd1 hbound1 hpok1 hord1 hbfe1 hx1 hp2
    refine ⟨p2.2, mapAt x rotL (mapAt rc rotR t), ?_, ?_, ?_, hdec2, hpok2,
      hord2, hbfe2, hbf2⟩
    · rw [hlen2, hlen1]
    · exact samePayload_trans hsp1 hsp2
    · rw [hinor2, hinor1]

theorem doubleLR_ok_inv {fuel f : Nat} {h : Heap} {x rt e : Nat}
    {hout : Heap} {t : PTree}
    (hdec : decode f h (some rt) = some t)
    (hnd : t.inorder.Nodup)
    (hbound : ∀ j ∈ t.inorder, j < h.length)
    (hpok : parentsOk h t none = true)
    (hord : ordB h t = true)
    (hbfe : bfOkE e h t = true)
    (hx : x ∈ t.inorder)
    (hres : doubleLeftRightRotation fuel h x = .ok hout) :
    ∃ r2 t2, hout.length = h.length ∧ SamePayload h hout ∧ t2.inorder = t.inorder ∧
      decode (f + 2) hout (some r2) = some t2 ∧
      parentsOk hout t2 none = true ∧ ordB hout t2 = true ∧ bfOkE e hout t2 = true ∧
      (rd hout x).balance_factor = 0 := by
  unfold doubleLeftRightRotation at hres
  cases hlc : (rd h x).left_child with
  | none => rw [hlc] at hres; exact absurd hres (by simp)
  | some lc =>
    rw [hlc] at hres
    obtain ⟨p1, hp1, hrest⟩ := bind_ok hres
    obtain ⟨p2, hp2, hfin⟩ := bind_ok hrest
    cases hfin
    have hlcmem : lc ∈ t.inorder := mem_lchild_mem hdec hx hlc
    obtain ⟨hlen1, hsp1, hinor1, hdec1, hpok1, hord1, hbfe1, hbf1⟩ :=
      singleLeft_ok_inv hdec hnd hbound hpok hord hbfe hlcmem hp1
    have hnd1 : (mapAt lc rotL t).inorder.Nodup := by rw [hinor1]; exact hnd
    have hbound1 : ∀ j ∈ (mapAt lc rotL t).inorder, j < p1.1.length := by
      rw [hinor1, hlen1]; exact hbound
    have hx1 : x ∈ (mapAt lc rotL t).inorder := by rw [hinor1]; exact hx
    obtain ⟨hlen2, hsp2, hinor2, hdec2, hpok2, hord2, hbfe2, hbf2⟩ :=
      singleRight_ok_inv hdec1 hnd1 hbound1 hpok1 hord1 hbfe1 hx1 hp2
    refine ⟨p2.2, mapAt x rotR (mapAt lc rotL t), ?_, ?_, ?_, hdec2, hpok2,
      hord2, hbfe2, hbf2⟩
    · rw [hlen2, hlen1]
    · exact samePayload_trans hsp1 hsp2
    · rw [hinor2, hinor1]

/-! ## The balance-factor adjustment step (lines 142-145) -/

theorem bfAdjust_val (h : Heap) (x : Nat) (flag : Bool) :
    (bfAdjust h x flag).2 = (if flag then (rd h x).balance_factor + 1
      else (rd h x).balance_factor - 1) := rfl

theorem bfAdjust_heap (h : Heap) (x : Nat) (flag : Bool) :
    (bfAdjust h x flag).1
      = wr h x { rd h x with balance_factor := (bfAdjust h x flag).2 } := rfl

theorem bfAdjust_length (h : Heap) (x : Nat) (flag : Bool) :
    (bfAdjust h x flag).1.length = h.length := by
  rw [bfAdjust_heap, wr_length]

theorem bfAdjust_rd_x {h : Heap} {x : Nat} {flag : Bool} (hx : x < h.length) :
    rd (bfAdjust h x flag).1 x
      = { rd h x with balance_factor := (bfAdjust h x flag).2 } := by
  rw [bfAdjust_heap, rd_wr_self h hx]

theorem bfAdjust_rd_ne {h : Heap} {x : Nat} {flag : Bool} (j : Nat) (hjx : j ≠ x) :
    rd (bfAdjust h x flag).1 j = rd h j := by
  rw [bfAdjust_heap, rd_wr_ne h (fun he => hjx he.symm)]

theorem bfAdjust_frame (h : Heap) (x : Nat) (flag : Bool) (j : Nat) :
    (rd (bfAdjust h x flag).1 j).left_child = (rd h j).left_child ∧
    (rd (bfAdjust h x flag).1 j).right_child = (rd h j).right_child ∧
    (rd (bfAdjust h x flag).1 j).parent = (rd h j).parent ∧
    (rd (bfAdjust h x flag).1 j).interval_start = (rd h j).interval_start := by
  by_cases hjx : j = x
  · subst hjx
    by_cases hj : j < h.length
    · rw [bfAdjust_rd_x hj]
      exact ⟨rfl, rfl, rfl, rfl⟩
    · rw [bfAdjust_heap, wr_oob h (by omega)]
      exact ⟨rfl, rfl, rfl, rfl⟩
  · rw [bfAdjust_rd_ne j hjx]
    exact ⟨rfl, rfl, rfl, rfl⟩

theorem bfOkE_congrE : ∀ {t : PTree} {h h' : Heap} {e : Nat},
    (∀ j ∈ t.inorder, j ≠ e →
      (rd h' j).balance_factor = (rd h j).balance_factor ∧
      (rd h' j).left_child = (rd h j).left_child ∧
      (rd h' j).right_child = (rd h j).right_child) →
    bfOkE e h t = true → bfOkE e h' t = true := by
  intro t
  induction t with
  | lf => intro h h' e _ _; rfl
  | nd i l r ihl ihr =>
    intro h h' e hagree hok
    rw [bfOkE_nd] at hok ⊢
    obtain ⟨h1, h2, h3⟩ := hok
    refine ⟨?_, ihl (fun j hj => hagree j (by simp [PTree.inorder, hj])) h2,
      ihr (fun j hj => hagree j (by simp [PTree.inorder, hj])) h3⟩
    by_cases hie : i = e
    · exact Or.inl hie
    · cases h1 with
      | inl he => exact Or.inl he
      | inr hchk =>
        have hi := hagree i (by simp [PTree.inorder]) hie
        exact Or.inr ⟨by rw [hi.1]; exact hchk.1, by rw [hi.1, hi.2.2]; exact hchk.2.1,
          by rw [hi.1, hi.2.1]; exact hchk.2.2⟩

theorem bf_step_ne_one {a : Int} (h : a.natAbs ≤ 1) : ¬ (a - 1 = 1) := by omega

theorem bf_step_ne_negone {a : Int} (h : a.natAbs ≤ 1) : ¬ (a + 1 = -1) := by omega

/-! ## The rebalance driver preserves the invariant -/

set_option maxHeartbeats 1600000 in
/-- `_update_balance_factors_and_rebalance` (lines 141-176), called on a
valid tree state at a member node `s` whose own stored factor is still in
range, with the flag pointing at a present child, and — whenever the
adjusted factor reaches `±2` — a dispatched child of stored factor `±1`
(the situation at every call site): if the call returns normally, the
resulting heap decodes to a tree with the same objects satisfying the full
invariant, including `bfOk`. -/
theorem ubfr_ok_inv : ∀ (fuel : Nat) {h : Heap} {s : Nat} {flag : Bool} {rt : Nat}
    {t : PTree} {h' : Heap},
    decode (h.length + 1) h (some rt) = some t →
    t.inorder.Perm (List.range h.length) →
    parentsOk h t none = true →
    ordB h t = true →
    bfOk h t = true →
    s ∈ t.inorder →
    (flag = true → (rd h s).right_child ≠ none) →
    (flag = false → (rd h s).left_child ≠ none) →
    ((bfAdjust h s flag).2 = 2 → ∃ c, (rd h s).right_child = some c ∧
      (rd h c).balance_factor.natAbs = 1) →
    ((bfAdjust h s flag).2 = -2 → ∃ c, (rd h s).left_child = some c ∧
      (rd h c).balance_factor.natAbs = 1) →
    updateBalanceFactorsAndRebalance fuel h s flag = .ok h' →
    h'.length = h.length ∧ SamePayload h h' ∧
    ∃ rt2 t2, decode (h'.length + 1) h' (some rt2) = some t2 ∧
      t2.inorder.Perm (List.range h'.length) ∧
      parentsOk h' t2 none = true ∧ ordB h' t2 = true ∧ bfOk h' t2 = true := by
  intro fuel
  induction fuel with
  | zero =>
    intro h s flag rt t h' _ _ _ _ _ _ _ _ _ _ hres
    exact absurd hres (by simp [updateBalanceFactorsAndRebalance])
  | succ fuel ih =>
    intro h s flag rt t h' hdec hperm hpok hord hbfok hs hpres1 hpres0 hc2 hcm2 hres
    have hnd : t.inorder.Nodup := (List.Perm.nodup_iff hperm).mpr (List.nodup_range _)
    have hbound : ∀ j ∈ t.inorder, j < h.length :=
      fun j hj => List.mem_range.mp (hperm.mem_iff.mp hj)
    have hsl : s < h.length := hbound s hs
    have hres2 : (if (bfAdjust h s flag).2 = 0 then .ok (bfAdjust h s flag).1
        else if 2 < (bfAdjust h s flag).2.natAbs then (.error .valueError : Res Heap)
        else
          match rebalanceDispatch fuel (bfAdjust h s flag).1 s (bfAdjust h s flag).2 with
          | .error e2 => .error e2
          | .ok (some h1) => .ok h1
          | .ok none =>
            match (rd (bfAdjust h s flag).1 s).parent with
            | none => .ok (bfAdjust h s flag).1
            | some p =>
              match (rd (bfAdjust h s flag).1 p).right_child with
              | none => .error .attributeError
              | some prc =>
                updateBalanceFactorsAndRebalance fuel (bfAdjust h s flag).1 p (prc = s))
        = .ok h' := hres
    have hdec1 : decode (h.length + 1) (bfAdjust h s flag).1 (some rt) = some t :=
      decode_linkCongr hdec
        (fun j _ => ⟨(bfAdjust_frame h s flag j).1, (bfAdjust_frame h s flag j).2.1⟩)
    have hbound1 : ∀ j ∈ t.inorder, j < (bfAdjust h s flag).1.length := by
      rw [bfAdjust_length]
      exact hbound
    have hpok1 : parentsOk (bfAdjust h s flag).1 t none = true :=
      parentsOk_congr (fun j _ => (bfAdjust_frame h s flag j).2.2.1) hpok
    have hord1 : ordB (bfAdjust h s flag).1 t = true :=
      ordB_congr (fun j _ => (bfAdjust_frame h s flag j).2.2.2) hord
    have hbfe1 : bfOkE s (bfAdjust h s flag).1 t = true :=
      bfOkE_congrE (fun j _ hjs => by rw [bfAdjust_rd_ne j hjs]; exact ⟨rfl, rfl, rfl⟩)
        (bfOk_imp_bfOkE hbfok)
    have hbfs1 : (rd (bfAdjust h s flag).1 s).balance_factor = (bfAdjust h s flag).2 := by
      rw [bfAdjust_rd_x hsl]
    have hbb : (rd h s).balance_factor.natAbs ≤ 1 := (bfOk_mem hbfok s hs).1
    by_cases hz : (bfAdjust h s flag).2 = 0
    · -- line 147: stop at factor 0
      rw [if_pos hz] at hres2
      have hh' : h' = (bfAdjust h s flag).1 := (Except.ok.inj hres2).symm
      subst hh'
      refine ⟨bfAdjust_length h s flag, samePayload_bfAdjust h s flag, rt, t,
        by rw [bfAdjust_length]; exact hdec1, by rw [bfAdjust_length]; exact hperm,
        hpok1, hord1, bfOkE_imp_bfOk ⟨?_, ?_, ?_⟩ hbfe1⟩
      · rw [hbfs1, hz]
        decide
      · intro hq
        rw [hbfs1, hz] at hq
        exact absurd hq (by decide)
      · intro hq
        rw [hbfs1, hz] at hq
        exact absurd hq (by decide)
    · rw [if_neg hz] at hres2
      by_cases habs : 2 < (bfAdjust h s flag).2.natAbs
      · rw [if_pos habs] at hres2
        exact absurd hres2 (by simp)
      · rw [if_neg habs] at hres2
        by_cases h2 : (bfAdjust h s flag).2 = 2
        · -- lines 154-161: right-heavy dispatch
          obtain ⟨c, hcrc, hcbf⟩ := hc2 h2
          have hcs : c ≠ s := rchild_ne hdec hnd hs hcrc
          have hrc1 : (rd (bfAdjust h s flag).1 s).right_child = some c := by
            rw [(bfAdjust_frame h s flag s).2.1]
            exact hcrc
          have hcbf1 : (rd (bfAdjust h s flag).1 c).balance_factor
              = (rd h c).balance_factor := by
            rw [bfAdjust_rd_ne c hcs]
          have hcb : (rd h c).balance_factor = 1 ∨ (rd h c).balance_factor = -1 := by
            omega
          rcases hcb with hc1 | hcm1
          · -- single left rotation
            cases hrot : singleLeftRotation fuel (bfAdjust h s flag).1 s with
            | error e0 =>
              have hdisp : rebalanceDispatch fuel (bfAdjust h s flag).1 s
                  (bfAdjust h s flag).2 = .error e0 := by
                unfold rebalanceDispatch
                rw [if_pos h2, hrc1]
                simp only []
                rw [hcbf1, if_pos hc1, hrot]
                rfl
              rw [hdisp] at hres2
              exact absurd (show (Except.error e0 : Res Heap) = .ok h' from hres2) (by simp)
            | ok out =>
              have hdisp : rebalanceDispatch fuel (bfAdjust h s flag).1 s
                  (bfAdjust h s flag).2 = .ok (some out.1) := by
                unfold rebalanceDispatch
                rw [if_pos h2, hrc1]
                simp only []
                rw [hcbf1, if_pos hc1, hrot]
                rfl
              rw [hdisp] at hres2
              have hh' : h' = out.1 :=
                (Except.ok.inj (show (Except.ok out.1 : Res Heap) = .ok h' from hres2)).symm
              subst hh'
              obtain ⟨hlen2, hsp2, hinor2, hdec2, hpok2, hord2, hbfe2, hbf2⟩ :=
                singleLeft_ok_inv hdec1 hnd hbound1 hpok1 hord1 hbfe1 hs hrot
              refine ⟨by rw [hlen2, bfAdjust_length],
                samePayload_trans (samePayload_bfAdjust h s flag) hsp2,
                out.2, mapAt s rotL t, ?_, ?_, hpok2, hord2, ?_⟩
              · refine decode_shrink hdec2 ?_
                rw [hinor2, hperm.length_eq, List.length_range, hlen2, bfAdjust_length]
                omega
              · rw [hinor2, hlen2, bfAdjust_length]
                exact hperm
              · refine bfOkE_imp_bfOk ⟨?_, ?_, ?_⟩ hbfe2
                · rw [hbf2]
                  decide
                · intro hq
                  rw [hbf2] at hq
                  exact absurd hq (by decide)
                · intro hq
                  rw [hbf2] at hq
                  exact absurd hq (by decide)
          · -- double right-left rotation
            cases hrot : doubleRightLeftRotation fuel (bfAdjust h s flag).1 s with
            | error e0 =>
              have hdisp : rebalanceDispatch fuel (bfAdjust h s flag).1 s
                  (bfAdjust h s flag).2 = .error e0 := by
                unfold rebalanceDispatch
                rw [if_pos h2, hrc1]
                simp only []
                rw [hcbf1, if_neg (show ¬ (rd h c).balance_factor = 1 by rw [hcm1]; decide),
                  if_pos hcm1, hrot]
                rfl
              rw [hdisp] at hres2
              exact absurd (show (Except.error e0 : Res Heap) = .ok h' from hres2) (by simp)
            | ok hout =>
              have hdisp : rebalanceDispatch fuel (bfAdjust h s flag).1 s
                  (bfAdjust h s flag).2 = .ok (some hout) := by
                unfold rebalanceDispatch
                rw [if_pos h2, hrc1]
                simp only []
                rw [hcbf1, if_neg (show ¬ (rd h c).balance_factor = 1 by rw [hcm1]; decide),
                  if_pos hcm1, hrot]
                rfl
              rw [hdisp] at hres2
              have hh' : h' = hout :=
                (Except.ok.inj (show (Except.ok hout : Res Heap) = .ok h' from hres2)).symm
              subst hh'
              obtain ⟨r2, t2, hlen2, hsp2, hinor2, hdec2, hpok2, hord2, hbfe2, hbf2⟩ :=
                doubleRL_ok_inv hdec1 hnd hbound1 hpok1 hord1 hbfe1 hs hrot
              refine ⟨by rw [hlen2, bfAdjust_length],
                samePayload_trans (samePayload_bfAdjust h s flag) hsp2,
                r2, t2, ?_, ?_, hpok2, hord2, ?_⟩
              · refine decode_shrink hdec2 ?_
                rw [hinor2, hperm.length_eq, List.length_range, hlen2, bfAdjust_length]
                omega
              · rw [hinor2, hlen2, bfAdjust_length]
                exact hperm
              · refine bfOkE_imp_bfOk ⟨?_, ?_, ?_⟩ hbfe2
                · rw [hbf2]
                  decide
                · intro hq
                  rw [hbf2] at hq
                  exact absurd hq (by decide)
                · intro hq
                  rw [hbf2] at hq
                  exact absurd hq (by decide)
        · by_cases hm2 : (bfAdjust h s flag).2 = -2
          · -- lines 164-171: left-heavy dispatch
            obtain ⟨c, hclc, hcbf⟩ := hcm2 hm2
            have hcs : c ≠ s := lchild_ne hdec hnd hs hclc
            have hlc1 : (rd (bfAdjust h s flag).1 s).left_child = some c := by
              rw [(bfAdjust_frame h s flag s).1]
              exact hclc
            have hcbf1 : (rd (bfAdjust h s flag).1 c).balance_factor
                = (rd h c).balance_factor := by
              rw [bfAdjust_rd_ne c hcs]
            have hcb : (rd h c).balance_factor = 1 ∨ (rd h c).balance_factor = -1 := by
              omega
            rcases hcb with hc1 | hcm1
            · -- double left-right rotation
              cases hrot : doubleLeftRightRotation fuel (bfAdjust h s flag).1 s with
              | error e0 =>
                have hdisp : rebalanceDispatch fuel (bfAdjust h s flag).1 s
                    (bfAdjust h s flag).2 = .error e0 := by
                  unfold rebalanceDispatch
                  rw [if_neg h2, if_pos hm2, hlc1]
                  simp only []
                  rw [hcbf1, if_neg (show ¬ (rd h c).balance_factor = -1 by rw [hc1]; decide),
                    if_pos hc1, hrot]
                  rfl
                rw [hdisp] at hres2
                exact absurd (show (Except.error e0 : Res Heap) = .ok h' from hres2) (by simp)
              | ok hout =>
                have hdisp : rebalanceDispatch fuel (bfAdjust h s flag).1 s
                    (bfAdjust h s flag).2 = .ok (some hout) := by
                  unfold rebalanceDispatch
                  rw [if_neg h2, if_pos hm2, hlc1]
                  simp only []
                  rw [hcbf1, if_neg (show ¬ (rd h c).balance_factor = -1 by rw [hc1]; decide),
                    if_pos hc1, hrot]
                  rfl
                rw [hdisp] at hres2
                have hh' : h' = hout :=
                  (Except.ok.inj (show (Except.ok hout : Res Heap) = .ok h' from hres2)).symm
                subst hh'
                obtain ⟨r2, t2, hlen2, hsp2, hinor2, hdec2, hpok2, hord2, hbfe2, hbf2⟩ :=
                  doubleLR_ok_inv hdec1 hnd hbound1 hpok1 hord1 hbfe1 hs hrot
                refine ⟨by rw [hlen2, bfAdjust_length],
                  samePayload_trans (samePayload_bfAdjust h s flag) hsp2,
                  r2, t2, ?_, ?_, hpok2, hord2, ?_⟩
                · refine decode_shrink hdec2 ?_
                  rw [hinor2, hperm.length_eq, List.length_range, hlen2, bfAdjust_length]
                  omega
                · rw [hinor2, hlen2, bfAdjust_length]
                  exact hperm
                · refine bfOkE_imp_bfOk ⟨?_, ?_, ?_⟩ hbfe2
                  · rw [hbf2]
                    decide
                  · intro hq
                    rw [hbf2] at hq
                    exact absurd hq (by decide)
                  · intro hq
                    rw [hbf2] at hq
                    exact absurd hq (by decide)
            · -- single right rotation
              cases hrot : singleRightRotation fuel (bfAdjust h s flag).1 s with
              | error e0 =>
                have hdisp : rebalanceDispatch fuel (bfAdjust h s flag).1 s
                    (bfAdjust h s flag).2 = .error e0 := by
                  unfold rebalanceDispatch
                  rw [if_neg h2, if_pos hm2, hlc1]
                  simp only []
                  rw [hcbf1, if_pos hcm1, hrot]
                  rfl
                rw [hdisp] at hres2
                exact absurd (show (Except.error e0 : Res Heap) = .ok h' from hres2) (by simp)
              | ok out =>
                have hdisp : rebalanceDispatch fuel (bfAdjust h s flag).1 s
                    (bfAdjust h s flag).2 = .ok (some out.1) := by
                  unfold rebalanceDispatch
                  rw [if_neg h2, if_pos hm2, hlc1]
                  simp only []
                  rw [hcbf1, if_pos hcm1, hrot]
                  rfl
                rw [hdisp] at hres2
                have hh' : h' = out.1 :=
                  (Except.ok.inj (show (Except.ok out.1 : Res Heap) = .ok h' from hres2)).symm
                subst hh'
                obtain ⟨hlen2, hsp2, hinor2, hdec2, hpok2, hord2, hbfe2, hbf2⟩ :=
                  singleRight_ok_inv hdec1 hnd hbound1 hpok1 hord1 hbfe1 hs hrot
                refine ⟨by rw [hlen2, bfAdjust_length],
                  samePayload_trans (samePayload_bfAdjust h s flag) hsp2,
                  out.2, mapAt s rotR t, ?_, ?_, hpok2, hord2, ?_⟩
                · refine decode_shrink hdec2 ?_
                  rw [hinor2, hperm.length_eq, List.length_range, hlen2, bfAdjust_length]
                  omega
                · rw [hinor2, hlen2, bfAdjust_length]
                  exact hperm
                · refine bfOkE_imp_bfOk ⟨?_, ?_, ?_⟩ hbfe2
                  · rw [hbf2]
                    decide
                  · intro hq
                    rw [hbf2] at hq
                    exact absurd hq (by decide)
                  · intro hq
                    rw [hbf2] at hq
                    exact absurd hq (by decide)
          · -- adjusted factor is ±1: all elif guards false, fall through to 174-176
            have hone : (bfAdjust h s flag).2.natAbs = 1 := by omega
            have hdisp : rebalanceDispatch fuel (bfAdjust h s flag).1 s
                (bfAdjust h s flag).2 = .ok none := by
              unfold rebalanceDispatch
              rw [if_neg h2, if_neg hm2]
            rw [hdisp] at hres2
            have hres3 : (match (rd (bfAdjust h s flag).1 s).parent with
                | none => (.ok (bfAdjust h s flag).1 : Res Heap)
                | some p =>
                  match (rd (bfAdjust h s flag).1 p).right_child with
                  | none => .error .attributeError
                  | some prc =>
                    updateBalanceFactorsAndRebalance fuel (bfAdjust h s flag).1 p (prc = s))
                = .ok h' := hres2
            have hchkS : (rd (bfAdjust h s flag).1 s).balance_factor.natAbs ≤ 1 ∧
                ((rd (bfAdjust h s flag).1 s).balance_factor = 1 →
                  (rd (bfAdjust h s flag).1 s).right_child ≠ none) ∧
                ((rd (bfAdjust h s flag).1 s).balance_factor = -1 →
                  (rd (bfAdjust h s flag).1 s).left_child ≠ none) := by
              refine ⟨by rw [hbfs1]; omega, ?_, ?_⟩
              · intro hq
                rw [(bfAdjust_frame h s flag s).2.1]
                rw [hbfs1, bfAdjust_val] at hq
                cases flag with
                | true => exact hpres1 rfl
                | false =>
                  rw [if_neg (by decide)] at hq
                  exact absurd hq (bf_step_ne_one hbb)
              · intro hq
                rw [(bfAdjust_frame h s flag s).1]
                rw [hbfs1, bfAdjust_val] at hq
                cases flag with
                | true =>
                  rw [if_pos rfl] at hq
                  exact absurd hq (bf_step_ne_negone hbb)
                | false => exact hpres0 rfl
            have hbfok1 : bfOk (bfAdjust h s flag).1 t = true :=
              bfOkE_imp_bfOk hchkS hbfe1
            rw [(bfAdjust_frame h s flag s).2.2.1] at hres3
            cases hp : (rd h s).parent with
            | none =>
              rw [hp] at hres3
              have hh' : h' = (bfAdjust h s flag).1 :=
                (Except.ok.inj (show (Except.ok (bfAdjust h s flag).1 : Res Heap)
                  = .ok h' from hres3)).symm
              subst hh'
              exact ⟨bfAdjust_length h s flag, samePayload_bfAdjust h s flag, rt, t,
                by rw [bfAdjust_length]; exact hdec1, by rw [bfAdjust_length]; exact hperm,
                hpok1, hord1, hbfok1⟩
            | some p =>
              rw [hp] at hres3
              simp only [] at hres3
              rcases struct_child hdec hnd hpok hs hp with ⟨hpmem, hchild⟩ | hn
              swap
              · exact absurd hn (by simp)
              have hpns : p ≠ s := by
                intro he
                rcases hchild with hcl | hcr
                · rw [he] at hcl
                  exact (lchild_ne hdec hnd hs hcl) rfl
                · rw [he] at hcr
                  exact (rchild_ne hdec hnd hs hcr) rfl
              have hrdp : rd (bfAdjust h s flag).1 p = rd h p := bfAdjust_rd_ne p hpns
              rw [hrdp] at hres3
              cases hprc : (rd h p).right_child with
              | none =>
                rw [hprc] at hres3
                exact absurd (show (Except.error Err.attributeError : Res Heap)
                  = .ok h' from hres3) (by simp)
              | some prc =>
                rw [hprc] at hres3
                simp only [] at hres3
                have hdec1L : decode ((bfAdjust h s flag).1.length + 1)
                    (bfAdjust h s flag).1 (some rt) = some t := by
                  rw [bfAdjust_length]
                  exact hdec1
                have hperm1 : t.inorder.Perm (List.range (bfAdjust h s flag).1.length) := by
                  rw [bfAdjust_length]
                  exact hperm
                have hbp := (bfOk_mem hbfok p hpmem).1
                have hpres1N : (prc = s : Bool) = true →
                    (rd (bfAdjust h s flag).1 p).right_child ≠ none := by
                  intro _
                  rw [hrdp, hprc]
                  simp
                have hpres0N : (prc = s : Bool) = false →
                    (rd (bfAdjust h s flag).1 p).left_child ≠ none := by
                  intro hf
                  have hpsne : prc ≠ s := of_decide_eq_false hf
                  rcases hchild with hcl | hcr
                  · rw [hrdp, hcl]
                    simp
                  · rw [hprc] at hcr
                    injection hcr with h3
                    exact absurd h3 hpsne
                have hc2N : (bfAdjust (bfAdjust h s flag).1 p (prc = s)).2 = 2 →
                    ∃ c2, (rd (bfAdjust h s flag).1 p).right_child = some c2 ∧
                      (rd (bfAdjust h s flag).1 c2).balance_factor.natAbs = 1 := by
                  intro hv
                  rw [bfAdjust_val, hrdp] at hv
                  by_cases hps : prc = s
                  · refine ⟨prc, by rw [hrdp]; exact hprc, ?_⟩
                    rw [hps, hbfs1]
                    exact hone
                  · rw [if_neg (by simp [hps])] at hv
                    exact absurd hv (by omega)
                have hcm2N : (bfAdjust (bfAdjust h s flag).1 p (prc = s)).2 = -2 →
                    ∃ c2, (rd (bfAdjust h s flag).1 p).left_child = some c2 ∧
                      (rd (bfAdjust h s flag).1 c2).balance_factor.natAbs = 1 := by
                  intro hv
                  rw [bfAdjust_val, hrdp] at hv
                  by_cases hps : prc = s
                  · rw [if_pos (by simp [hps])] at hv
                    exact absurd hv (by omega)
                  · rcases hchild with hcl | hcr
                    · refine ⟨s, by rw [hrdp]; exact hcl, ?_⟩
                      rw [hbfs1]
                      exact hone
                    · rw [hprc] at hcr
                      injection hcr with h3
                      exact absurd h3 hps
                obtain ⟨hlen2, hsp2, rt2, t2, hdec2, hperm2, hpok2, hord2, hbfok2⟩ :=
                  ih hdec1L hperm1 hpok1 hord1 hbfok1 hpmem hpres1N hpres0N hc2N hcm2N hres3
                exact ⟨by rw [hlen2, bfAdjust_length],
                  samePayload_trans (samePayload_bfAdjust h s flag) hsp2,
                  rt2, t2, hdec2, by rw [hlen2] at hperm2; rw [hlen2]; exact hperm2,
                  hpok2, hord2, hbfok2⟩

/-! ## The max_position updates touch no other field -/

theorem wr_keep_frame {h : Heap} {s : Nat} {r : NodeRec}
    (hl : r.left_child = (rd h s).left_child) (hr2 : r.right_child = (rd h s).right_child)
    (hp : r.parent = (rd h s).parent) (hb : r.balance_factor = (rd h s).balance_factor)
    (hs2 : r.interval_start = (rd h s).interval_start) (j : Nat) :
    (rd (wr h s r) j).left_child = (rd h j).left_child ∧
    (rd (wr h s r) j).right_child = (rd h j).right_child ∧
    (rd (wr h s r) j).parent = (rd h j).parent ∧
    (rd (wr h s r) j).balance_factor = (rd h j).balance_factor ∧
    (rd (wr h s r) j).interval_start = (rd h j).interval_start := by
  by_cases hjs : j = s
  · subst hjs
    by_cases hj : j < h.length
    · rw [rd_wr_self h hj]
      exact ⟨hl, hr2, hp, hb, hs2⟩
    · rw [wr_oob h (by omega)]
      exact ⟨rfl, rfl, rfl, rfl, rfl⟩
  · rw [rd_wr_ne h (fun he => hjs he.symm)]
    exact ⟨rfl, rfl, rfl, rfl, rfl⟩

theorem maxUpdate_frame (h : Heap) (s j : Nat) :
    (rd (maxUpdate h s) j).left_child = (rd h j).left_child ∧
    (rd (maxUpdate h s) j).right_child = (rd h j).right_child ∧
    (rd (maxUpdate h s) j).parent = (rd h j).parent ∧
    (rd (maxUpdate h s) j).balance_factor = (rd h j).balance_factor ∧
    (rd (maxUpdate h s) j).interval_start = (rd h j).interval_start := by
  unfold maxUpdate
  simp only []
  cases hl : (rd h s).left_child with
  | none =>
    cases hr : (rd h s).right_child with
    | none => exact ⟨rfl, rfl, rfl, rfl, rfl⟩
    | some rr =>
      refine wr_keep_frame ?_ ?_ ?_ ?_ ?_ j <;> first | rfl | exact hl.symm | exact hr.symm
  | some ll =>
    cases hr : (rd h s).right_child with
    | none =>
      refine wr_keep_frame ?_ ?_ ?_ ?_ ?_ j <;> first | rfl | exact hl.symm | exact hr.symm
    | some rr =>
      refine wr_keep_frame ?_ ?_ ?_ ?_ ?_ j <;> first | rfl | exact hl.symm | exact hr.symm

theorem maxUpdate_length (h : Heap) (s : Nat) : (maxUpdate h s).length = h.length := by
  unfold maxUpdate
  simp only []
  cases (rd h s).left_child <;> cases (rd h s).right_child <;>
    first
    | rfl
    | exact wr_length h s _

theorem maxUpdates_length (h : Heap) : ∀ (path : List Nat),
    (maxUpdates h path).length = h.length
  | [] => rfl
  | i :: rest => by
    rw [show maxUpdates h (i :: rest) = maxUpdate (maxUpdates h rest) i from rfl,
      maxUpdate_length, maxUpdates_length h rest]

theorem maxUpdates_frame (h : Heap) (path : List Nat) (j : Nat) :
    (rd (maxUpdates h path) j).left_child = (rd h j).left_child ∧
    (rd (maxUpdates h path) j).right_child = (rd h j).right_child ∧
    (rd (maxUpdates h path) j).parent = (rd h j).parent ∧
    (rd (maxUpdates h path) j).balance_factor = (rd h j).balance_factor ∧
    (rd (maxUpdates h path) j).interval_start = (rd h j).interval_start := by
  induction path with
  | nil => exact ⟨rfl, rfl, rfl, rfl, rfl⟩
  | cons i rest ihp =>
    have hone := maxUpdate_frame (maxUpdates h rest) i j
    exact ⟨hone.1.trans ihp.1, hone.2.1.trans ihp.2.1, hone.2.2.1.trans ihp.2.2.1,
      hone.2.2.2.1.trans ihp.2.2.2.1, hone.2.2.2.2.trans ihp.2.2.2.2⟩

theorem samePayload_maxUpdates (h : Heap) : ∀ (path : List Nat),
    SamePayload h (maxUpdates h path)
  | [] => samePayload_refl h
  | i :: rest =>
    samePayload_trans (samePayload_maxUpdates h rest)
      (samePayload_maxUpdate (maxUpdates h rest) i)

/-! ## The placement factoring of insert (claim C6)

A completed `insert` is exactly: the comparison-directed descent of the
specification (`specDescent`), the two attachment writes
(`attachChild`), the rebalance driver, and one `maxUpdate` per visited
node on the way back out. -/

theorem insert_factoring : ∀ (fuel : Nat) (h : Heap) (self node : Nat)
    (out : Heap × Option Nat), insert fuel h self node = .ok out →
    ∃ path p side,
      specDescent fuel h self ((rd h node).interval_start) = some (path, p, side) ∧
      (if side then (rd h p).right_child else (rd h p).left_child) = none ∧
      path.getLast? = some p ∧
      (updateBalanceFactorsAndRebalance (fuel - path.length)
          (attachChild h p node side) p side).map
        (fun hd => ((maxUpdates hd path, (none : Option Nat)) : Heap × Option Nat))
        = .ok out
  | 0, _, _, _, _, hres => absurd hres (by simp [insert])
  | fuel + 1, h, self, node, out, hres => by
    unfold insert at hres
    split at hres
    · exact absurd hres (by simp)
    · rename_i h1 hstep
      injection hres with h2
      subst h2
      split at hstep
      case isTrue hge =>
        split at hstep
        case h_1 l hlc =>
          obtain ⟨p', hp', hpe⟩ := map_ok hstep
          obtain ⟨path, p, side, hdesc, hslot, hlast, hcomp⟩ :=
            insert_factoring fuel h l node p' hp'
          obtain ⟨hd0, hdrv, hfe⟩ := map_ok hcomp
          refine ⟨self :: path, p, side, ?_, hslot, ?_, ?_⟩
          · rw [specDescent_left hge hlc, hdesc]
            rfl
          · cases path with
            | nil => exact absurd hlast (by simp)
            | cons a t => simpa using hlast
          · have hlen : fuel + 1 - (self :: path).length = fuel - path.length := by
              simp [Nat.succ_sub_succ]
            rw [hlen, hdrv]
            have : p'.1 = maxUpdates hd0 path := by rw [← hfe]
            simp [Except.map, maxUpdates, ← hpe, this]
        case h_2 hlc =>
          refine ⟨[self], self, false, ?_, ?_, rfl, ?_⟩
          · exact specDescent_leftNone hge hlc
          · simpa using hlc
          · simp only [List.length_cons, List.length_nil, Nat.add_sub_cancel,
              Nat.succ_sub_one]
            rw [hstep]
            simp [Except.map, maxUpdates]
      case isFalse hge =>
        split at hstep
        case h_1 r hrc =>
          obtain ⟨p', hp', hpe⟩ := map_ok hstep
          obtain ⟨path, p, side, hdesc, hslot, hlast, hcomp⟩ :=
            insert_factoring fuel h r node p' hp'
          obtain ⟨hd0, hdrv, hfe⟩ := map_ok hcomp
          refine ⟨self :: path, p, side, ?_, hslot, ?_, ?_⟩
          · rw [specDescent_right hge hrc, hdesc]
            rfl
          · cases path with
            | nil => exact absurd hlast (by simp)
            | cons a t => simpa using hlast
          · have hlen : fuel + 1 - (self :: path).length = fuel - path.length := by
              simp [Nat.succ_sub_succ]
            rw [hlen, hdrv]
            have : p'.1 = maxUpdates hd0 path := by rw [← hfe]
            simp [Except.map, maxUpdates, ← hpe, this]
        case h_2 hrc =>
          refine ⟨[self], self, true, ?_, ?_, rfl, ?_⟩
          · exact specDescent_rightNone hge hrc
          · simpa using hrc
          · simp only [List.length_cons, List.length_nil, Nat.add_sub_cancel,
              Nat.succ_sub_one]
            rw [hstep]
            simp [Except.map, maxUpdates]

theorem attachChild_parent (h : Heap) (p node : Nat) (side : Bool)
    (hn : node < h.length) :
    (rd (attachChild h p node side) node).parent = some p := by
  unfold attachChild
  have hlen : (wr h node { rd h node with parent := some p }).length = h.length :=
    wr_length ..
  by_cases hpn : p = node
  · subst hpn
    cases side <;> simp only [Bool.false_eq_true, if_true, if_false] <;>
      rw [rd_wr_self _ (by rw [hlen]; exact hn), rd_wr_self _ hn]
  · cases side <;> simp only [Bool.false_eq_true, if_true, if_false] <;>
      rw [rd_wr_ne _ hpn, rd_wr_self _ hn]

/-! ## Appending a fresh object -/

theorem rd_append_lt (h : Heap) (n : NodeRec) {j : Nat} (hj : j < h.length) :
    rd (h ++ [n]) j = rd h j := by
  simp [rd, List.getD, List.getElem?_append_left hj]

theorem rd_append_self (h : Heap) (n : NodeRec) : rd (h ++ [n]) h.length = n := by
  simp [rd, List.getD, List.getElem?_append_right (Nat.le_refl h.length)]

/-! ## One completed insertion preserves the full invariant

`insert` is called on a heap that already satisfies the invariant below
its root `r`, extended with one fresh unlinked object `node`.  When the
call completes, the resulting heap satisfies the full invariant again
(below some root), returns `None`, has the same object count, and keeps
every object's payload. -/

theorem insert_ok_inv (fuel : Nat) {H : Heap} {r : Nat} {t : PTree} {node : Nat}
    {out : Heap × Option Nat}
    (hdec : decode (H.length + 1) H (some r) = some t)
    (hperm : (node :: t.inorder).Perm (List.range H.length))
    (hpok : parentsOk H t none = true)
    (hord : ordB H t = true)
    (hbfok : bfOk H t = true)
    (hnl : (rd H node).left_child = none)
    (hnr : (rd H node).right_child = none)
    (hnbf : (rd H node).balance_factor = 0)
    (hres : insert fuel H r node = .ok out) :
    out.2 = none ∧ out.1.length = H.length ∧ SamePayload H out.1 ∧
    ∃ rt2 t2, Inv out.1 rt2 t2 := by
  have hndall : (node :: t.inorder).Nodup :=
    (List.Perm.nodup_iff hperm).mpr (List.nodup_range _)
  have hfresh : node ∉ t.inorder := (List.nodup_cons.mp hndall).1
  have hnd : t.inorder.Nodup := (List.nodup_cons.mp hndall).2
  have hbound : ∀ i ∈ t.inorder, i < H.length := fun i hi =>
    List.mem_range.mp (hperm.mem_iff.mp (List.mem_cons_of_mem _ hi))
  have hnlt : node < H.length :=
    List.mem_range.mp (hperm.mem_iff.mp (List.mem_cons_self _ _))
  obtain ⟨path, p, side, hdesc, hslot, hlast, hcomp⟩ :=
    insert_factoring fuel H r node out hres
  obtain ⟨hd, hdrv, hout⟩ := map_ok hcomp
  have hsz : t.inorder.length < H.length := by
    have hl := hperm.length_eq
    simp only [List.length_cons, List.length_range] at hl
    omega
  have hdecF : decode H.length H (some r) = some t := decode_shrink hdec hsz
  obtain ⟨hpmem, hdecA, hpermA, hpokA, hordA, hbfokA⟩ :=
    attach_inv fuel hdesc hdecF hnd hfresh hnlt hbound hnl hnr rfl hnbf
  have hplt : p < H.length := hbound p hpmem
  have hpn : p ≠ node := fun he => hfresh (he ▸ hpmem)
  have hlenA : (attachChild H p node side).length = H.length :=
    attach_length H p node side
  have hrdAp : rd (attachChild H p node side) p =
      (if side then { rd H p with right_child := some node }
       else { rd H p with left_child := some node }) := attach_rd_p hpn hplt
  have hbfAp : (rd (attachChild H p node side) p).balance_factor
      = (rd H p).balance_factor := by
    rw [hrdAp]; cases side <;> rfl
  have hbfmem := bfOk_mem hbfok p hpmem
  have hadj : (bfAdjust (attachChild H p node side) p side).2
      = (if side then (rd (attachChild H p node side) p).balance_factor + 1
         else (rd (attachChild H p node side) p).balance_factor - 1) := rfl
  have hpres1 : side = true →
      (rd (attachChild H p node side) p).right_child ≠ none := by
    intro hside
    subst hside
    rw [hrdAp]
    simp
  have hpres0 : side = false →
      (rd (attachChild H p node side) p).left_child ≠ none := by
    intro hside
    subst hside
    rw [hrdAp]
    simp
  have hc2 : (bfAdjust (attachChild H p node side) p side).2 = 2 →
      ∃ c, (rd (attachChild H p node side) p).right_child = some c ∧
        (rd (attachChild H p node side) c).balance_factor.natAbs = 1 := by
    intro hq
    exfalso
    rw [hadj, hbfAp] at hq
    cases side with
    | false =>
      rw [if_neg (by decide)] at hq
      have hb := hbfmem.1
      omega
    | true =>
      rw [if_pos rfl] at hq
      have hbf1 : (rd H p).balance_factor = 1 := by omega
      exact hbfmem.2.1 hbf1 hslot
  have hcm2 : (bfAdjust (attachChild H p node side) p side).2 = -2 →
      ∃ c, (rd (attachChild H p node side) p).left_child = some c ∧
        (rd (attachChild H p node side) c).balance_factor.natAbs = 1 := by
    intro hq
    exfalso
    rw [hadj, hbfAp] at hq
    cases side with
    | false =>
      rw [if_neg (by decide)] at hq
      have hbf1 : (rd H p).balance_factor = -1 := by omega
      exact hbfmem.2.2 hbf1 hslot
    | true =>
      rw [if_pos rfl] at hq
      have hb := hbfmem.1
      omega
  have hdecA2 : decode ((attachChild H p node side).length + 1)
      (attachChild H p node side) (some r) = some (attachAt p side node t) := by
    rw [hlenA]
    exact hdecA
  have hpermA2 : (attachAt p side node t).inorder.Perm
      (List.range (attachChild H p node side).length) := by
    rw [hlenA]
    exact hpermA.trans hperm
  have hpmemA : p ∈ (attachAt p side node t).inorder :=
    hpermA.mem_iff.mpr (List.mem_cons_of_mem _ hpmem)
  obtain ⟨hlen2, hsp2, rt2, t2, hdec2, hperm2, hpok2, hord2, hbfok2⟩ :=
    ubfr_ok_inv (fuel - path.length) hdecA2 hpermA2 (hpokA none hpok) (hordA hord)
      (hbfokA hbfok) hpmemA hpres1 hpres0 hc2 hcm2 hdrv
  have hout2 : ((maxUpdates hd path, none) : Heap × Option Nat) = out := hout
  subst hout2
  refine ⟨rfl, ?_, ?_, rt2, t2, ?_, ?_, ?_, ?_, ?_⟩
  · show (maxUpdates hd path).length = H.length
    rw [maxUpdates_length hd path, hlen2, hlenA]
  · exact samePayload_trans
      (samePayload_trans (samePayload_attachChild H p node side) hsp2)
      (samePayload_maxUpdates hd path)
  · show decode ((maxUpdates hd path).length + 1) (maxUpdates hd path) (some rt2)
      = some t2
    rw [maxUpdates_length hd path]
    exact decode_linkCongr hdec2 (fun j _ =>
      ⟨(maxUpdates_frame hd path j).1, (maxUpdates_frame hd path j).2.1⟩)
  · show t2.inorder.Perm (List.range (maxUpdates hd path).length)
    rw [maxUpdates_length hd path]
    exact hperm2
  · exact parentsOk_congr (fun j _ => (maxUpdates_frame hd path j).2.2.1) hpok2
  · exact ordB_congr (fun j _ => (maxUpdates_frame hd path j).2.2.2.2) hord2
  · exact bfOk_congr (fun j _ =>
      ⟨(maxUpdates_frame hd path j).2.2.2.1, (maxUpdates_frame hd path j).1,
        (maxUpdates_frame hd path j).2.1⟩) hbfok2

/-! ## Whole insertion runs preserve the invariant -/

theorem runInsertsAux_inv : ∀ (rest : List (Int × Int)) (fuel : Nat) {h : Heap}
    {r : Nat} {t : PTree} {out : Heap × Nat},
    Inv h r t →
    runInsertsAux fuel h r rest = .ok out →
    ∃ t2, Inv out.1 out.2 t2
  | [], _fuel, h, r, t, out, hinv, hres => by
    have h2 : (Except.ok (h, r) : Res (Heap × Nat)) = .ok out := hres
    injection h2 with h3
    subst h3
    exact ⟨t, hinv⟩
  | (s, e) :: rest, fuel, h, r, t, out, hinv, hres => by
    obtain ⟨hdec, hperm, hpok, hord, hbfok⟩ := hinv
    have hres2 : ((insert fuel (h ++ [mkNode s e]) r h.length) >>= fun w =>
        (get_root fuel w.1 r) >>= fun r2 =>
        runInsertsAux fuel w.1 r2 rest) = .ok out := hres
    obtain ⟨w, hins, hrest⟩ := bind_ok hres2
    obtain ⟨r2, hroot, htail⟩ := bind_ok hrest
    have hlen1 : (h ++ [mkNode s e]).length = h.length + 1 := by simp
    have hbound : ∀ i ∈ t.inorder, i < h.length := fun i hi =>
      List.mem_range.mp (hperm.mem_iff.mp hi)
    have hframe : ∀ j ∈ t.inorder, rd (h ++ [mkNode s e]) j = rd h j :=
      fun j hj => rd_append_lt h _ (hbound j hj)
    have hdec1 : decode ((h ++ [mkNode s e]).length + 1) (h ++ [mkNode s e]) (some r)
        = some t := by
      rw [hlen1]
      exact decode_mono (by omega)
        (decode_linkCongr hdec (fun j hj => by rw [hframe j hj]; exact ⟨rfl, rfl⟩))
    have hperm1 : (h.length :: t.inorder).Perm
        (List.range (h ++ [mkNode s e]).length) := by
      rw [hlen1, List.range_succ]
      exact (hperm.cons h.length).trans (List.perm_append_singleton _ _).symm
    have hpok1 : parentsOk (h ++ [mkNode s e]) t none = true :=
      parentsOk_congr (fun j hj => by rw [hframe j hj]) hpok
    have hord1 : ordB (h ++ [mkNode s e]) t = true :=
      ordB_congr (fun j hj => by rw [hframe j hj]) hord
    have hbfok1 : bfOk (h ++ [mkNode s e]) t = true :=
      bfOk_congr (fun j hj => by rw [hframe j hj]; exact ⟨rfl, rfl, rfl⟩) hbfok
    have hrdn : rd (h ++ [mkNode s e]) h.length = mkNode s e := rd_append_self h _
    obtain ⟨_hw2, hwlen, _hwsp, rt2, t2, hinv2⟩ :=
      insert_ok_inv fuel hdec1 hperm1 hpok1 hord1 hbfok1
        (by rw [hrdn]; rfl) (by rw [hrdn]; rfl) (by rw [hrdn]; rfl) hins
    obtain ⟨hdec2, hperm2, hpok2, hord2, hbfok2⟩ := hinv2
    have hrlt : r < h.length := hbound r (decode_self_mem hdec)
    have hrmem2 : r ∈ t2.inorder := by
      apply hperm2.mem_iff.mpr
      apply List.mem_range.mpr
      rw [hwlen, hlen1]
      omega
    obtain ⟨l2, r2t, _hl2, _hr2, ht2shape⟩ := decode_some hdec2
    obtain ⟨d, hdtop⟩ := get_root_top hpok2 ht2shape hrmem2
    have hr2eq : r2 = rt2 := get_root_det hroot (hdtop 0)
    subst hr2eq
    exact runInsertsAux_inv rest fuel
      ⟨hdec2, hperm2, hpok2, hord2, hbfok2⟩ htail

/-! ## The in-order walk and the decoded tree agree -/

theorem subtreeIds_decode : ∀ {f : Nat} {h : Heap} {oi : Option Nat} {t : PTree},
    decode f h oi = some t → subtreeIds f h oi = some t.inorder := by
  intro f
  induction f with
  | zero =>
    intro h oi t hdec
    cases oi with
    | none =>
      rw [decode_none] at hdec
      injection hdec with h2
      subst h2
      rfl
    | some i => exact absurd hdec (by simp [decode])
  | succ fz ih =>
    intro h oi t hdec
    cases oi with
    | none =>
      rw [decode_none] at hdec
      injection hdec with h2
      subst h2
      rfl
    | some i =>
      obtain ⟨l, r, hl, hr, rfl⟩ := decode_some hdec
      show (do
        let l2 ← subtreeIds fz h (rd h i).left_child
        let r2 ← subtreeIds fz h (rd h i).right_child
        some (l2 ++ i :: r2)) = some (PTree.nd i l r).inorder
      rw [ih hl, ih hr]
      rfl

/-- The weak ordering, read off along the in-order walk: the
`interval_start` values are pairwise non-decreasing. -/
theorem ordB_pairwise : ∀ {t : PTree} {h : Heap}, ordB h t = true →
    t.inorder.Pairwise
      (fun a b => (rd h a).interval_start ≤ (rd h b).interval_start) := by
  intro t
  induction t with
  | lf => intro h _; exact List.Pairwise.nil
  | nd i l r ihl ihr =>
    intro h hord
    rw [ordB_nd] at hord
    obtain ⟨hL, hR, hol, hor⟩ := hord
    show (l.inorder ++ i :: r.inorder).Pairwise _
    rw [List.pairwise_append]
    refine ⟨ihl hol, ?_, ?_⟩
    · rw [List.pairwise_cons]
      exact ⟨fun b hb => hR b hb, ihr hor⟩
    · intro a ha b hb
      rw [List.mem_cons] at hb
      rcases hb with hbi | hbr
      · subst hbi
        exact hL a ha
      · exact le_trans (hL a ha) (hR b hbr)

/-- The invariant of the initial one-node tree. -/
theorem initial_inv (s e : Int) : Inv [mkNode s e] 0 (.nd 0 .lf .lf) := by
  refine ⟨rfl, ?_, rfl, rfl, rfl⟩
  show (PTree.nd 0 PTree.lf PTree.lf).inorder.Perm (List.range 1)
  decide

/-! ## Claim C2: the augmented maximum is wrong after rotations -/

/-- C2: the claim states that after each insertion completes every node's
`max_position` equals the true maximum `interval_end` of its subtree.
Evaluation at the failing input: inserting `(1,1), (2,2), (3,3)` completes
(the third insertion performs a single left rotation, which never
recomputes `max_position`), after which node 0 — the interval `(1,1)`,
now a leaf — stores `max_position = 2` while the brute-force maximum over
its subtree is `1`. -/
theorem C2_evaluation :
    runError 40 (1, 1) [(2, 2), (3, 3)] = none ∧
    (finalHeap 40 (1, 1) [(2, 2), (3, 3)]).map (fun h => (rd h 0).max_position)
      = some 2 ∧
    (finalHeap 40 (1, 1) [(2, 2), (3, 3)]).map (fun h => oracleMaxEnd 40 h 0)
      = some (some 1) ∧
    (2 : Int) ≠ 1 := by
  refine ⟨by decide, by decide, by decide, by decide⟩

/-! ## Claim C4: the rebalance driver dereferences a missing child -/

/-- C4: inserting the valid intervals `(3,3), (2,2), (1,1)` makes the
balance-factor propagation continue from a node that is the left child of
a parent with no right child; line 175 then evaluates
`self.parent.right_child.node_id` with `right_child = None`, raising
`AttributeError` — so this insertion does not terminate normally. -/
theorem C4_evaluation :
    runError 40 (3, 3) [(2, 2)] = none ∧
    runError 40 (3, 3) [(2, 2), (1, 1)] = some Err.attributeError := by
  refine ⟨by decide, by decide⟩

/-! ## Claim C5: the strict ordering invariant fails on duplicate keys -/

/-- C5 counterexample: the claim states that every node in a right
subtree has `interval_start` strictly greater than its ancestor's.  After
the completed insertions `(0,0), (1,1), (1,1)` (the third triggers a
right-then-left double rotation), the root is object 2 with
`interval_start = 1` and its right child is object 1, also with
`interval_start = 1` — not strictly greater. -/
theorem C5_counterexample :
    runError 40 (0, 0) [(1, 1), (1, 1)] = none ∧
    finalRoot 40 (0, 0) [(1, 1), (1, 1)] = some 2 ∧
    (finalHeap 40 (0, 0) [(1, 1), (1, 1)]).map (fun h => (rd h 2).right_child)
      = some (some 1) ∧
    (finalHeap 40 (0, 0) [(1, 1), (1, 1)]).map
        (fun h => ((rd h 2).interval_start, (rd h 1).interval_start))
      = some (1, 1) ∧
    ¬ ((1 : Int) > 1) := by
  refine ⟨by decide, by decide, by decide, by decide, by decide⟩


/-- C5 (amended): what survives of the ordering claim is the weak form:
after every completed insertion run, the decoded tree satisfies the weak
binary-search ordering (`ordB`: everything in a left subtree is `≤` the
node's `interval_start`, everything in a right subtree is `≥` — not the
claimed strict `>`), and consequently the in-order traversal yields
`interval_start` values in non-decreasing order. -/
theorem C5_theorem (fuel : Nat) (first : Int × Int) (rest : List (Int × Int))
    (h : Heap) (r : Nat)
    (hh : finalHeap fuel first rest = some h)
    (hr : finalRoot fuel first rest = some r) :
    ∃ t, decode (h.length + 1) h (some r) = some t ∧ ordB h t = true ∧
      inorderStarts (h.length + 1) h (some r)
        = some (t.inorder.map fun j => (rd h j).interval_start) ∧
      List.Pairwise (fun a b => a ≤ b)
        (t.inorder.map fun j => (rd h j).interval_start) := by
  cases hrun : runInserts fuel first rest with
  | error e =>
    unfold finalHeap at hh
    rw [hrun] at hh
    exact absurd hh (by simp)
  | ok pr =>
    unfold finalHeap at hh
    unfold finalRoot at hr
    rw [hrun] at hh hr
    have hh3 : some pr.1 = some h := hh
    have hr3 : some pr.2 = some r := hr
    injection hh3 with hh4
    injection hr3 with hr4
    subst hh4
    subst hr4
    have hrun2 : runInsertsAux fuel [mkNode first.1 first.2] 0 rest = .ok pr := hrun
    obtain ⟨t2, hinv2⟩ :=
      runInsertsAux_inv rest fuel (initial_inv first.1 first.2) hrun2
    obtain ⟨hdec2, hperm2, hpok2, hord2, hbfok2⟩ := hinv2
    refine ⟨t2, hdec2, hord2, ?_, ?_⟩
    · unfold inorderStarts
      rw [subtreeIds_decode hdec2]
      rfl
    · rw [List.pairwise_map]
      exact ordB_pairwise hord2

/-- Witness for C5 at a concrete run: inserting `(1,1)` into `(0,0)`. -/
theorem C5_witness :
    ∃ t, decode (((finalHeap 10 (0, 0) [(1, 1)]).getD []).length + 1)
        ((finalHeap 10 (0, 0) [(1, 1)]).getD [])
        (some ((finalRoot 10 (0, 0) [(1, 1)]).getD 0)) = some t ∧
      ordB ((finalHeap 10 (0, 0) [(1, 1)]).getD []) t = true ∧
      inorderStarts (((finalHeap 10 (0, 0) [(1, 1)]).getD []).length + 1)
          ((finalHeap 10 (0, 0) [(1, 1)]).getD [])
          (some ((finalRoot 10 (0, 0) [(1, 1)]).getD 0))
        = some (t.inorder.map fun j =>
            (rd ((finalHeap 10 (0, 0) [(1, 1)]).getD []) j).interval_start) ∧
      List.Pairwise (fun a b => a ≤ b)
        (t.inorder.map fun j =>
          (rd ((finalHeap 10 (0, 0) [(1, 1)]).getD []) j).interval_start) :=
  C5_theorem 10 (0, 0) [(1, 1)] ((finalHeap 10 (0, 0) [(1, 1)]).getD [])
    ((finalRoot 10 (0, 0) [(1, 1)]).getD 0) (by decide) (by decide)

/-! ## Claim C1: the balance factor no longer reflects subtree heights -/

/-- C1 counterexample: the claim states that after each completed
insertion every node's balance factor — `height(right) − height(left)`,
the quantity the specification defines and checks against an independent
subtree-height oracle — has absolute value at most 1.  The insertion
sequence `(0,0), (0,0), (1,1), (1,1), (2,2), (1,1), (2,2)` completes
without any exception, yet node 2 then has height balance `2` (its stored
`balance_factor` field holds `1`, disagreeing with the oracle): the tree
is no longer height-balanced. -/
theorem C1_counterexample :
    runError 60 (0, 0) [(0, 0), (1, 1), (1, 1), (2, 2), (1, 1), (2, 2)] = none ∧
    (finalHeap 60 (0, 0) [(0, 0), (1, 1), (1, 1), (2, 2), (1, 1), (2, 2)]).map
        (fun h => heightBalance 60 h 2)
      = some (some 2) ∧
    (finalHeap 60 (0, 0) [(0, 0), (1, 1), (1, 1), (2, 2), (1, 1), (2, 2)]).map
        (fun h => (rd h 2).balance_factor)
      = some 1 ∧
    ¬ ((2 : Int).natAbs ≤ 1) := by
  refine ⟨by decide, by decide, by decide, by decide⟩


/-- C1 (amended): what survives of the balance claim is its parenthetical
reading — the *stored* `balance_factor` field never remains at magnitude
`≥ 2` once an insertion run completes: after every completed run, every
allocated object's stored factor has absolute value at most `1` (while
the height-difference reading of the claim fails, as the counterexample
shows). -/
theorem C1_theorem (fuel : Nat) (first : Int × Int) (rest : List (Int × Int))
    (h : Heap) (hh : finalHeap fuel first rest = some h) :
    ∀ i, i < h.length → (rd h i).balance_factor.natAbs ≤ 1 := by
  cases hrun : runInserts fuel first rest with
  | error e =>
    unfold finalHeap at hh
    rw [hrun] at hh
    exact absurd hh (by simp)
  | ok pr =>
    unfold finalHeap at hh
    rw [hrun] at hh
    have hh3 : some pr.1 = some h := hh
    injection hh3 with hh4
    subst hh4
    have hrun2 : runInsertsAux fuel [mkNode first.1 first.2] 0 rest = .ok pr := hrun
    obtain ⟨t2, hinv2⟩ :=
      runInsertsAux_inv rest fuel (initial_inv first.1 first.2) hrun2
    obtain ⟨hdec2, hperm2, hpok2, hord2, hbfok2⟩ := hinv2
    intro i hi
    have himem : i ∈ t2.inorder := hperm2.mem_iff.mpr (List.mem_range.mpr hi)
    exact (bfOk_mem hbfok2 i himem).1

/-- Witness for C1 at a concrete run: inserting `(1,1)` into `(0,0)`,
checked at object `0`. -/
theorem C1_witness :
    (rd ((finalHeap 10 (0, 0) [(1, 1)]).getD []) 0).balance_factor.natAbs ≤ 1 :=
  C1_theorem 10 (0, 0) [(1, 1)] ((finalHeap 10 (0, 0) [(1, 1)]).getD [])
    (by decide) 0 (by decide)

/-! ## Claim C6: the insertion placement -/

/-- C6: insertion placement follows the comparison-directed descent.
`specDescent` is the specification's placement rule (descend comparing
`interval_start`; `≥` goes left, ties left, otherwise right; stop at the
first missing child slot).  Whenever `insert` completes and the descent
from `self` reaches `(path, p, side)`: the chosen slot of `p` was indeed
empty, `p` is the last node visited, the new node's `parent` is set to
`p` by the attachment writes, and the entire insertion factors as those
two attachment writes (`attachChild`), the rebalance driver, and one
`max_position` update per visited node on the way back out — so the new
node is attached exactly at the first missing slot on the comparison
path, under `p`. -/
theorem C6_theorem (fuel : Nat) (h : Heap) (self node : Nat) (out : Heap × Option Nat)
    (path : List Nat) (p : Nat) (side : Bool)
    (hn : node < h.length)
    (hres : insert fuel h self node = .ok out)
    (hdesc : specDescent fuel h self ((rd h node).interval_start)
      = some (path, p, side)) :
    (if side then (rd h p).right_child else (rd h p).left_child) = none ∧
    path.getLast? = some p ∧
    (rd (attachChild h p node side) node).parent = some p ∧
    (updateBalanceFactorsAndRebalance (fuel - path.length)
        (attachChild h p node side) p side).map
      (fun hd => ((maxUpdates hd path, (none : Option Nat)) : Heap × Option Nat))
      = .ok out := by
  obtain ⟨path', p', side', hdesc', hslot, hlast, hcomp⟩ :=
    insert_factoring fuel h self node out hres
  rw [hdesc] at hdesc'
  injection hdesc' with h2
  injection h2 with hA hB
  injection hB with hC hD
  subst hA; subst hC; subst hD
  exact ⟨hslot, hlast, attachChild_parent h p node side hn, hcomp⟩

/-- Witness for C6: inserting `(1,1)` into the one-node tree `(0,0)`;
the descent goes right once (0 < 1) and attaches under node 0. -/
theorem C6_witness :
    (if true then (rd [mkNode 0 0, mkNode 1 1] 0).right_child
     else (rd [mkNode 0 0, mkNode 1 1] 0).left_child) = none ∧
    [0].getLast? = some 0 ∧
    (rd (attachChild [mkNode 0 0, mkNode 1 1] 0 1 true) 1).parent = some 0 ∧
    (updateBalanceFactorsAndRebalance 9
        (attachChild [mkNode 0 0, mkNode 1 1] 0 1 true) 0 true).map
      (fun hd => ((maxUpdates hd [0], (none : Option Nat)) : Heap × Option Nat))
      = .ok ([{ left_child := none, right_child := some 1, parent := none, sequence := none,
                balance_factor := 1, interval_start := 0, interval_end := 0,
                ref_seq_id := none, targ_seq_id := none, max_position := 1 },
              { left_child := none, right_child := none, parent := some 0, sequence := none,
                balance_factor := 0, interval_start := 1, interval_end := 1,
                ref_seq_id := none, targ_seq_id := none, max_position := 1 }], none) :=
  C6_theorem 10 [mkNode 0 0, mkNode 1 1] 0 1
    ([{ left_child := none, right_child := some 1, parent := none, sequence := none,
        balance_factor := 1, interval_start := 0, interval_end := 0,
        ref_seq_id := none, targ_seq_id := none, max_position := 1 },
      { left_child := none, right_child := none, parent := some 0, sequence := none,
        balance_factor := 0, interval_start := 1, interval_end := 1,
        ref_seq_id := none, targ_seq_id := none, max_position := 1 }], none)
    [0] 0 true (by decide) (by decide) (by decide)

/-! ## Claim C3: insert does not return the new root -/

/-- C3 counterexample: the claim states that `insert` returns the tree's
new top node.  Starting from the completed tree of `(1,1), (2,2)` (rooted
at object 0) and inserting `(3,3)`, the insertion completes and a single
left rotation promotes object 1 to the top (`get_root` returns 1, not 0),
yet `insert` returns `None` — the caller receives no handle at all, let
alone the new top node. -/
theorem C3_counterexample :
    (match runInserts 40 (1, 1) [(2, 2)] with
      | .ok (h, r) =>
        match insert 40 (h ++ [mkNode 3 3]) r 2 with
        | .ok (h2, v) => some (r, v, get_root 40 h2 r)
        | .error _ => none
      | .error _ => none)
      = some (0, none, Except.ok 1) ∧ (1 : Nat) ≠ 0 := by
  refine ⟨by decide, by decide⟩

/-- C3 amended: `insert` never returns a node handle at all: on every
path it returns `None` (the rotations do compute `new_root.update_root()`
but the rebalance driver discards that value, and `insert` itself falls
off the end of the method body); after a root-promoting rotation the
caller must recover the new top through the parent links (`get_root`), as
the counterexample's concrete run shows. -/
theorem C3_theorem (fuel : Nat) (h : Heap) (s n : Nat) (out : Heap × Option Nat)
    (hres : insert fuel h s n = .ok out) : out.2 = none := by
  match fuel with
  | 0 => exact absurd hres (by simp [insert])
  | fuel + 1 =>
    unfold insert at hres
    split at hres
    · exact absurd hres (by simp)
    · injection hres with h2
      subst h2
      rfl

/-- Witness for C3: a concrete successful insertion (interval `(1,1)`
into the one-node tree `(0,0)`), whose return value is `None`. -/
theorem C3_witness :
    (([{ left_child := none, right_child := some 1, parent := none, sequence := none,
         balance_factor := 1, interval_start := 0, interval_end := 0, ref_seq_id := none,
         targ_seq_id := none, max_position := 1 },
       { left_child := none, right_child := none, parent := some 0, sequence := none,
         balance_factor := 0, interval_start := 1, interval_end := 1, ref_seq_id := none,
         targ_seq_id := none, max_position := 1 }], (none : Option Nat)) :
      Heap × Option Nat).2 = none :=
  C3_theorem 10 [mkNode 0 0, mkNode 1 1] 0 1
    ([{ left_child := none, right_child := some 1, parent := none, sequence := none,
         balance_factor := 1, interval_start := 0, interval_end := 0, ref_seq_id := none,
         targ_seq_id := none, max_position := 1 },
       { left_child := none, right_child := none, parent := some 0, sequence := none,
         balance_factor := 0, interval_start := 1, interval_end := 1, ref_seq_id := none,
         targ_seq_id := none, max_position := 1 }], none) (by decide)

/-! ## Claims C7 and C9: node creation always fails -/

/-- C7 counterexample: the claim states that creation fails with
`InvalidIntervalError` exactly when `start > end`, and succeeds otherwise.
In the source no interval validation exists: with `start = 1 > 0 = end`
the constructor raises `AttributeError` (not `InvalidIntervalError`), and
with the valid interval `start = 0 ≤ 0 = end` it raises the very same
`AttributeError` instead of succeeding, because line 22 reads the
undefined class attribute `_id_counter`. -/
theorem C7_counterexample :
    init classAttrs 1 0 none none none none none none
      = .error CreateErr.attributeError ∧
    CreateErr.attributeError ≠ CreateErr.invalidIntervalError ∧
    init classAttrs 0 0 none none none none none none
      = .error CreateErr.attributeError := by
  refine ⟨rfl, by decide, rfl⟩

/-- C7 amended: node creation never validates the interval and never
raises `InvalidIntervalError`; for every choice of `start`, `end` and
payload it fails with `AttributeError`, because line 22 reads the class
attribute `_id_counter` while line 11 only ever defines `id_counter`. -/
theorem C7_theorem (istart iend : Int) (left right parent sequence ref_seq_id targ_seq_id : Option Nat) :
    init classAttrs istart iend left right parent sequence ref_seq_id targ_seq_id
      = .error CreateErr.attributeError := rfl

/-- C9: the claim states that every node creation succeeds and assigns a
unique, monotonically increasing id from the class counter.  Evaluation
at the failing input — the very first creation, `(0, 0)` — shows the
lookup of `_id_counter` finding nothing (the class defines `id_counter`
instead, still at 0), so the constructor raises `AttributeError` before
any id is assigned. -/
theorem C9_evaluation :
    getClassAttr classAttrs "_id_counter" = none ∧
    getClassAttr classAttrs "id_counter" = some 0 ∧
    init classAttrs 0 0 none none none none none none
      = .error CreateErr.attributeError := by
  refine ⟨rfl, rfl, rfl⟩

/-! ## Claim C8: delete is a silent no-op -/

/-- C8 counterexample: the claim states that calling the deletion
operation fails with an explicit "unsupported operation" error and never
appears to succeed as a silent no-op.  Calling `delete` on the two-node
heap below returns normally (`None`), raising nothing and changing
nothing: it is precisely a silent no-op. -/
theorem C8_counterexample :
    delete [mkNode 0 5, mkNode 10 15] 0 1
      = .ok ([mkNode 0 5, mkNode 10 15], none) := rfl

/-- C8 amended: `delete` (a bare `pass`, lines 178-180) is a silent
no-op: for every tree state and every argument it returns `None`, raises
no error of any kind, and leaves the heap unchanged. -/
theorem C8_theorem (h : Heap) (a b : Nat) : delete h a b = .ok (h, none) := rfl

/-- C10: a completed `insert` never modifies the `interval_start`,
`interval_end` or payload fields (`sequence`, `ref_seq_id`,
`targ_seq_id`) of any object — neither of nodes already in the tree nor
of the new node; only `balance_factor`, `max_position` and the link
fields change. -/
theorem C10_theorem (fuel : Nat) (h : Heap) (s n : Nat) (out : Heap × Option Nat)
    (hres : insert fuel h s n = .ok out) (i : Nat) :
    (rd out.1 i).interval_start = (rd h i).interval_start ∧
    (rd out.1 i).interval_end = (rd h i).interval_end ∧
    (rd out.1 i).sequence = (rd h i).sequence ∧
    (rd out.1 i).ref_seq_id = (rd h i).ref_seq_id ∧
    (rd out.1 i).targ_seq_id = (rd h i).targ_seq_id := by
  have hp := samePayload_insert fuel hres i
  simp only [persistentFields, Prod.mk.injEq] at hp
  exact ⟨hp.1, hp.2.1, hp.2.2.1, hp.2.2.2.1, hp.2.2.2.2⟩

/-- Witness for C10: the concrete insertion of `(1,1)` into the one-node
tree `(0,0)` keeps the interval bounds and payload of object 0. -/
theorem C10_witness :
    (rd [{ left_child := none, right_child := some 1, parent := none, sequence := none,
           balance_factor := 1, interval_start := 0, interval_end := 0, ref_seq_id := none,
           targ_seq_id := none, max_position := 1 },
         { left_child := none, right_child := none, parent := some 0, sequence := none,
           balance_factor := 0, interval_start := 1, interval_end := 1, ref_seq_id := none,
           targ_seq_id := none, max_position := 1 }] 0).interval_start
      = (rd [mkNode 0 0, mkNode 1 1] 0).interval_start ∧
    (rd [{ left_child := none, right_child := some 1, parent := none, sequence := none,
           balance_factor := 1, interval_start := 0, interval_end := 0, ref_seq_id := none,
           targ_seq_id := none, max_position := 1 },
         { left_child := none, right_child := none, parent := some 0, sequence := none,
           balance_factor := 0, interval_start := 1, interval_end := 1, ref_seq_id := none,
           targ_seq_id := none, max_position := 1 }] 0).interval_end
      = (rd [mkNode 0 0, mkNode 1 1] 0).interval_end ∧
    (rd [{ left_child := none, right_child := some 1, parent := none, sequence := none,
           balance_factor := 1, interval_start := 0, interval_end := 0, ref_seq_id := none,
           targ_seq_id := none, max_position := 1 },
         { left_child := none, right_child := none, parent := some 0, sequence := none,
           balance_factor := 0, interval_start := 1, interval_end := 1, ref_seq_id := none,
           targ_seq_id := none, max_position := 1 }] 0).sequence
      = (rd [mkNode 0 0, mkNode 1 1] 0).sequence ∧
    (rd [{ left_child := none, right_child := some 1, parent := none, sequence := none,
           balance_factor := 1, interval_start := 0, interval_end := 0, ref_seq_id := none,
           targ_seq_id := none, max_position := 1 },
         { left_child := none, right_child := none, parent := some 0, sequence := none,
           balance_factor := 0, interval_start := 1, interval_end := 1, ref_seq_id := none,
           targ_seq_id := none, max_position := 1 }] 0).ref_seq_id
      = (rd [mkNode 0 0, mkNode 1 1] 0).ref_seq_id ∧
    (rd [{ left_child := none, right_child := some 1, parent := none, sequence := none,
           balance_factor := 1, interval_start := 0, interval_end := 0, ref_seq_id := none,
           targ_seq_id := none, max_position := 1 },
         { left_child := none, right_child := none, parent := some 0, sequence := none,
           balance_factor := 0, interval_start := 1, interval_end := 1, ref_seq_id := none,
           targ_seq_id := none, max_position := 1 }] 0).targ_seq_id
      = (rd [mkNode 0 0, mkNode 1 1] 0).targ_seq_id :=
  C10_theorem 10 [mkNode 0 0, mkNode 1 1] 0 1
    ([{ left_child := none, right_child := some 1, parent := none, sequence := none,
         balance_factor := 1, interval_start := 0, interval_end := 0, ref_seq_id := none,
         targ_seq_id := none, max_position := 1 },
       { left_child := none, right_child := none, parent := some 0, sequence := none,
         balance_factor := 0, interval_start := 1, interval_end := 1, ref_seq_id := none,
         targ_seq_id := none, max_position := 1 }], none) (by decide) 0

end ITG

